import Mathlib

/-!
Verification of the graph-reachability Zanzibar index.

This file shallowly embeds the Python sources of the repository
(src/index_v1.py, src/index_v2.py, src/zanzibar_utils_v1.py) and proves the
specification claims about them.

Modeling conventions, used throughout:

* Node identity in the index is the wrapped name string; nodes are modeled as
  elements of a finite universe Fin N (the index algorithm only ever compares
  nodes for equality).
* Python dictionaries and MultiSets are modeled by their content functions:
  a MultiSet is its total, zero-default count function; a dict of MultiSets is
  the curried count function; a dict of sets is a Boolean membership function.
  The code keeps every container canonical (a count entry is deleted exactly
  when it reaches zero, a dict entry is deleted exactly when its value becomes
  empty), so the content function determines the concrete container, and
  Python container equality is content equality.
* Code that can raise (ValueError from the domain checks, ValueError from a
  negative MultiSet write, the KeyError / TypeError sites noted below) is
  modeled in the Option monad, with none for a raise.  The runtime re-check
  _check_invariants is not modeled as a failure source: its assertions are
  exactly the invariants proved below for every reachable state.
-/

namespace IndexV2

/-- State of AcyclicGraphReachabilityIndexV2 (src/index_v2.py, lines 14-21),
with containers modeled by their content functions:
direct_edge_counts (u,v) is the stored multiplicity of the direct edge (u,v);
index_paths_counts u v is the stored path count from u to v (0 when absent);
inverted_index_paths v u is true iff u is a member of the stored set at v. -/
structure AcyclicGraphReachabilityIndexV2 (N : ℕ) where
  direct_edge_counts : Fin N → Fin N → ℕ
  index_paths_counts : Fin N → Fin N → ℕ
  inverted_index_paths : Fin N → Fin N → Bool

/-- Shorter alias for the index state. -/
abbrev State (N : ℕ) := AcyclicGraphReachabilityIndexV2 N

/-- The support of a zero-default count function, as the MultiSet item list. -/
def itemsOf {N : ℕ} (f : Fin N → ℕ) : List (Fin N) :=
  (List.finRange N).filter (fun x => f x ≠ 0)

/-- AcyclicGraphReachabilityIndexV2() : the empty index. -/
def emptyIndex (N : ℕ) : State N :=
  { direct_edge_counts := fun _ _ => 0
    index_paths_counts := fun _ _ => 0
    inverted_index_paths := fun _ _ => false }

/-- _add_indirect_edge (src/index_v2.py lines 59-75).  The two leading asserts
and the MultiSet rejection of a negative count are failures (none); the
final branch reads inverted_index_paths[_to], a KeyError (none) when that
row is absent, i.e. empty. -/
def _add_indirect_edge {N : ℕ} (s : State N) (f t : Fin N) (add_count : ℤ) :
    Option (State N) :=
  if add_count = 0 then none else
  if f = t then none else
  if (s.index_paths_counts f t : ℤ) + add_count < 0 then none else
  if 0 < (s.index_paths_counts f t : ℤ) + add_count then
    some { s with
      index_paths_counts := fun a b =>
        if a = f ∧ b = t then ((s.index_paths_counts f t : ℤ) + add_count).toNat
        else s.index_paths_counts a b
      inverted_index_paths := fun a b =>
        if a = t ∧ b = f then true else s.inverted_index_paths a b }
  else
    if (List.finRange N).all (fun x => !(s.inverted_index_paths t x)) then none
    else
      some { s with
        index_paths_counts := fun a b =>
          if a = f ∧ b = t then ((s.index_paths_counts f t : ℤ) + add_count).toNat
          else s.index_paths_counts a b
        inverted_index_paths := fun a b =>
          if a = t ∧ b = f then false else s.inverted_index_paths a b }

/-- _reachable_backwards (src/index_v2.py lines 49-53): the MultiSet of nodes
that reach the given node, read off the inverted index, with counts from the
forward index. -/
def _reachable_backwards {N : ℕ} (s : State N) (node : Fin N) : Fin N → ℕ :=
  fun x => if s.inverted_index_paths node x then s.index_paths_counts x node else 0

/-- _reachable_forwards (src/index_v2.py lines 55-57): a copy of the forward
row of the given node. -/
def _reachable_forwards {N : ℕ} (s : State N) (node : Fin N) : Fin N → ℕ :=
  fun y => s.index_paths_counts node y

/-- _add_edge_unsafe (src/index_v2.py lines 77-120).  The nested for-loops
over the two snapshot MultiSets are modeled as a single monadic fold over the
list of (source, dest, delta) updates they perform, in iteration order. -/
def add_edge_unchecked {N : ℕ} (s : State N) (node_from node_to : Fin N)
    (multiplier : ℤ) : Option (State N) :=
  -- assert multiplier in {-1, 1}
  if multiplier ≠ 1 ∧ multiplier ≠ -1 then none else
  -- we need to remove the direct edge first to preserve the invariant
  Option.bind
    (if node_from ≠ node_to ∧ multiplier < 0 then
      (if (s.direct_edge_counts node_from node_to : ℤ) + multiplier < 0 then none else
       _add_indirect_edge
         { s with direct_edge_counts := fun a b =>
             if a = node_from ∧ b = node_to then
               ((s.direct_edge_counts node_from node_to : ℤ) + multiplier).toNat
             else s.direct_edge_counts a b }
         node_from node_to multiplier)
    else some s) fun s₁ =>
  -- alternatively, remove the entire node from direct edges
  Option.bind
    (if node_from = node_to then
      (if multiplier ≠ -1 then none else
       some { s₁ with direct_edge_counts := fun a b =>
         if a = node_from ∨ b = node_from then 0 else s₁.direct_edge_counts a b })
    else some s₁) fun s₂ =>
  -- get the reachable nodes, and ensure we are not creating a cycle
  if _reachable_backwards s₂ node_from node_to ≠ 0 then none else
  if _reachable_forwards s₂ node_to node_from ≠ 0 then none else
  -- the three update loops, in iteration order
  Option.bind
    ((((itemsOf (_reachable_backwards s₂ node_from)).flatMap fun x =>
        (itemsOf (_reachable_forwards s₂ node_to)).map fun y =>
          (x, y, (_reachable_backwards s₂ node_from x : ℤ) *
            (_reachable_forwards s₂ node_to y : ℤ) * multiplier))
      ++ ((itemsOf (_reachable_forwards s₂ node_to)).map fun y =>
          (node_from, y, (_reachable_forwards s₂ node_to y : ℤ) * multiplier))
      ++ ((itemsOf (_reachable_backwards s₂ node_from)).map fun x =>
          (x, node_to, (_reachable_backwards s₂ node_from x : ℤ) * multiplier))).foldlM
      (fun st p => _add_indirect_edge st p.1 p.2.1 p.2.2) s₂) fun s₃ =>
  -- add the direct edge last to preserve the invariant
  if node_from ≠ node_to ∧ 0 < multiplier then
    Option.bind (_add_indirect_edge s₃ node_from node_to multiplier) fun s₄ =>
    if (s₄.direct_edge_counts node_from node_to : ℤ) + multiplier < 0 then none else
    some { s₄ with direct_edge_counts := fun a b =>
      if a = node_from ∧ b = node_to then
        ((s₄.direct_edge_counts node_from node_to : ℤ) + multiplier).toNat
      else s₄.direct_edge_counts a b }
  else some s₃

/-- add_edge (src/index_v2.py lines 122-130): sanity check, cycle guard,
then the unchecked update with multiplier 1. -/
def add_edge {N : ℕ} (s : State N) (node_from node_to : Fin N) :
    Option (State N) :=
  if node_from = node_to then none else
  if 0 < s.index_paths_counts node_to node_from then none else
  add_edge_unchecked s node_from node_to 1

/-- remove_edge (src/index_v2.py lines 132-140): sanity check, existence
guard, then the unchecked update with multiplier -1. -/
def remove_edge {N : ℕ} (s : State N) (node_from node_to : Fin N) :
    Option (State N) :=
  if node_from = node_to then none else
  if s.direct_edge_counts node_from node_to = 0 then none else
  add_edge_unchecked s node_from node_to (-1)

/-- remove_node (src/index_v2.py lines 142-143). -/
def remove_node {N : ℕ} (s : State N) (node : Fin N) : Option (State N) :=
  add_edge_unchecked s node node (-1)

/-- lookup_reachable (src/index_v2.py lines 149-150): the keys of the forward
row, empty when the row is absent. -/
def lookup_reachable {N : ℕ} (s : State N) (node_from : Fin N) : List (Fin N) :=
  itemsOf (s.index_paths_counts node_from)

/-- lookup_reverse (src/index_v2.py lines 152-153): dict.get with no default
returns None when the key is absent (the row is empty), and list(None) then
raises a TypeError, modeled as none. -/
def lookup_reverse {N : ℕ} (s : State N) (node_to : Fin N) :
    Option (List (Fin N)) :=
  if (List.finRange N).all (fun x => !(s.inverted_index_paths node_to x)) then none
  else some ((List.finRange N).filter (fun x => s.inverted_index_paths node_to x))

/-- The states reachable from the empty index by successful public
operations. -/
inductive Reachable {N : ℕ} : State N → Prop where
  | empty : Reachable (emptyIndex N)
  | add {s s' : State N} {u v : Fin N} :
      Reachable s → add_edge s u v = some s' → Reachable s'
  | remove {s s' : State N} {u v : Fin N} :
      Reachable s → remove_edge s u v = some s' → Reachable s'
  | removeNode {s s' : State N} {n : Fin N} :
      Reachable s → remove_node s n = some s' → Reachable s'

/-! ### Path counting in the direct-edge multigraph

The semantic ground truth the index is proved against: the number of directed
walks of a given length in the multigraph of direct edges, each walk weighted
by the product of the multiplicities of its edges.  On an acyclic multigraph
over Fin N every walk is a path of length at most N, so the truncated sum
pathCount below is the exact number of distinct directed paths. -/

/-- Number of weighted walks of length k from x to y in the multigraph A. -/
def walkCount {N : ℕ} (A : Fin N → Fin N → ℕ) : ℕ → Fin N → Fin N → ℕ
  | 0, x, y => if x = y then 1 else 0
  | k + 1, x, y => ∑ w : Fin N, A x w * walkCount A k w y

/-- Number of distinct directed paths (length at least 1) from x to y in the
acyclic multigraph A, as a truncated weighted-walk sum. -/
def pathCount {N : ℕ} (A : Fin N → Fin N → ℕ) (x y : Fin N) : ℕ :=
  ∑ k ∈ Finset.Icc 1 N, walkCount A k x y

/-- Acyclicity of the multigraph, by a decidable bounded check: no closed
walks of length 1..N. -/
def AcyclicB {N : ℕ} (A : Fin N → Fin N → ℕ) : Prop :=
  ∀ x : Fin N, ∀ k ∈ Finset.Icc 1 N, walkCount A k x x = 0

instance {N : ℕ} (A : Fin N → Fin N → ℕ) : Decidable (AcyclicB A) := by
  unfold AcyclicB; infer_instance

theorem walkCount_one {N : ℕ} (A : Fin N → Fin N → ℕ) (x y : Fin N) :
    walkCount A 1 x y = A x y := by
  simp [walkCount]

theorem walkCount_add {N : ℕ} (A : Fin N → Fin N → ℕ) (a b : ℕ) (x y : Fin N) :
    walkCount A (a + b) x y = ∑ z : Fin N, walkCount A a x z * walkCount A b z y := by
  induction a generalizing x with
  | zero =>
    rw [Nat.zero_add,
      Finset.sum_eq_single x (fun z _ hz => by simp [walkCount, Ne.symm hz])
        (fun h => absurd (Finset.mem_univ x) h)]
    simp [walkCount]
  | succ a ih =>
    have h1 : a + 1 + b = (a + b) + 1 := by omega
    rw [h1]
    calc ∑ w : Fin N, A x w * walkCount A (a + b) w y
        = ∑ w : Fin N, A x w * ∑ z : Fin N, walkCount A a w z * walkCount A b z y :=
          Finset.sum_congr rfl fun w _ => by rw [ih]
      _ = ∑ w : Fin N, ∑ z : Fin N, A x w * (walkCount A a w z * walkCount A b z y) :=
          Finset.sum_congr rfl fun w _ => Finset.mul_sum _ _ _
      _ = ∑ z : Fin N, ∑ w : Fin N, A x w * (walkCount A a w z * walkCount A b z y) :=
          Finset.sum_comm
      _ = ∑ z : Fin N, (∑ w : Fin N, A x w * walkCount A a w z) * walkCount A b z y := by
          refine Finset.sum_congr rfl fun z _ => ?_
          rw [Finset.sum_mul]
          exact Finset.sum_congr rfl fun w _ => by ring

theorem walkCount_le_of_le {N : ℕ} {A B : Fin N → Fin N → ℕ}
    (h : ∀ x y, A x y ≤ B x y) (k : ℕ) (x y : Fin N) :
    walkCount A k x y ≤ walkCount B k x y := by
  induction k generalizing x with
  | zero => simp [walkCount]
  | succ k ih =>
    simp only [walkCount]
    exact Finset.sum_le_sum fun w _ => Nat.mul_le_mul (h x w) (ih w)

theorem walkCount_compose_le {N : ℕ} (A : Fin N → Fin N → ℕ) (a b : ℕ)
    (x z y : Fin N) :
    walkCount A a x z * walkCount A b z y ≤ walkCount A (a + b) x y := by
  rw [walkCount_add]
  exact Finset.single_le_sum (f := fun w => walkCount A a x w * walkCount A b w y)
    (fun w _ => Nat.zero_le _) (Finset.mem_univ z)

/-- A positive walk count yields a chain of positive-multiplicity edges. -/
theorem walkCount_pos_chain {N : ℕ} (A : Fin N → Fin N → ℕ) :
    ∀ (k : ℕ) (x y : Fin N), 0 < walkCount A k x y →
    ∃ l : List (Fin N), l.length = k ∧
      List.Chain' (fun a b => 0 < A a b) (x :: l) ∧
      (x :: l).getLast (List.cons_ne_nil x l) = y := by
  intro k
  induction k with
  | zero =>
    intro x y h
    simp only [walkCount] at h
    split at h
    · exact ⟨[], rfl, List.chain'_singleton x, by simpa using ‹x = y›⟩
    · omega
  | succ k ih =>
    intro x y h
    simp only [walkCount] at h
    obtain ⟨w, -, hw⟩ : ∃ w ∈ Finset.univ, 0 < A x w * walkCount A k w y := by
      by_contra hc
      push_neg at hc
      have hzero : ∑ w : Fin N, A x w * walkCount A k w y = 0 :=
        Finset.sum_eq_zero fun w hmem => Nat.le_zero.mp (hc w hmem)
      omega
    have hA : 0 < A x w := Nat.pos_of_ne_zero fun h0 => by simp [h0] at hw
    have hWk : 0 < walkCount A k w y := Nat.pos_of_ne_zero fun h0 => by simp [h0] at hw
    obtain ⟨l, hl, hchain, hlast⟩ := ih w y hWk
    refine ⟨w :: l, by simp [hl], List.chain'_cons.mpr ⟨hA, hchain⟩, ?_⟩
    rw [List.getLast_cons (List.cons_ne_nil w l)]
    exact hlast

/-- A chain of positive-multiplicity edges yields a positive walk count. -/
theorem chain_walkCount_pos {N : ℕ} (A : Fin N → Fin N → ℕ) :
    ∀ (l : List (Fin N)) (x : Fin N),
      List.Chain' (fun a b => 0 < A a b) (x :: l) →
      0 < walkCount A l.length x ((x :: l).getLast (List.cons_ne_nil x l)) := by
  intro l
  induction l with
  | nil => intro x _; simp [walkCount]
  | cons w l ih =>
    intro x hchain
    rw [List.chain'_cons] at hchain
    have h1 := ih w hchain.2
    have h2 : A x w * walkCount A l.length w ((w :: l).getLast (List.cons_ne_nil w l))
        ≤ walkCount A (l.length + 1) x ((w :: l).getLast (List.cons_ne_nil w l)) := by
      calc A x w * walkCount A l.length w ((w :: l).getLast (List.cons_ne_nil w l))
          = walkCount A 1 x w * walkCount A l.length w ((w :: l).getLast (List.cons_ne_nil w l)) := by
            rw [walkCount_one]
        _ ≤ walkCount A (1 + l.length) x ((w :: l).getLast (List.cons_ne_nil w l)) :=
            walkCount_compose_le A 1 l.length x w _
        _ = walkCount A (l.length + 1) x ((w :: l).getLast (List.cons_ne_nil w l)) := by
            rw [Nat.add_comm]
    have hpos : 0 < A x w * walkCount A l.length w ((w :: l).getLast (List.cons_ne_nil w l)) :=
      Nat.mul_pos hchain.1 h1
    have := Nat.lt_of_lt_of_le hpos h2
    simpa [List.getLast_cons (List.cons_ne_nil w l)] using this

/-- Splitting a list around a duplicated element. -/
theorem sublist_pair_split {α : Type} {a : α} :
    ∀ {L : List α}, List.Sublist [a, a] L →
      ∃ l₁ l₂ l₃, L = l₁ ++ a :: (l₂ ++ a :: l₃) := by
  intro L h
  induction L with
  | nil => exact absurd (List.eq_nil_of_sublist_nil h) (by simp)
  | cons b L ih =>
    cases h with
    | cons _ hsub =>
      obtain ⟨l₁, l₂, l₃, heq⟩ := ih hsub
      exact ⟨b :: l₁, l₂, l₃, by simp [heq]⟩
    | cons₂ _ hsub =>
      have : a ∈ L := List.singleton_sublist.mp hsub
      obtain ⟨s, t, rfl⟩ := List.append_of_mem this
      exact ⟨[], s, t, rfl⟩

theorem getLast_append_singleton {α : Type} (l : List α) (a : α)
    (h : l ++ [a] ≠ []) : (l ++ [a]).getLast h = a := by
  induction l with
  | nil => rfl
  | cons b l ih =>
    show (b :: (l ++ [a])).getLast _ = a
    rw [List.getLast_cons (by simp : l ++ [a] ≠ [])]
    exact ih _

/-- A repeated vertex on a positive-multiplicity chain yields a closed walk
of positive count, shorter than the chain. -/
theorem exists_closed_subwalk {N : ℕ} {A : Fin N → Fin N → ℕ}
    {L : List (Fin N)} (hchain : List.Chain' (fun a b => 0 < A a b) L)
    (hdup : ¬ L.Nodup) :
    ∃ (a : Fin N) (m : ℕ), 1 ≤ m ∧ m + 1 ≤ L.length ∧ 0 < walkCount A m a a := by
  obtain ⟨a, hdupl⟩ := List.exists_duplicate_iff_not_nodup.mpr hdup
  have hsub := List.duplicate_iff_sublist.mp hdupl
  obtain ⟨l₁, l₂, l₃, heq⟩ := sublist_pair_split hsub
  have hinfix : (a :: (l₂ ++ [a])).IsInfix L := by
    refine ⟨l₁, l₃, ?_⟩
    rw [heq]
    simp
  have hchain2 : List.Chain' (fun a b => 0 < A a b) (a :: (l₂ ++ [a])) :=
    List.Chain'.infix hchain hinfix
  have hclosed := chain_walkCount_pos A (l₂ ++ [a]) a hchain2
  have hlast : ((a :: (l₂ ++ [a])).getLast (List.cons_ne_nil _ _)) = a := by
    rw [List.getLast_cons (by simp : l₂ ++ [a] ≠ [])]
    exact getLast_append_singleton l₂ a _
  rw [hlast] at hclosed
  refine ⟨a, (l₂ ++ [a]).length, by simp, ?_, hclosed⟩
  have : L.length = l₁.length + l₂.length + l₃.length + 2 := by
    rw [heq]; simp; omega
  simp only [List.length_append, List.length_cons, List.length_nil]
  omega

/-- In an acyclic multigraph over Fin N there are no walks of length N or
more: every long walk would repeat a vertex, producing a closed walk. -/
theorem walkCount_eq_zero_of_ge {N : ℕ} {A : Fin N → Fin N → ℕ}
    (hA : AcyclicB A) : ∀ (k : ℕ), N ≤ k → ∀ (x y : Fin N), walkCount A k x y = 0 := by
  intro k
  induction k using Nat.strong_induction_on with
  | _ k ih =>
    intro hk x y
    by_contra hpos
    have hpos : 0 < walkCount A k x y := Nat.pos_of_ne_zero hpos
    obtain ⟨l, hl, hchain, -⟩ := walkCount_pos_chain A k x y hpos
    have hcard : Fintype.card (Fin N) = N := Fintype.card_fin N
    have hnodup : ¬ (x :: l).Nodup := by
      intro hnd
      have := hnd.length_le_card
      simp [hl, hcard] at this
      omega
    obtain ⟨a, m, hm1, hm2, hmpos⟩ := exists_closed_subwalk hchain hnodup
    have hmk : m ≤ k := by simp [hl] at hm2; omega
    rcases le_or_lt m N with hmN | hmN
    · have := hA a m (Finset.mem_Icc.mpr ⟨hm1, hmN⟩)
      omega
    · -- m exceeds N; if m < k recurse, otherwise shorten the walk first
      rcases lt_or_eq_of_le hmk with hlt | rfl
      · have := ih m hlt (by omega) a a
        omega
      · -- the closed subwalk is the whole walk, so drop the last vertex
        have hchain' : List.Chain' (fun a b => 0 < A a b) ((x :: l).dropLast) :=
          hchain.prefix (List.dropLast_prefix _)
        have hlen : ((x :: l).dropLast).length = m := by
          simp [List.length_dropLast, hl]
        have hnodup' : ¬ ((x :: l).dropLast).Nodup := by
          intro hnd
          have := hnd.length_le_card
          rw [hlen, hcard] at this
          omega
        obtain ⟨b, m', hm1', hm2', hmpos'⟩ := exists_closed_subwalk hchain' hnodup'
        rw [hlen] at hm2'
        rcases le_or_lt m' N with hm'N | hm'N
        · have := hA b m' (Finset.mem_Icc.mpr ⟨hm1', hm'N⟩)
          omega
        · have := ih m' (by omega) (by omega) b b
          omega

/-- Unbounded acyclicity follows from the bounded check. -/
theorem acyclic_all {N : ℕ} {A : Fin N → Fin N → ℕ} (hA : AcyclicB A) :
    ∀ (k : ℕ), 1 ≤ k → ∀ (x : Fin N), walkCount A k x x = 0 := by
  intro k hk x
  rcases le_or_lt k N with h | h
  · exact hA x k (Finset.mem_Icc.mpr ⟨hk, h⟩)
  · exact walkCount_eq_zero_of_ge hA k (by omega) x x

/-! ### The single-edge delta identity

Adding one copy of the direct edge (u,v) to an acyclic multigraph in which v
does not reach u changes every walk count by the walks that cross the new
edge exactly once; summing over lengths, the path-count delta factors as
(paths to u) times (paths from v), which is precisely the update the three
loops of _add_edge_unsafe apply. -/

/-- The multigraph A with one extra copy of the edge (u,v). -/
def bump {N : ℕ} (A : Fin N → Fin N → ℕ) (u v : Fin N) : Fin N → Fin N → ℕ :=
  fun a b => if a = u ∧ b = v then A a b + 1 else A a b

theorem bump_apply_ne {N : ℕ} (A : Fin N → Fin N → ℕ) {u v a : Fin N} (b : Fin N)
    (ha : a ≠ u) : bump A u v a b = A a b := by
  simp [bump, ha]

theorem le_bump {N : ℕ} (A : Fin N → Fin N → ℕ) (u v : Fin N) :
    ∀ a b, A a b ≤ bump A u v a b := by
  intro a b
  unfold bump
  split <;> omega

/-- No walk in the bumped graph ends at u from a vertex that could not reach
u before, as long as that vertex is not u itself. -/
theorem bump_no_walk_to_u {N : ℕ} {A : Fin N → Fin N → ℕ} {u v : Fin N} :
    ∀ (j : ℕ) (x : Fin N), x ≠ u → (∀ k, 1 ≤ k → walkCount A k x u = 0) →
      walkCount (bump A u v) j x u = 0 := by
  intro j
  induction j with
  | zero => intro x hx _; simp [walkCount, hx]
  | succ j ih =>
    intro x hx hwalks
    simp only [walkCount]
    refine Finset.sum_eq_zero fun w _ => ?_
    rw [bump_apply_ne A w hx]
    rcases Nat.eq_zero_or_pos (A x w) with h0 | hpos
    · simp [h0]
    have hwu : w ≠ u := by
      rintro rfl
      have h1 := hwalks 1 (le_refl 1)
      rw [walkCount_one] at h1
      omega
    have hw : ∀ k, 1 ≤ k → walkCount A k w u = 0 := by
      intro k hk
      by_contra hne
      have hcomp := walkCount_compose_le A 1 k x w u
      rw [walkCount_one] at hcomp
      have := hwalks (1 + k) (by omega)
      have : 0 < A x w * walkCount A k w u :=
        Nat.mul_pos hpos (Nat.pos_of_ne_zero hne)
      omega
    rw [ih w hwu hw, Nat.mul_zero]

/-- Rows of vertices that cannot reach u in the bumped graph are unchanged by
the bump. -/
theorem bump_row_eq {N : ℕ} {A : Fin N → Fin N → ℕ} {u v : Fin N} :
    ∀ (j : ℕ) (x y : Fin N), x ≠ u →
      (∀ k, walkCount (bump A u v) k x u = 0) →
      walkCount (bump A u v) j x y = walkCount A j x y := by
  intro j
  induction j with
  | zero => intro x y _ _; rfl
  | succ j ih =>
    intro x y hx hblocked
    simp only [walkCount]
    refine Finset.sum_congr rfl fun w _ => ?_
    rw [bump_apply_ne A w hx]
    rcases Nat.eq_zero_or_pos (A x w) with h0 | hpos
    · simp [h0]
    have hwu : w ≠ u := by
      intro he
      have h1 := hblocked 1
      rw [walkCount_one, bump_apply_ne A u hx] at h1
      rw [he] at hpos
      omega
    have hw : ∀ k, walkCount (bump A u v) k w u = 0 := by
      intro k
      by_contra hne
      have hcomp := walkCount_compose_le (bump A u v) 1 k x w u
      rw [walkCount_one, bump_apply_ne A w hx] at hcomp
      have := hblocked (1 + k)
      have : 0 < A x w * walkCount (bump A u v) k w u :=
        Nat.mul_pos hpos (Nat.pos_of_ne_zero hne)
      omega
    rw [ih w y hwu hw]

/-- The main decomposition: walks in the bumped graph are walks in A plus
concatenations through the new copy of the edge (u,v). -/
theorem bump_walkCount {N : ℕ} {A : Fin N → Fin N → ℕ} {u v : Fin N}
    (huv : u ≠ v) (hvu : ∀ k, 1 ≤ k → walkCount A k v u = 0) :
    ∀ (k : ℕ) (x y : Fin N),
      walkCount (bump A u v) k x y =
        walkCount A k x y +
          ∑ i ∈ Finset.range k, walkCount A i x u * walkCount A (k - 1 - i) v y := by
  have hvrow : ∀ (j : ℕ) (y : Fin N),
      walkCount (bump A u v) j v y = walkCount A j v y := by
    intro j y
    exact bump_row_eq j v y huv.symm
      (fun k => bump_no_walk_to_u k v huv.symm hvu)
  intro k
  induction k with
  | zero => intro x y; simp [walkCount]
  | succ k ih =>
    intro x y
    have hsplit : ∀ w : Fin N,
        bump A u v x w * walkCount (bump A u v) k w y =
          A x w * walkCount (bump A u v) k w y +
            (if x = u ∧ w = v then 1 else 0) * walkCount (bump A u v) k w y := by
      intro w
      unfold bump
      split
      · ring
      · simp
    calc walkCount (bump A u v) (k + 1) x y
        = ∑ w : Fin N, bump A u v x w * walkCount (bump A u v) k w y := rfl
      _ = (∑ w : Fin N, A x w * walkCount (bump A u v) k w y) +
            ∑ w : Fin N, (if x = u ∧ w = v then 1 else 0) * walkCount (bump A u v) k w y := by
          rw [← Finset.sum_add_distrib]
          exact Finset.sum_congr rfl fun w _ => hsplit w
      _ = (∑ w : Fin N, A x w * walkCount (bump A u v) k w y) +
            (if x = u then 1 else 0) * walkCount A k v y := by
          congr 1
          rcases eq_or_ne x u with rfl | hx
          · rw [Finset.sum_eq_single v (fun w _ hw => by simp [hw])
              (fun h => absurd (Finset.mem_univ v) h)]
            simp [hvrow k y]
          · rw [if_neg hx, Finset.sum_eq_zero fun w _ => by simp [hx], Nat.zero_mul]
      _ = (∑ w : Fin N, A x w *
              (walkCount A k w y +
                ∑ i ∈ Finset.range k, walkCount A i w u * walkCount A (k - 1 - i) v y)) +
            (if x = u then 1 else 0) * walkCount A k v y := by
          congr 1
          exact Finset.sum_congr rfl fun w _ => by rw [ih w y]
      _ = walkCount A (k + 1) x y +
            ((∑ i ∈ Finset.range k,
                walkCount A (i + 1) x u * walkCount A (k - 1 - i) v y) +
              (if x = u then 1 else 0) * walkCount A k v y) := by
          have hdistrib : ∀ w : Fin N,
              A x w * (walkCount A k w y +
                  ∑ i ∈ Finset.range k, walkCount A i w u * walkCount A (k - 1 - i) v y) =
                A x w * walkCount A k w y +
                  ∑ i ∈ Finset.range k,
                    A x w * walkCount A i w u * walkCount A (k - 1 - i) v y := by
            intro w
            rw [Nat.mul_add, Finset.mul_sum]
            congr 1
            exact Finset.sum_congr rfl fun i _ => by ring
          calc (∑ w : Fin N, A x w *
                  (walkCount A k w y +
                    ∑ i ∈ Finset.range k, walkCount A i w u * walkCount A (k - 1 - i) v y)) +
                (if x = u then 1 else 0) * walkCount A k v y
              = ((∑ w : Fin N, A x w * walkCount A k w y) +
                  ∑ w : Fin N, ∑ i ∈ Finset.range k,
                    A x w * walkCount A i w u * walkCount A (k - 1 - i) v y) +
                (if x = u then 1 else 0) * walkCount A k v y := by
                rw [← Finset.sum_add_distrib]
                congr 1
                exact Finset.sum_congr rfl fun w _ => hdistrib w
            _ = walkCount A (k + 1) x y +
                  ((∑ i ∈ Finset.range k,
                      walkCount A (i + 1) x u * walkCount A (k - 1 - i) v y) +
                    (if x = u then 1 else 0) * walkCount A k v y) := by
                rw [Nat.add_assoc]
                congr 1
                congr 1
                rw [Finset.sum_comm]
                refine Finset.sum_congr rfl fun i _ => ?_
                have h1 : ∑ w : Fin N, A x w * walkCount A i w u * walkCount A (k - 1 - i) v y =
                    (∑ w : Fin N, A x w * walkCount A i w u) * walkCount A (k - 1 - i) v y := by
                  rw [Finset.sum_mul]
                have h2 : (∑ w : Fin N, A x w * walkCount A i w u) = walkCount A (i + 1) x u := rfl
                rw [h1, h2]
      _ = walkCount A (k + 1) x y +
            ∑ i ∈ Finset.range (k + 1), walkCount A i x u * walkCount A (k - i) v y := by
          congr 1
          rw [Finset.sum_range_succ']
          have hterm : walkCount A 0 x u * walkCount A (k - 0) v y =
              (if x = u then 1 else 0) * walkCount A k v y := by
            simp [walkCount]
          rw [hterm]
          congr 1
          refine Finset.sum_congr rfl fun i hi => ?_
          have hix : k - 1 - i = k - (i + 1) := by omega
          rw [hix]

/-- Adding the edge (u,v) to an acyclic graph in which v does not reach u
keeps the graph acyclic. -/
theorem bump_acyclic {N : ℕ} {A : Fin N → Fin N → ℕ} {u v : Fin N}
    (hA : AcyclicB A) (huv : u ≠ v)
    (hvu : ∀ k, 1 ≤ k → walkCount A k v u = 0) :
    ∀ k, 1 ≤ k → ∀ z : Fin N, walkCount (bump A u v) k z z = 0 := by
  intro k hk z
  rw [bump_walkCount huv hvu]
  rw [acyclic_all hA k hk z, Nat.zero_add]
  refine Finset.sum_eq_zero fun i hi => ?_
  rcases Nat.eq_zero_or_pos (walkCount A i z u) with h0 | hpos
  · rw [h0, Nat.zero_mul]
  rcases Nat.eq_zero_or_pos (walkCount A (k - 1 - i) v z) with h0 | hpos2
  · rw [h0, Nat.mul_zero]
  exfalso
  have hcomp := walkCount_compose_le A (k - 1 - i) i v z u
  rcases Nat.eq_zero_or_pos ((k - 1 - i) + i) with hzlen | hlen
  · have hi0 : i = 0 := by omega
    have hk1 : k - 1 - i = 0 := by omega
    rw [hi0] at hpos
    rw [hk1] at hpos2
    simp only [walkCount] at hpos hpos2
    split at hpos
    · split at hpos2
      · exact absurd (‹v = z›.trans ‹z = u›) (Ne.symm huv)
      · omega
    · omega
  · have hno := hvu ((k - 1 - i) + i) hlen
    have hgt : 0 < walkCount A ((k - 1 - i) + i) v u :=
      lt_of_lt_of_le (Nat.mul_pos hpos2 hpos) hcomp
    omega

theorem bump_acyclicB {N : ℕ} {A : Fin N → Fin N → ℕ} {u v : Fin N}
    (hA : AcyclicB A) (huv : u ≠ v)
    (hvu : ∀ k, 1 ≤ k → walkCount A k v u = 0) : AcyclicB (bump A u v) :=
  fun x k hk => bump_acyclic hA huv hvu k (Finset.mem_Icc.mp hk).1 x

/-- Summation core: a sum of antidiagonal slices equals the product of the
row sums once all terms beyond the triangle vanish. -/
theorem antidiagonal_sum_core {M : ℕ} {F G : ℕ → ℕ}
    (hvan : ∀ i j, M ≤ i + j → F i * G j = 0) :
    ∑ m ∈ Finset.range M, ∑ p ∈ Finset.antidiagonal m, F p.1 * G p.2 =
      (∑ i ∈ Finset.range M, F i) * (∑ j ∈ Finset.range M, G j) := by
  have hdisj : (↑(Finset.range M) : Set ℕ).PairwiseDisjoint Finset.antidiagonal := by
    intro a _ b _ hab
    refine Finset.disjoint_left.mpr fun p hpa hpb => ?_
    rw [Finset.mem_antidiagonal] at hpa hpb
    exact hab (by omega)
  have hsub : (Finset.range M).biUnion Finset.antidiagonal ⊆
      Finset.range M ×ˢ Finset.range M := by
    intro p hp
    rw [Finset.mem_biUnion] at hp
    obtain ⟨m, hm, hpm⟩ := hp
    rw [Finset.mem_antidiagonal] at hpm
    rw [Finset.mem_range] at hm
    rw [Finset.mem_product, Finset.mem_range, Finset.mem_range]
    omega
  rw [← Finset.sum_biUnion hdisj]
  calc ∑ p ∈ (Finset.range M).biUnion Finset.antidiagonal, F p.1 * G p.2
      = ∑ p ∈ Finset.range M ×ˢ Finset.range M, F p.1 * G p.2 := by
        refine Finset.sum_subset hsub fun p hp hnp => ?_
        rw [Finset.mem_product, Finset.mem_range, Finset.mem_range] at hp
        refine hvan p.1 p.2 ?_
        by_contra hlt
        push_neg at hlt
        exact hnp (Finset.mem_biUnion.mpr ⟨p.1 + p.2, Finset.mem_range.mpr (by omega),
          Finset.mem_antidiagonal.mpr rfl⟩)
    _ = ∑ i ∈ Finset.range M, ∑ j ∈ Finset.range M, F i * G j :=
        Finset.sum_product _ _ _
    _ = (∑ i ∈ Finset.range M, F i) * (∑ j ∈ Finset.range M, G j) :=
        (Finset.sum_mul_sum _ _ _ _).symm

/-- The walk counts of length 0..N-1 ending at z sum to the path count plus
the length-0 contribution. -/
theorem sum_range_walk_eq {N : ℕ} {A : Fin N → Fin N → ℕ} (hA : AcyclicB A)
    (x z : Fin N) :
    ∑ i ∈ Finset.range N, walkCount A i x z =
      (if x = z then 1 else 0) + pathCount A x z := by
  have hN : 0 < N := x.pos
  have h1 : pathCount A x z = ∑ i ∈ Finset.range N, walkCount A (1 + i) x z := by
    unfold pathCount
    rw [← Nat.Ico_succ_right, Finset.sum_Ico_eq_sum_range]
    simp
  obtain ⟨M, rfl⟩ : ∃ M, N = M + 1 := ⟨N - 1, by omega⟩
  rw [h1, Finset.sum_range_succ' (fun i => walkCount A i x z) M,
    Finset.sum_range_succ (fun i => walkCount A (1 + i) x z) M]
  have hnil : walkCount A (1 + M) x z = 0 :=
    walkCount_eq_zero_of_ge hA (1 + M) (by omega) x z
  have h0 : walkCount A 0 x z = if x = z then 1 else 0 := rfl
  rw [hnil, h0]
  have hcongr : ∑ i ∈ Finset.range M, walkCount A (i + 1) x z =
      ∑ i ∈ Finset.range M, walkCount A (1 + i) x z :=
    Finset.sum_congr rfl fun i _ => by rw [Nat.add_comm i 1]
  rw [hcongr]
  ring

/-- The path-count delta of a single edge addition factors as
(paths into u, plus the trivial one when starting at u) times
(paths out of v, plus the trivial one when ending at v). -/
theorem bump_pathCount {N : ℕ} {A : Fin N → Fin N → ℕ} {u v : Fin N}
    (hA : AcyclicB A) (huv : u ≠ v)
    (hvu : ∀ k, 1 ≤ k → walkCount A k v u = 0) (x y : Fin N) :
    pathCount (bump A u v) x y =
      pathCount A x y +
        ((if x = u then 1 else 0) + pathCount A x u) *
          ((if y = v then 1 else 0) + pathCount A v y) := by
  have hvan : ∀ i j, N ≤ i + j → walkCount A i x u * walkCount A j v y = 0 := by
    intro i j hij
    by_contra hne
    have hfi : 0 < walkCount A i x u :=
      Nat.pos_of_ne_zero fun h => hne (by rw [h, Nat.zero_mul])
    have hgj : 0 < walkCount A j v y :=
      Nat.pos_of_ne_zero fun h => hne (by rw [h, Nat.mul_zero])
    have hb1 : 0 < walkCount (bump A u v) i x u :=
      lt_of_lt_of_le hfi (walkCount_le_of_le (le_bump A u v) i x u)
    have hb2 : 0 < walkCount (bump A u v) j v y :=
      lt_of_lt_of_le hgj (walkCount_le_of_le (le_bump A u v) j v y)
    have hb3 : 0 < walkCount (bump A u v) 1 u v := by
      rw [walkCount_one]
      unfold bump
      simp
    have hcomp1 := walkCount_compose_le (bump A u v) 1 j u v y
    have hcomp2 := walkCount_compose_le (bump A u v) i (1 + j) x u y
    have hzero := walkCount_eq_zero_of_ge (bump_acyclicB hA huv hvu)
      (i + (1 + j)) (by omega) x y
    have hp1 : 0 < walkCount (bump A u v) 1 u v * walkCount (bump A u v) j v y :=
      Nat.mul_pos hb3 hb2
    have hp2 : 0 < walkCount (bump A u v) i x u * walkCount (bump A u v) (1 + j) u y :=
      Nat.mul_pos hb1 (lt_of_lt_of_le hp1 hcomp1)
    omega
  have hT : ∑ k ∈ Finset.Icc 1 N,
      ∑ i ∈ Finset.range k, walkCount A i x u * walkCount A (k - 1 - i) v y =
        (∑ i ∈ Finset.range N, walkCount A i x u) *
          (∑ j ∈ Finset.range N, walkCount A j v y) := by
    rw [← Nat.Ico_succ_right, Finset.sum_Ico_eq_sum_range]
    have hNN : N + 1 - 1 = N := by omega
    rw [hNN]
    have hstep : ∀ m,
        ∑ i ∈ Finset.range (1 + m), walkCount A i x u * walkCount A (1 + m - 1 - i) v y
          = ∑ p ∈ Finset.antidiagonal m, walkCount A p.1 x u * walkCount A p.2 v y := by
      intro m
      rw [Finset.Nat.sum_antidiagonal_eq_sum_range_succ_mk]
      have hm1 : 1 + m = m + 1 := by omega
      rw [hm1]
      refine Finset.sum_congr rfl fun i hi => ?_
      have : m + 1 - 1 - i = m - i := by omega
      rw [this]
    exact (Finset.sum_congr rfl fun m _ => hstep m).trans (antidiagonal_sum_core hvan)
  calc pathCount (bump A u v) x y
      = ∑ k ∈ Finset.Icc 1 N, (walkCount A k x y +
          ∑ i ∈ Finset.range k, walkCount A i x u * walkCount A (k - 1 - i) v y) :=
        Finset.sum_congr rfl fun k _ => bump_walkCount huv hvu k x y
    _ = (∑ k ∈ Finset.Icc 1 N, walkCount A k x y) +
          ∑ k ∈ Finset.Icc 1 N,
            ∑ i ∈ Finset.range k, walkCount A i x u * walkCount A (k - 1 - i) v y :=
        Finset.sum_add_distrib
    _ = pathCount A x y +
          ((if x = u then 1 else 0) + pathCount A x u) *
            ((if y = v then 1 else 0) + pathCount A v y) := by
        rw [hT, sum_range_walk_eq hA x u, sum_range_walk_eq hA v y]
        have hiff : (if v = y then 1 else 0) = (if y = v then 1 else 0) := by
          rcases eq_or_ne v y with rfl | hne
          · rfl
          · rw [if_neg hne, if_neg (Ne.symm hne)]
        rw [hiff]
        rfl

/-! ### The node-removal delta identity

remove_node(n) deletes every direct edge incident on n; the path counts of
the remaining graph are the old counts minus the paths through n, and the
latter factor as (paths into n) times (paths out of n). -/

/-- The multigraph A with every edge incident on n removed. -/
def zap {N : ℕ} (A : Fin N → Fin N → ℕ) (n : Fin N) : Fin N → Fin N → ℕ :=
  fun a b => if a = n ∨ b = n then 0 else A a b

theorem zap_le {N : ℕ} (A : Fin N → Fin N → ℕ) (n : Fin N) :
    ∀ a b, zap A n a b ≤ A a b := by
  intro a b
  unfold zap
  split <;> omega

theorem zap_walk_to_n {N : ℕ} (A : Fin N → Fin N → ℕ) (n : Fin N) :
    ∀ k, ∀ x : Fin N, walkCount (zap A n) (k + 1) x n = 0 := by
  intro k
  induction k with
  | zero =>
    intro x
    rw [walkCount_one]
    simp [zap]
  | succ k ih =>
    intro x
    show ∑ w : Fin N, zap A n x w * walkCount (zap A n) (k + 1) w n = 0
    exact Finset.sum_eq_zero fun w _ => by rw [ih w, Nat.mul_zero]

theorem zap_walk_from_n {N : ℕ} (A : Fin N → Fin N → ℕ) (n : Fin N) :
    ∀ k, ∀ y : Fin N, walkCount (zap A n) (k + 1) n y = 0 := by
  intro k y
  show ∑ w : Fin N, zap A n n w * walkCount (zap A n) k w y = 0
  refine Finset.sum_eq_zero fun w _ => ?_
  have hz : zap A n n w = 0 := by simp [zap]
  rw [hz, Nat.zero_mul]

theorem zap_acyclicB {N : ℕ} {A : Fin N → Fin N → ℕ} (hA : AcyclicB A)
    (n : Fin N) : AcyclicB (zap A n) := by
  intro x k hk
  have hle := walkCount_le_of_le (zap_le A n) k x x
  have := hA x k hk
  omega

/-- Walks avoiding n versus walks through n (which, in an acyclic graph,
visit n exactly once and split there). -/
theorem zap_walkCount {N : ℕ} {A : Fin N → Fin N → ℕ} {n : Fin N}
    (hAn : ∀ k, 1 ≤ k → walkCount A k n n = 0) :
    ∀ (k : ℕ) (x y : Fin N), x ≠ n → y ≠ n →
      walkCount A k x y = walkCount (zap A n) k x y +
        ∑ i ∈ Finset.range (k - 1),
          walkCount A (i + 1) x n * walkCount A (k - 1 - i) n y := by
  intro k
  induction k with
  | zero => intro x y _ _; simp [walkCount]
  | succ k ih =>
    intro x y hx hy
    rcases Nat.eq_zero_or_pos k with rfl | hk
    · -- length-1 walks: just the surviving direct edge
      rw [walkCount_one, walkCount_one]
      have hz : zap A n x y = A x y := by simp [zap, hx, hy]
      rw [hz]
      simp
    -- general step: split the first edge at w = n / w distinct from n
    have hsplit := Finset.sum_erase_add Finset.univ
      (fun w => A x w * walkCount A k w y) (Finset.mem_univ n)
    have hWn : ∀ i : ℕ, A x n * walkCount A (i + 1) n n = 0 := fun i => by
      rw [hAn (i + 1) (by omega), Nat.mul_zero]
    have hstep1 : ∀ w ∈ Finset.univ.erase n,
        A x w * walkCount A k w y =
          zap A n x w * walkCount (zap A n) k w y +
            ∑ i ∈ Finset.range (k - 1),
              A x w * walkCount A (i + 1) w n * walkCount A (k - 1 - i) n y := by
      intro w hw
      have hwn : w ≠ n := Finset.ne_of_mem_erase hw
      have hz : zap A n x w = A x w := by simp [zap, hx, hwn]
      rw [hz, ih w y hwn hy, Nat.mul_add, Finset.mul_sum]
      congr 1
      exact Finset.sum_congr rfl fun i _ => by ring
    calc walkCount A (k + 1) x y
        = (∑ w ∈ Finset.univ.erase n, A x w * walkCount A k w y) +
            A x n * walkCount A k n y := hsplit.symm
      _ = ((∑ w ∈ Finset.univ.erase n, zap A n x w * walkCount (zap A n) k w y) +
            ∑ w ∈ Finset.univ.erase n, ∑ i ∈ Finset.range (k - 1),
              A x w * walkCount A (i + 1) w n * walkCount A (k - 1 - i) n y) +
            A x n * walkCount A k n y := by
          rw [← Finset.sum_add_distrib]
          congr 1
          exact Finset.sum_congr rfl hstep1
      _ = (walkCount (zap A n) (k + 1) x y +
            ∑ i ∈ Finset.range (k - 1),
              walkCount A (i + 2) x n * walkCount A (k - 1 - i) n y) +
            A x n * walkCount A k n y := by
          congr 1
          congr 1
          · -- re-add the vanishing n term and fold the zap walk sum
            have hzn : zap A n x n * walkCount (zap A n) k n y = 0 := by
              have hz0 : zap A n x n = 0 := by simp [zap]
              rw [hz0, Nat.zero_mul]
            calc ∑ w ∈ Finset.univ.erase n, zap A n x w * walkCount (zap A n) k w y
                = (∑ w ∈ Finset.univ.erase n, zap A n x w * walkCount (zap A n) k w y)
                    + zap A n x n * walkCount (zap A n) k n y := by rw [hzn, Nat.add_zero]
              _ = ∑ w : Fin N, zap A n x w * walkCount (zap A n) k w y :=
                  Finset.sum_erase_add Finset.univ _ (Finset.mem_univ n)
              _ = walkCount (zap A n) (k + 1) x y := rfl
          · -- swap the double sum and fold the inner walk sum
            rw [Finset.sum_comm]
            refine Finset.sum_congr rfl fun i hi => ?_
            have hinner : ∑ w ∈ Finset.univ.erase n,
                A x w * walkCount A (i + 1) w n * walkCount A (k - 1 - i) n y =
                  (∑ w ∈ Finset.univ.erase n, A x w * walkCount A (i + 1) w n) *
                    walkCount A (k - 1 - i) n y := by
              rw [Finset.sum_mul]
            rw [hinner]
            congr 1
            calc ∑ w ∈ Finset.univ.erase n, A x w * walkCount A (i + 1) w n
                = (∑ w ∈ Finset.univ.erase n, A x w * walkCount A (i + 1) w n)
                    + A x n * walkCount A (i + 1) n n := by rw [hWn i]; omega
              _ = ∑ w : Fin N, A x w * walkCount A (i + 1) w n :=
                  Finset.sum_erase_add Finset.univ _ (Finset.mem_univ n)
              _ = walkCount A (i + 2) x n := rfl
      _ = walkCount (zap A n) (k + 1) x y +
            ∑ i ∈ Finset.range k,
              walkCount A (i + 1) x n * walkCount A (k - i) n y := by
          obtain ⟨m, rfl⟩ : ∃ m, k = m + 1 := ⟨k - 1, by omega⟩
          rw [Nat.add_assoc]
          congr 1
          rw [Finset.sum_range_succ' (fun i =>
            walkCount A (i + 1) x n * walkCount A (m + 1 - i) n y) m]
          congr 1
          · refine Finset.sum_congr rfl fun i hi => ?_
            rw [Finset.mem_range] at hi
            have e1 : m + 1 - 1 - i = m - i := by omega
            have e2 : m + 1 - (i + 1) = m - i := by omega
            rw [e1, e2]
          · rw [walkCount_one]
            have e3 : m + 1 - 0 = m + 1 := by omega
            rw [e3]
      _ = walkCount (zap A n) (k + 1) x y +
            ∑ i ∈ Finset.range (k + 1 - 1),
              walkCount A (i + 1) x n * walkCount A (k + 1 - 1 - i) n y := by
          have e1 : k + 1 - 1 = k := by omega
          rw [e1]

/-- pathCount as a shifted range sum. -/
theorem pathCount_eq_sum_range {N : ℕ} (A : Fin N → Fin N → ℕ) (x z : Fin N) :
    pathCount A x z = ∑ i ∈ Finset.range N, walkCount A (i + 1) x z := by
  unfold pathCount
  rw [← Nat.Ico_succ_right, Finset.sum_Ico_eq_sum_range]
  have e1 : N + 1 - 1 = N := by omega
  rw [e1]
  exact Finset.sum_congr rfl fun i _ => by rw [Nat.add_comm 1 i]

/-- The path counts after removing every edge at n: old counts minus the
paths through n. -/
theorem zap_pathCount {N : ℕ} {A : Fin N → Fin N → ℕ} {n : Fin N}
    (hA : AcyclicB A) (x y : Fin N) (hx : x ≠ n) (hy : y ≠ n) :
    pathCount A x y = pathCount (zap A n) x y + pathCount A x n * pathCount A n y := by
  have hAn : ∀ k, 1 ≤ k → walkCount A k n n = 0 := fun k hk => acyclic_all hA k hk n
  have hvan : ∀ i j : ℕ, N ≤ i + j + 2 →
      walkCount A (i + 1) x n * walkCount A (j + 1) n y = 0 := by
    intro i j hij
    by_contra hne
    have hfi : 0 < walkCount A (i + 1) x n :=
      Nat.pos_of_ne_zero fun h => hne (by rw [h, Nat.zero_mul])
    have hgj : 0 < walkCount A (j + 1) n y :=
      Nat.pos_of_ne_zero fun h => hne (by rw [h, Nat.mul_zero])
    have hcomp := walkCount_compose_le A (i + 1) (j + 1) x n y
    have hzero := walkCount_eq_zero_of_ge hA ((i + 1) + (j + 1)) (by omega) x y
    have := Nat.mul_pos hfi hgj
    omega
  obtain ⟨M, rfl⟩ : ∃ M, N = M + 1 := ⟨N - 1, by have := x.pos; omega⟩
  have hmid : ∀ m ∈ Finset.range M,
      ∑ i ∈ Finset.range (1 + (m + 1) - 1),
        walkCount A (i + 1) x n * walkCount A (1 + (m + 1) - 1 - i) n y =
      ∑ p ∈ Finset.antidiagonal m,
        walkCount A (p.1 + 1) x n * walkCount A (p.2 + 1) n y := by
    intro m _
    rw [Finset.Nat.sum_antidiagonal_eq_sum_range_succ_mk]
    refine Finset.sum_congr (by congr 1; omega) fun i hi => ?_
    rw [Finset.mem_range] at hi
    have e5 : 1 + (m + 1) - 1 - i = m - i + 1 := by omega
    rw [e5]
  have hfx : ∑ i ∈ Finset.range M, walkCount A (i + 1) x n =
      pathCount A x n := by
    rw [pathCount_eq_sum_range, Finset.sum_range_succ]
    have h0 : walkCount A (M + 1) x n = 0 :=
      walkCount_eq_zero_of_ge hA (M + 1) (by omega) x n
    rw [h0]
    omega
  have hgy : ∑ j ∈ Finset.range M, walkCount A (j + 1) n y =
      pathCount A n y := by
    rw [pathCount_eq_sum_range, Finset.sum_range_succ]
    have h0 : walkCount A (M + 1) n y = 0 :=
      walkCount_eq_zero_of_ge hA (M + 1) (by omega) n y
    rw [h0]
    omega
  have hT : ∑ k ∈ Finset.Icc 1 (M + 1), ∑ i ∈ Finset.range (k - 1),
      walkCount A (i + 1) x n * walkCount A (k - 1 - i) n y =
        pathCount A x n * pathCount A n y := by
    calc ∑ k ∈ Finset.Icc 1 (M + 1), ∑ i ∈ Finset.range (k - 1),
          walkCount A (i + 1) x n * walkCount A (k - 1 - i) n y
        = ∑ m ∈ Finset.range (M + 1), ∑ i ∈ Finset.range (1 + m - 1),
            walkCount A (i + 1) x n * walkCount A (1 + m - 1 - i) n y := by
          rw [← Nat.Ico_succ_right, Finset.sum_Ico_eq_sum_range]
          have e1 : M + 1 + 1 - 1 = M + 1 := by omega
          rw [e1]
      _ = (∑ m ∈ Finset.range M, ∑ i ∈ Finset.range (1 + (m + 1) - 1),
            walkCount A (i + 1) x n * walkCount A (1 + (m + 1) - 1 - i) n y) +
            ∑ i ∈ Finset.range (1 + 0 - 1),
              walkCount A (i + 1) x n * walkCount A (1 + 0 - 1 - i) n y :=
          Finset.sum_range_succ' (fun m => ∑ i ∈ Finset.range (1 + m - 1),
            walkCount A (i + 1) x n * walkCount A (1 + m - 1 - i) n y) M
      _ = ∑ m ∈ Finset.range M, ∑ p ∈ Finset.antidiagonal m,
            walkCount A (p.1 + 1) x n * walkCount A (p.2 + 1) n y := by
          have h0 : ∑ i ∈ Finset.range (1 + 0 - 1),
              walkCount A (i + 1) x n * walkCount A (1 + 0 - 1 - i) n y = 0 := by
            simp
          rw [h0, Nat.add_zero]
          exact Finset.sum_congr rfl hmid
      _ = (∑ i ∈ Finset.range M, walkCount A (i + 1) x n) *
            (∑ j ∈ Finset.range M, walkCount A (j + 1) n y) :=
          antidiagonal_sum_core (M := M) (F := fun i => walkCount A (i + 1) x n)
            (G := fun j => walkCount A (j + 1) n y)
            (fun i j hij => hvan i j (by omega))
      _ = pathCount A x n * pathCount A n y := by rw [hfx, hgy]
  calc pathCount A x y
      = ∑ k ∈ Finset.Icc 1 (M + 1), (walkCount (zap A n) k x y +
          ∑ i ∈ Finset.range (k - 1),
            walkCount A (i + 1) x n * walkCount A (k - 1 - i) n y) :=
        Finset.sum_congr rfl fun k _ => zap_walkCount hAn k x y hx hy
    _ = (∑ k ∈ Finset.Icc 1 (M + 1), walkCount (zap A n) k x y) +
          ∑ k ∈ Finset.Icc 1 (M + 1), ∑ i ∈ Finset.range (k - 1),
            walkCount A (i + 1) x n * walkCount A (k - 1 - i) n y :=
        Finset.sum_add_distrib
    _ = pathCount (zap A n) x y + pathCount A x n * pathCount A n y := by rw [hT]; rfl

/-! ### Effect of a batch of indirect-edge updates

The three loops of _add_edge_unsafe touch pairwise distinct (source, dest)
pairs, so their combined effect on the content of the containers is the
pointwise sum of the individual deltas. -/

/-- Successful single update, characterized. -/
theorem addIndirect_step {N : ℕ} (s : State N) (f t : Fin N) (c : ℤ)
    (hc : c ≠ 0) (hft : f ≠ t)
    (hge : 0 ≤ (s.index_paths_counts f t : ℤ) + c)
    (hz : (s.index_paths_counts f t : ℤ) + c = 0 →
      s.inverted_index_paths t f = true) :
    _add_indirect_edge s f t c = some
      { s with
        index_paths_counts := fun a b =>
          if a = f ∧ b = t then ((s.index_paths_counts f t : ℤ) + c).toNat
          else s.index_paths_counts a b
        inverted_index_paths := fun a b =>
          if a = t ∧ b = f then decide ((0:ℤ) < (s.index_paths_counts f t : ℤ) + c)
          else s.inverted_index_paths a b } := by
  unfold _add_indirect_edge
  rw [if_neg hc, if_neg hft, if_neg (not_lt.mpr hge)]
  by_cases hpos : (0:ℤ) < (s.index_paths_counts f t : ℤ) + c
  · rw [if_pos hpos]
    have hd : decide ((0:ℤ) < (s.index_paths_counts f t : ℤ) + c) = true :=
      decide_eq_true hpos
    rw [hd]
  · have h0 : (s.index_paths_counts f t : ℤ) + c = 0 := by omega
    rw [if_neg hpos]
    have hkey : ¬ ((List.finRange N).all fun x => !(s.inverted_index_paths t x)) = true := by
      intro hall
      have := List.all_eq_true.mp hall f (List.mem_finRange f)
      rw [hz h0] at this
      simp at this
    rw [if_neg hkey]
    have hd : decide ((0:ℤ) < (s.index_paths_counts f t : ℤ) + c) = false := by
      rw [decide_eq_false_iff_not]
      omega
    rw [hd]

/-- Effect of folding _add_indirect_edge over a list of updates with pairwise
distinct (source, dest) pairs. -/
theorem addIndirect_fold {N : ℕ} :
    ∀ (l : List (Fin N × Fin N × ℤ)) (s : State N),
      (l.Pairwise fun p q => (p.1, p.2.1) ≠ (q.1, q.2.1)) →
      (∀ p ∈ l, p.2.2 ≠ 0 ∧ p.1 ≠ p.2.1 ∧
        0 ≤ (s.index_paths_counts p.1 p.2.1 : ℤ) + p.2.2 ∧
        ((s.index_paths_counts p.1 p.2.1 : ℤ) + p.2.2 = 0 →
          s.inverted_index_paths p.2.1 p.1 = true)) →
      ∃ s' : State N,
        l.foldlM (fun st u => _add_indirect_edge st u.1 u.2.1 u.2.2) s = some s' ∧
        s'.direct_edge_counts = s.direct_edge_counts ∧
        (∀ a b : Fin N, (∀ p ∈ l, (p.1, p.2.1) ≠ (a, b)) →
          s'.index_paths_counts a b = s.index_paths_counts a b ∧
          s'.inverted_index_paths b a = s.inverted_index_paths b a) ∧
        (∀ p ∈ l,
          s'.index_paths_counts p.1 p.2.1 =
            ((s.index_paths_counts p.1 p.2.1 : ℤ) + p.2.2).toNat ∧
          s'.inverted_index_paths p.2.1 p.1 =
            decide ((0:ℤ) < (s.index_paths_counts p.1 p.2.1 : ℤ) + p.2.2)) := by
  intro l
  induction l with
  | nil =>
    intro s _ _
    exact ⟨s, rfl, rfl, fun a b _ => ⟨rfl, rfl⟩, fun p hp => absurd hp (by simp)⟩
  | cons p l ih =>
    intro s hpw hok
    obtain ⟨hc, hft, hge, hz⟩ := hok p (List.mem_cons_self p l)
    have hstep := addIndirect_step s p.1 p.2.1 p.2.2 hc hft hge hz
    set s₂ : State N :=
      { s with
        index_paths_counts := fun a b =>
          if a = p.1 ∧ b = p.2.1 then ((s.index_paths_counts p.1 p.2.1 : ℤ) + p.2.2).toNat
          else s.index_paths_counts a b
        inverted_index_paths := fun a b =>
          if a = p.2.1 ∧ b = p.1 then
            decide ((0:ℤ) < (s.index_paths_counts p.1 p.2.1 : ℤ) + p.2.2)
          else s.inverted_index_paths a b } with hs₂
    have hpw' := (List.pairwise_cons.mp hpw).2
    have hhead := (List.pairwise_cons.mp hpw).1
    -- the tail's pairs are untouched by the head update
    have htail_fwd : ∀ q ∈ l, s₂.index_paths_counts q.1 q.2.1 =
        s.index_paths_counts q.1 q.2.1 := by
      intro q hq
      have hne : (p.1, p.2.1) ≠ (q.1, q.2.1) := hhead q hq
      show (if q.1 = p.1 ∧ q.2.1 = p.2.1 then _ else _) = _
      rw [if_neg]
      rintro ⟨h1, h2⟩
      exact hne (by rw [h1, h2])
    have htail_inv : ∀ q ∈ l, s₂.inverted_index_paths q.2.1 q.1 =
        s.inverted_index_paths q.2.1 q.1 := by
      intro q hq
      have hne : (p.1, p.2.1) ≠ (q.1, q.2.1) := hhead q hq
      show (if q.2.1 = p.2.1 ∧ q.1 = p.1 then _ else _) = _
      rw [if_neg]
      rintro ⟨h1, h2⟩
      exact hne (by rw [h1, h2])
    have hok' : ∀ q ∈ l, q.2.2 ≠ 0 ∧ q.1 ≠ q.2.1 ∧
        0 ≤ (s₂.index_paths_counts q.1 q.2.1 : ℤ) + q.2.2 ∧
        ((s₂.index_paths_counts q.1 q.2.1 : ℤ) + q.2.2 = 0 →
          s₂.inverted_index_paths q.2.1 q.1 = true) := by
      intro q hq
      obtain ⟨h1, h2, h3, h4⟩ := hok q (List.mem_cons_of_mem p hq)
      rw [htail_fwd q hq, htail_inv q hq]
      exact ⟨h1, h2, h3, h4⟩
    obtain ⟨s', hrun, hdir, huntouched, htouched⟩ := ih s₂ hpw' hok'
    refine ⟨s', ?_, ?_, ?_, ?_⟩
    · show Option.bind (_add_indirect_edge s p.1 p.2.1 p.2.2) _ = some s'
      rw [hstep]
      exact hrun
    · rw [hdir]
    · intro a b hab
      have hne : (p.1, p.2.1) ≠ (a, b) := hab p (List.mem_cons_self p l)
      obtain ⟨hf, hi⟩ := huntouched a b fun q hq => hab q (List.mem_cons_of_mem p hq)
      constructor
      · rw [hf]
        show (if a = p.1 ∧ b = p.2.1 then _ else _) = _
        rw [if_neg]
        rintro ⟨h1, h2⟩
        exact hne (by rw [h1, h2])
      · rw [hi]
        show (if b = p.2.1 ∧ a = p.1 then _ else _) = _
        rw [if_neg]
        rintro ⟨h1, h2⟩
        exact hne (by rw [h1, h2])
    · intro q hq
      rcases List.mem_cons.mp hq with hq0 | hq'
      · -- the head pair: set by the first step, untouched afterwards
        rw [hq0]
        obtain ⟨hf, hi⟩ := huntouched p.1 p.2.1 fun r hr => Ne.symm (hhead r hr)
        constructor
        · rw [hf]
          show (if p.1 = p.1 ∧ p.2.1 = p.2.1 then
            ((s.index_paths_counts p.1 p.2.1 : ℤ) + p.2.2).toNat
            else s.index_paths_counts p.1 p.2.1) = _
          rw [if_pos ⟨rfl, rfl⟩]
        · rw [hi]
          show (if p.2.1 = p.2.1 ∧ p.1 = p.1 then
            decide ((0:ℤ) < (s.index_paths_counts p.1 p.2.1 : ℤ) + p.2.2)
            else s.inverted_index_paths p.2.1 p.1) = _
          rw [if_pos ⟨rfl, rfl⟩]
      · obtain ⟨hf, hi⟩ := htouched q hq'
        rw [hf, hi, htail_fwd q hq']
        exact ⟨rfl, rfl⟩

/-! ### Path-count helper lemmas -/

theorem pathCount_self_zero {N : ℕ} {A : Fin N → Fin N → ℕ} (hA : AcyclicB A)
    (x : Fin N) : pathCount A x x = 0 :=
  Finset.sum_eq_zero fun k hk => hA x k hk

theorem direct_le_pathCount {N : ℕ} (A : Fin N → Fin N → ℕ) (x y : Fin N) :
    A x y ≤ pathCount A x y := by
  have hN : 0 < N := x.pos
  have h1 : walkCount A 1 x y = A x y := walkCount_one A x y
  rw [← h1]
  exact Finset.single_le_sum (f := fun k => walkCount A k x y)
    (fun k _ => Nat.zero_le _) (Finset.mem_Icc.mpr ⟨le_refl 1, hN⟩)

theorem no_walk_of_pathCount_zero {N : ℕ} {A : Fin N → Fin N → ℕ}
    (hA : AcyclicB A) {x y : Fin N} (h : pathCount A x y = 0) :
    ∀ k, 1 ≤ k → walkCount A k x y = 0 := by
  intro k hk
  rcases le_or_lt k N with hkN | hkN
  · have := Finset.sum_eq_zero_iff.mp h k (Finset.mem_Icc.mpr ⟨hk, hkN⟩)
    exact this
  · exact walkCount_eq_zero_of_ge hA k (by omega) x y

theorem pathCount_pos_of_walk {N : ℕ} {A : Fin N → Fin N → ℕ}
    (hA : AcyclicB A) {x y : Fin N} {k : ℕ} (hk : 1 ≤ k)
    (h : 0 < walkCount A k x y) : 0 < pathCount A x y := by
  by_contra hc
  push_neg at hc
  have h0 : pathCount A x y = 0 := by omega
  rw [no_walk_of_pathCount_zero hA h0 k hk] at h
  omega

theorem pathCount_pos_elim {N : ℕ} {A : Fin N → Fin N → ℕ}
    {x y : Fin N} (h : 0 < pathCount A x y) :
    ∃ k, 1 ≤ k ∧ 0 < walkCount A k x y := by
  by_contra hc
  push_neg at hc
  have h0 : pathCount A x y = 0 :=
    Finset.sum_eq_zero fun k hk =>
      Nat.le_zero.mp (hc k (Finset.mem_Icc.mp hk).1)
  omega

theorem pathCount_trans {N : ℕ} {A : Fin N → Fin N → ℕ} (hA : AcyclicB A)
    {a b c : Fin N} (h1 : 0 < pathCount A a b) (h2 : 0 < pathCount A b c) :
    0 < pathCount A a c := by
  obtain ⟨k1, hk1, hw1⟩ := pathCount_pos_elim h1
  obtain ⟨k2, hk2, hw2⟩ := pathCount_pos_elim h2
  have hcomp := walkCount_compose_le A k1 k2 a b c
  exact pathCount_pos_of_walk hA (k := k1 + k2) (by omega)
    (lt_of_lt_of_le (Nat.mul_pos hw1 hw2) hcomp)

/-- An acyclic graph containing the edge (u,v) has no path from v to u. -/
theorem no_vu_walk_of_edge {N : ℕ} {A : Fin N → Fin N → ℕ} (hA : AcyclicB A)
    {u v : Fin N} (he : 0 < A u v) : ∀ k, 1 ≤ k → walkCount A k v u = 0 := by
  intro k hk
  by_contra hne
  have hw : 0 < walkCount A k v u := Nat.pos_of_ne_zero hne
  have h1 : 0 < walkCount A 1 u v := by rw [walkCount_one]; exact he
  have hcomp := walkCount_compose_le A 1 k u v u
  have hclosed := acyclic_all hA (1 + k) (by omega) u
  have := Nat.mul_pos h1 hw
  omega

theorem pathCount_vu_zero_of_edge {N : ℕ} {A : Fin N → Fin N → ℕ}
    (hA : AcyclicB A) {u v : Fin N} (he : 0 < A u v) : pathCount A v u = 0 :=
  Finset.sum_eq_zero fun k hk =>
    no_vu_walk_of_edge hA he k (Finset.mem_Icc.mp hk).1

theorem pathCount_zap_from_n {N : ℕ} (A : Fin N → Fin N → ℕ) (n y : Fin N) :
    pathCount (zap A n) n y = 0 :=
  Finset.sum_eq_zero fun k hk => by
    obtain ⟨m, rfl⟩ : ∃ m, k = m + 1 := ⟨k - 1, by
      have := (Finset.mem_Icc.mp hk).1; omega⟩
    exact zap_walk_from_n A n m y

theorem pathCount_zap_to_n {N : ℕ} (A : Fin N → Fin N → ℕ) (x n : Fin N) :
    pathCount (zap A n) x n = 0 :=
  Finset.sum_eq_zero fun k hk => by
    obtain ⟨m, rfl⟩ : ∃ m, k = m + 1 := ⟨k - 1, by
      have := (Finset.mem_Icc.mp hk).1; omega⟩
    exact zap_walk_to_n A n m x

/-- In the decremented graph, paths into u and out of v are unchanged when
the original graph is acyclic and contains (u,v). -/
theorem bump_pathCount_to_u {N : ℕ} {A : Fin N → Fin N → ℕ} {u v : Fin N}
    (hA : AcyclicB A) (huv : u ≠ v)
    (hvu : ∀ k, 1 ≤ k → walkCount A k v u = 0) (x : Fin N) :
    pathCount (bump A u v) x u = pathCount A x u := by
  rw [bump_pathCount hA huv hvu x u]
  have h0 : pathCount A v u = 0 :=
    Finset.sum_eq_zero fun k hk => hvu k (Finset.mem_Icc.mp hk).1
  rw [if_neg huv, h0]
  ring

theorem bump_pathCount_from_v {N : ℕ} {A : Fin N → Fin N → ℕ} {u v : Fin N}
    (hA : AcyclicB A) (huv : u ≠ v)
    (hvu : ∀ k, 1 ≤ k → walkCount A k v u = 0) (y : Fin N) :
    pathCount (bump A u v) v y = pathCount A v y := by
  rw [bump_pathCount hA huv hvu v y]
  have h0 : pathCount A v u = 0 :=
    Finset.sum_eq_zero fun k hk => hvu k (Finset.mem_Icc.mp hk).1
  rw [if_neg (Ne.symm huv), h0]
  ring

/-- The canonical state of a multigraph: forward index of path counts,
inverted index its support. -/
def mkState {N : ℕ} (A : Fin N → Fin N → ℕ) : State N :=
  { direct_edge_counts := A
    index_paths_counts := fun x y => pathCount A x y
    inverted_index_paths := fun y x => decide (0 < pathCount A x y) }

/-- The invariant relating a live index state to its direct-edge multigraph:
the forward index holds exactly the path counts, the inverted index is its
support, and the multigraph is acyclic. -/
def Good {N : ℕ} (s : State N) : Prop :=
  (∀ x y, s.index_paths_counts x y = pathCount s.direct_edge_counts x y) ∧
  (∀ x y, s.inverted_index_paths y x = decide (0 < s.index_paths_counts x y)) ∧
  AcyclicB s.direct_edge_counts

theorem good_mkState {N : ℕ} {A : Fin N → Fin N → ℕ} (hA : AcyclicB A) :
    Good (mkState A) :=
  ⟨fun _ _ => rfl, fun _ _ => rfl, hA⟩

theorem good_empty {N : ℕ} : Good (emptyIndex N) := by
  refine ⟨fun x y => ?_, fun x y => ?_, fun x k hk => ?_⟩
  · show 0 = pathCount (fun _ _ => 0) x y
    symm
    refine Finset.sum_eq_zero fun k hk => ?_
    obtain ⟨m, rfl⟩ : ∃ m, k = m + 1 := ⟨k - 1, by
      have := (Finset.mem_Icc.mp hk).1; omega⟩
    induction m generalizing x with
    | zero => simp [walkCount]
    | succ m ih =>
      show ∑ w : Fin N, (0 : ℕ) * walkCount (fun _ _ => 0) (m + 1) w y = 0
      exact Finset.sum_eq_zero fun w _ => Nat.zero_mul _
  · rfl
  · obtain ⟨m, rfl⟩ : ∃ m, k = m + 1 := ⟨k - 1, by
      have := (Finset.mem_Icc.mp hk).1; omega⟩
    show ∑ w : Fin N, (0 : ℕ) * walkCount (fun _ _ => 0) m w x = 0
    exact Finset.sum_eq_zero fun w _ => Nat.zero_mul _

/-! ### Combined effect of the three update loops -/

theorem mem_itemsOf {N : ℕ} {f : Fin N → ℕ} {x : Fin N} :
    x ∈ itemsOf f ↔ f x ≠ 0 := by
  unfold itemsOf
  rw [List.mem_filter]
  simp [List.mem_finRange]

theorem nodup_itemsOf {N : ℕ} (f : Fin N → ℕ) : (itemsOf f).Nodup :=
  (List.nodup_finRange N).filter _

/-- Combined effect of the three update loops of _add_edge_unsafe on a
self-consistent state: every pair other than (u,v) receives the delta
m * (trivial-or-counted paths into u) * (trivial-or-counted paths out of v),
and the pair (u,v) itself is untouched by the loops. -/
theorem update_loops_effect {N : ℕ} (t : State N) (u v : Fin N) (m : ℤ)
    (hm : m = 1 ∨ m = -1)
    (HI : ∀ a b, t.inverted_index_paths b a = decide (0 < t.index_paths_counts a b))
    (huu : t.index_paths_counts u u = 0)
    (hvv : t.index_paths_counts v v = 0)
    (hvu : t.index_paths_counts v u = 0)
    (hdisj : ∀ x, t.index_paths_counts x u = 0 ∨ t.index_paths_counts v x = 0)
    (Q : Fin N → Fin N → ℕ)
    (hQ : ∀ a b, ¬(a = u ∧ b = v) →
      (Q a b : ℤ) = (t.index_paths_counts a b : ℤ) +
        m * (((if a = u then 1 else 0) + (t.index_paths_counts a u : ℤ)) *
          ((if b = v then 1 else 0) + (t.index_paths_counts v b : ℤ)))) :
    ∃ t' : State N,
      (((itemsOf (_reachable_backwards t u)).flatMap fun x =>
          (itemsOf (_reachable_forwards t v)).map fun y =>
            (x, y, (_reachable_backwards t u x : ℤ) * (_reachable_forwards t v y : ℤ) * m))
        ++ ((itemsOf (_reachable_forwards t v)).map fun y =>
            (u, y, (_reachable_forwards t v y : ℤ) * m))
        ++ ((itemsOf (_reachable_backwards t u)).map fun x =>
            (x, v, (_reachable_backwards t u x : ℤ) * m))).foldlM
        (fun st p => _add_indirect_edge st p.1 p.2.1 p.2.2) t = some t' ∧
      t'.direct_edge_counts = t.direct_edge_counts ∧
      (∀ a b, ¬(a = u ∧ b = v) →
        t'.index_paths_counts a b = Q a b ∧
        t'.inverted_index_paths b a = decide (0 < Q a b)) ∧
      t'.index_paths_counts u v = t.index_paths_counts u v ∧
      t'.inverted_index_paths v u = t.inverted_index_paths v u := by
  have hm0 : m ≠ 0 := by rcases hm with rfl | rfl <;> omega
  have hBeq : _reachable_backwards t u = fun x => t.index_paths_counts x u := by
    funext x
    unfold _reachable_backwards
    rw [HI]
    rcases Nat.eq_zero_or_pos (t.index_paths_counts x u) with h0 | hpos
    · rw [h0]
      simp
    · rw [decide_eq_true hpos]
      simp
  have hFeq : _reachable_forwards t v = fun y => t.index_paths_counts v y := rfl
  rw [hBeq, hFeq]
  simp only []
  set L1 : List (Fin N × Fin N × ℤ) :=
    (itemsOf fun x => t.index_paths_counts x u).flatMap fun x =>
      (itemsOf fun y => t.index_paths_counts v y).map fun y =>
        (x, y, (t.index_paths_counts x u : ℤ) * (t.index_paths_counts v y : ℤ) * m) with hL1
  set L2 : List (Fin N × Fin N × ℤ) :=
    (itemsOf fun y => t.index_paths_counts v y).map fun y =>
      (u, y, (t.index_paths_counts v y : ℤ) * m) with hL2
  set L3 : List (Fin N × Fin N × ℤ) :=
    (itemsOf fun x => t.index_paths_counts x u).map fun x =>
      (x, v, (t.index_paths_counts x u : ℤ) * m) with hL3
  have hmemB : ∀ x : Fin N, (x ∈ itemsOf fun x => t.index_paths_counts x u) ↔
      t.index_paths_counts x u ≠ 0 := fun x => mem_itemsOf
  have hmemF : ∀ y : Fin N, (y ∈ itemsOf fun y => t.index_paths_counts v y) ↔
      t.index_paths_counts v y ≠ 0 := fun y => mem_itemsOf
  have hshape : ∀ p ∈ L1 ++ L2 ++ L3,
      (t.index_paths_counts p.1 u ≠ 0 ∧ t.index_paths_counts v p.2.1 ≠ 0 ∧
        p.2.2 = (t.index_paths_counts p.1 u : ℤ) * (t.index_paths_counts v p.2.1 : ℤ) * m) ∨
      (p.1 = u ∧ t.index_paths_counts v p.2.1 ≠ 0 ∧
        p.2.2 = (t.index_paths_counts v p.2.1 : ℤ) * m) ∨
      (t.index_paths_counts p.1 u ≠ 0 ∧ p.2.1 = v ∧
        p.2.2 = (t.index_paths_counts p.1 u : ℤ) * m) := by
    intro p hp
    rcases List.mem_append.mp hp with hp' | hp3
    · rcases List.mem_append.mp hp' with hp1 | hp2
      · left
        rw [hL1, List.mem_flatMap] at hp1
        obtain ⟨x, hx, hp1⟩ := hp1
        rw [List.mem_map] at hp1
        obtain ⟨y, hy, rfl⟩ := hp1
        exact ⟨(hmemB x).mp hx, (hmemF y).mp hy, rfl⟩
      · right; left
        rw [hL2, List.mem_map] at hp2
        obtain ⟨y, hy, rfl⟩ := hp2
        exact ⟨rfl, (hmemF y).mp hy, rfl⟩
    · right; right
      rw [hL3, List.mem_map] at hp3
      obtain ⟨x, hx, rfl⟩ := hp3
      exact ⟨(hmemB x).mp hx, rfl, rfl⟩
  have hBnu : ∀ x : Fin N, t.index_paths_counts x u ≠ 0 → x ≠ u := by
    intro x hx he
    rw [he] at hx
    exact hx huu
  have hFnv : ∀ y : Fin N, t.index_paths_counts v y ≠ 0 → y ≠ v := by
    intro y hy he
    rw [he] at hy
    exact hy hvv
  have hBnv : ∀ x : Fin N, t.index_paths_counts x u ≠ 0 → x ≠ v := by
    intro x hx he
    rw [he] at hx
    exact hx hvu
  have hFnu : ∀ y : Fin N, t.index_paths_counts v y ≠ 0 → y ≠ u := by
    intro y hy he
    rw [he] at hy
    exact hy hvu
  have hpw : (L1 ++ L2 ++ L3).Pairwise fun p q => (p.1, p.2.1) ≠ (q.1, q.2.1) := by
    have hmem1 : ∀ q ∈ L1.map fun p => (p.1, p.2.1),
        t.index_paths_counts q.1 u ≠ 0 ∧ t.index_paths_counts v q.2 ≠ 0 := by
      intro q hq
      rw [List.mem_map] at hq
      obtain ⟨p, hp, rfl⟩ := hq
      rw [hL1, List.mem_flatMap] at hp
      obtain ⟨x, hx, hp⟩ := hp
      rw [List.mem_map] at hp
      obtain ⟨y, hy, rfl⟩ := hp
      exact ⟨(hmemB x).mp hx, (hmemF y).mp hy⟩
    have hmem2 : ∀ q ∈ L2.map fun p => (p.1, p.2.1),
        q.1 = u ∧ t.index_paths_counts v q.2 ≠ 0 := by
      intro q hq
      rw [List.mem_map] at hq
      obtain ⟨p, hp, rfl⟩ := hq
      rw [hL2, List.mem_map] at hp
      obtain ⟨y, hy, rfl⟩ := hp
      exact ⟨rfl, (hmemF y).mp hy⟩
    have hmem3 : ∀ q ∈ L3.map fun p => (p.1, p.2.1),
        t.index_paths_counts q.1 u ≠ 0 ∧ q.2 = v := by
      intro q hq
      rw [List.mem_map] at hq
      obtain ⟨p, hp, rfl⟩ := hq
      rw [hL3, List.mem_map] at hp
      obtain ⟨x, hx, rfl⟩ := hp
      exact ⟨(hmemB x).mp hx, rfl⟩
    have hnd : ((L1 ++ L2 ++ L3).map fun p => (p.1, p.2.1)).Nodup := by
      rw [List.map_append, List.map_append]
      have hnd1 : (L1.map fun p => (p.1, p.2.1)).Nodup := by
        rw [hL1, List.map_flatMap]
        have he : ((itemsOf fun x => t.index_paths_counts x u).flatMap fun x =>
            ((itemsOf fun y => t.index_paths_counts v y).map fun y =>
              (x, y, (t.index_paths_counts x u : ℤ) * (t.index_paths_counts v y : ℤ) * m)).map
                fun p => (p.1, p.2.1)) =
            ((itemsOf fun x => t.index_paths_counts x u).flatMap fun x =>
              (itemsOf fun y => t.index_paths_counts v y).map fun y => (x, y)) := by
          refine congrArg _ (funext fun x => ?_)
          rw [List.map_map]
          rfl
        rw [he]
        exact List.Nodup.product (nodup_itemsOf fun x => t.index_paths_counts x u)
          (nodup_itemsOf fun y => t.index_paths_counts v y)
      have hnd2 : (L2.map fun p => (p.1, p.2.1)).Nodup := by
        rw [hL2, List.map_map]
        refine List.Nodup.map ?_ (nodup_itemsOf fun y => t.index_paths_counts v y)
        intro a b hab
        exact congrArg Prod.snd hab
      have hnd3 : (L3.map fun p => (p.1, p.2.1)).Nodup := by
        rw [hL3, List.map_map]
        refine List.Nodup.map ?_ (nodup_itemsOf fun x => t.index_paths_counts x u)
        intro a b hab
        exact congrArg Prod.fst hab
      rw [List.nodup_append]
      refine ⟨?_, hnd3, ?_⟩
      · rw [List.nodup_append]
        refine ⟨hnd1, hnd2, ?_⟩
        intro q hq1 hq2
        obtain ⟨h1, -⟩ := hmem1 q hq1
        obtain ⟨h2, -⟩ := hmem2 q hq2
        exact hBnu q.1 h1 h2
      · intro q hq12 hq3
        obtain ⟨hb, h3⟩ := hmem3 q hq3
        rcases List.mem_append.mp hq12 with hq1 | hq2
        · obtain ⟨-, h1⟩ := hmem1 q hq1
          exact hFnv q.2 h1 h3
        · obtain ⟨h2, -⟩ := hmem2 q hq2
          rw [h2] at hb
          exact hb huu
    rw [← List.pairwise_map (f := fun p : Fin N × Fin N × ℤ => (p.1, p.2.1))
      (R := fun a b => a ≠ b)]
    exact hnd
  have hok : ∀ p ∈ L1 ++ L2 ++ L3, p.2.2 ≠ 0 ∧ p.1 ≠ p.2.1 ∧
      0 ≤ (t.index_paths_counts p.1 p.2.1 : ℤ) + p.2.2 ∧
      ((t.index_paths_counts p.1 p.2.1 : ℤ) + p.2.2 = 0 →
        t.inverted_index_paths p.2.1 p.1 = true) := by
    intro p hp
    have hzlast : ∀ c : ℤ, (t.index_paths_counts p.1 p.2.1 : ℤ) + c = 0 → c ≠ 0 →
        t.inverted_index_paths p.2.1 p.1 = true := by
      intro c h0 hc0
      have hpos : 0 < t.index_paths_counts p.1 p.2.1 := by omega
      rw [HI]
      exact decide_eq_true hpos
    rcases hshape p hp with ⟨hx, hy, hc⟩ | ⟨hx, hy, hc⟩ | ⟨hx, hy, hc⟩
    · have hxu : p.1 ≠ u := hBnu p.1 hx
      have hyv : p.2.1 ≠ v := hFnv p.2.1 hy
      have hxy : p.1 ≠ p.2.1 := by
        intro he
        rcases hdisj p.1 with h | h
        · exact hx h
        · rw [he] at h
          exact hy h
      have hcne : p.2.2 ≠ 0 := by
        rw [hc]
        exact mul_ne_zero (mul_ne_zero (Int.natCast_ne_zero.mpr hx)
          (Int.natCast_ne_zero.mpr hy)) hm0
      have hQp := hQ p.1 p.2.1 (by rintro ⟨h1, -⟩; exact hxu h1)
      rw [if_neg hxu, if_neg hyv] at hQp
      have hsum : (t.index_paths_counts p.1 p.2.1 : ℤ) + p.2.2 = (Q p.1 p.2.1 : ℤ) := by
        rw [hc, hQp]
        ring
      refine ⟨hcne, hxy, ?_, fun h0 => hzlast p.2.2 h0 hcne⟩
      rw [hsum]
      exact Int.natCast_nonneg _
    · have hyv : p.2.1 ≠ v := hFnv p.2.1 hy
      have hyu : p.2.1 ≠ u := hFnu p.2.1 hy
      have hxy : p.1 ≠ p.2.1 := by
        rw [hx]
        exact fun he => hyu he.symm
      have hcne : p.2.2 ≠ 0 := by
        rw [hc]
        exact mul_ne_zero (Int.natCast_ne_zero.mpr hy) hm0
      have hQp := hQ p.1 p.2.1 (by rintro ⟨-, h2⟩; exact hyv h2)
      rw [if_pos hx, if_neg hyv, hx, huu] at hQp
      have hsum : (t.index_paths_counts p.1 p.2.1 : ℤ) + p.2.2 = (Q p.1 p.2.1 : ℤ) := by
        rw [hx, hc, hQp]
        push_cast
        ring
      refine ⟨hcne, hxy, ?_, fun h0 => hzlast p.2.2 h0 hcne⟩
      rw [hsum]
      exact Int.natCast_nonneg _
    · have hxu : p.1 ≠ u := hBnu p.1 hx
      have hxv : p.1 ≠ v := hBnv p.1 hx
      have hxy : p.1 ≠ p.2.1 := by
        rw [hy]
        exact hxv
      have hcne : p.2.2 ≠ 0 := by
        rw [hc]
        exact mul_ne_zero (Int.natCast_ne_zero.mpr hx) hm0
      have hQp := hQ p.1 p.2.1 (by rintro ⟨h1, -⟩; exact hxu h1)
      rw [if_neg hxu, if_pos hy, hy, hvv] at hQp
      have hsum : (t.index_paths_counts p.1 p.2.1 : ℤ) + p.2.2 = (Q p.1 p.2.1 : ℤ) := by
        rw [hy, hc, hQp]
        push_cast
        ring
      refine ⟨hcne, hxy, ?_, fun h0 => hzlast p.2.2 h0 hcne⟩
      rw [hsum]
      exact Int.natCast_nonneg _
  obtain ⟨t', hrun, hdir, huntouched, htouched⟩ :=
    addIndirect_fold (L1 ++ L2 ++ L3) t hpw hok
  have hnoneuv : ∀ p ∈ L1 ++ L2 ++ L3, (p.1, p.2.1) ≠ (u, v) := by
    intro p hp hep
    have h1 : p.1 = u := congrArg Prod.fst hep
    have h2 : p.2.1 = v := congrArg Prod.snd hep
    rcases hshape p hp with ⟨hx, -, -⟩ | ⟨-, hy, -⟩ | ⟨hx, -, -⟩
    · rw [h1] at hx
      exact hx huu
    · rw [h2] at hy
      exact hy hvv
    · rw [h1] at hx
      exact hx huu
  refine ⟨t', hrun, hdir, ?_, (huntouched u v hnoneuv).1, (huntouched u v hnoneuv).2⟩
  intro a b hab
  have hfinish_touched : ∀ c : ℤ,
      (c₂ : (a, b, c) ∈ L1 ++ L2 ++ L3) →
      (t.index_paths_counts a b : ℤ) + c = (Q a b : ℤ) →
      t'.index_paths_counts a b = Q a b ∧
        t'.inverted_index_paths b a = decide (0 < Q a b) := by
    intro c hmem hsum
    obtain ⟨hf, hi⟩ := htouched _ hmem
    constructor
    · rw [hf]
      show ((t.index_paths_counts a b : ℤ) + c).toNat = Q a b
      rw [hsum, Int.toNat_natCast]
    · rw [hi]
      show decide ((0:ℤ) < (t.index_paths_counts a b : ℤ) + c) = _
      rw [hsum]
      rcases Nat.eq_zero_or_pos (Q a b) with h0 | hpos
      · rw [h0]
        simp
      · rw [decide_eq_true hpos, decide_eq_true (by exact_mod_cast hpos)]
  have hfinish_untouched :
      (∀ p ∈ L1 ++ L2 ++ L3, (p.1, p.2.1) ≠ (a, b)) →
      Q a b = t.index_paths_counts a b →
      t'.index_paths_counts a b = Q a b ∧
        t'.inverted_index_paths b a = decide (0 < Q a b) := by
    intro hnone hQab
    obtain ⟨hf, hi⟩ := huntouched a b hnone
    constructor
    · rw [hf, hQab]
    · rw [hi, HI, hQab]
  by_cases hau : a = u
  · by_cases hbF : t.index_paths_counts v b = 0
    · -- delta vanishes at (u, b) with b outside the forward support
      have hbv : b ≠ v := by
        intro he
        exact hab ⟨hau, he⟩
      refine hfinish_untouched ?_ ?_
      · intro p hp hep
        have h1 : p.1 = a := congrArg Prod.fst hep
        have h2 : p.2.1 = b := congrArg Prod.snd hep
        rcases hshape p hp with ⟨hx, hy, -⟩ | ⟨hx, hy, -⟩ | ⟨hx, hy, -⟩
        · rw [h1, hau] at hx
          exact hx huu
        · rw [h2] at hy
          exact hy hbF
        · rw [h2] at hy
          exact hbv hy
      · have huu2 : t.index_paths_counts a u = 0 := by rw [hau]; exact huu
        have hQp := hQ a b hab
        rw [if_pos hau, if_neg hbv, huu2, hbF] at hQp
        have hcast : (Q a b : ℤ) = (t.index_paths_counts a b : ℤ) := by
          rw [hQp]
          ring
        exact_mod_cast hcast
    · -- loop 2 covers (u, b)
      have hbv : b ≠ v := hFnv b hbF
      have hmem : (u, b, (t.index_paths_counts v b : ℤ) * m) ∈ L1 ++ L2 ++ L3 := by
        refine List.mem_append_left _ (List.mem_append_right _ ?_)
        rw [hL2, List.mem_map]
        exact ⟨b, (hmemF b).mpr hbF, rfl⟩
      have hmem2 : (a, b, (t.index_paths_counts v b : ℤ) * m) ∈ L1 ++ L2 ++ L3 := by
        rw [hau]
        exact hmem
      have huu2 : t.index_paths_counts a u = 0 := by rw [hau]; exact huu
      refine hfinish_touched ((t.index_paths_counts v b : ℤ) * m) hmem2 ?_
      have hQp := hQ a b hab
      rw [if_pos hau, if_neg hbv, huu2] at hQp
      rw [hQp]
      push_cast
      ring
  · by_cases hbv : b = v
    · by_cases haB : t.index_paths_counts a u = 0
      · refine hfinish_untouched ?_ ?_
        · intro p hp hep
          have h1 : p.1 = a := congrArg Prod.fst hep
          have h2 : p.2.1 = b := congrArg Prod.snd hep
          rcases hshape p hp with ⟨hx, hy, -⟩ | ⟨hx, hy, -⟩ | ⟨hx, hy, -⟩
          · rw [h1] at hx
            exact hx haB
          · rw [h1] at hx
            exact hau hx
          · rw [h1] at hx
            exact hx haB
        · have hvv2 : t.index_paths_counts v b = 0 := by rw [hbv]; exact hvv
          have hQp := hQ a b hab
          rw [if_neg hau, if_pos hbv, hvv2, haB] at hQp
          have hcast : (Q a b : ℤ) = (t.index_paths_counts a b : ℤ) := by
            rw [hQp]
            push_cast
            ring
          exact_mod_cast hcast
      · -- loop 3 covers (a, v)
        have hmem : (a, v, (t.index_paths_counts a u : ℤ) * m) ∈ L1 ++ L2 ++ L3 := by
          refine List.mem_append_right _ ?_
          rw [hL3, List.mem_map]
          exact ⟨a, (hmemB a).mpr haB, rfl⟩
        have hmem2 : (a, b, (t.index_paths_counts a u : ℤ) * m) ∈ L1 ++ L2 ++ L3 := by
          rw [hbv]
          exact hmem
        have hvv2 : t.index_paths_counts v b = 0 := by rw [hbv]; exact hvv
        refine hfinish_touched ((t.index_paths_counts a u : ℤ) * m) hmem2 ?_
        have hQp := hQ a b hab
        rw [if_neg hau, if_pos hbv, hvv2] at hQp
        rw [hQp]
        push_cast
        ring
    · by_cases haB : t.index_paths_counts a u = 0
      · refine hfinish_untouched ?_ ?_
        · intro p hp hep
          have h1 : p.1 = a := congrArg Prod.fst hep
          have h2 : p.2.1 = b := congrArg Prod.snd hep
          rcases hshape p hp with ⟨hx, hy, -⟩ | ⟨hx, hy, -⟩ | ⟨hx, hy, -⟩
          · rw [h1] at hx
            exact hx haB
          · rw [h1] at hx
            exact hau hx
          · rw [h2] at hy
            exact hbv hy
        · have hQp := hQ a b hab
          rw [if_neg hau, if_neg hbv, haB] at hQp
          have : (Q a b : ℤ) = (t.index_paths_counts a b : ℤ) := by
            rw [hQp]
            push_cast
            ring
          exact_mod_cast this
      · by_cases hbF : t.index_paths_counts v b = 0
        · refine hfinish_untouched ?_ ?_
          · intro p hp hep
            have h1 : p.1 = a := congrArg Prod.fst hep
            have h2 : p.2.1 = b := congrArg Prod.snd hep
            rcases hshape p hp with ⟨hx, hy, -⟩ | ⟨hx, hy, -⟩ | ⟨hx, hy, -⟩
            · rw [h2] at hy
              exact hy hbF
            · rw [h1] at hx
              exact hau hx
            · rw [h2] at hy
              exact hbv hy
          · have hQp := hQ a b hab
            rw [if_neg hau, if_neg hbv, hbF] at hQp
            have : (Q a b : ℤ) = (t.index_paths_counts a b : ℤ) := by
              rw [hQp]
              push_cast
              ring
            exact_mod_cast this
        · -- loop 1 covers (a, b)
          have hmem : (a, b,
              (t.index_paths_counts a u : ℤ) * (t.index_paths_counts v b : ℤ) * m) ∈
              L1 ++ L2 ++ L3 := by
            refine List.mem_append_left _ (List.mem_append_left _ ?_)
            rw [hL1, List.mem_flatMap]
            exact ⟨a, (hmemB a).mpr haB, List.mem_map.mpr ⟨b, (hmemF b).mpr hbF, rfl⟩⟩
          refine hfinish_touched
            ((t.index_paths_counts a u : ℤ) * (t.index_paths_counts v b : ℤ) * m)
            hmem ?_
          have hQp := hQ a b hab
          rw [if_neg hau, if_neg hbv] at hQp
          rw [hQp]
          ring

/-! ### The three public operations preserve the path-count invariant -/

theorem State_ext {N : ℕ} (s₁ s₂ : State N)
    (h1 : s₁.direct_edge_counts = s₂.direct_edge_counts)
    (h2 : s₁.index_paths_counts = s₂.index_paths_counts)
    (h3 : s₁.inverted_index_paths = s₂.inverted_index_paths) : s₁ = s₂ := by
  cases s₁
  cases s₂
  simp only [] at h1 h2 h3
  rw [h1, h2, h3]

/-- A successful add_edge produces exactly the canonical state of the
multigraph with one more copy of (u,v). -/
theorem add_edge_unchecked_good {N : ℕ} {s : State N} (hG : Good s) {u v : Fin N}
    (huv : u ≠ v) (hpre : s.index_paths_counts v u = 0) :
    add_edge_unchecked s u v 1 =
      some (mkState (bump s.direct_edge_counts u v)) := by
  obtain ⟨hfwd, hinv, hacyc⟩ := hG
  set A := s.direct_edge_counts with hA
  have hpcvu : pathCount A v u = 0 := by rw [← hfwd]; exact hpre
  have hvu' : ∀ k, 1 ≤ k → walkCount A k v u = 0 :=
    no_walk_of_pathCount_zero hacyc hpcvu
  have huu' : s.index_paths_counts u u = 0 := by
    rw [hfwd]
    exact pathCount_self_zero hacyc u
  have hvv' : s.index_paths_counts v v = 0 := by
    rw [hfwd]
    exact pathCount_self_zero hacyc v
  have hdisj' : ∀ x, s.index_paths_counts x u = 0 ∨ s.index_paths_counts v x = 0 := by
    intro x
    by_contra hc
    push_neg at hc
    obtain ⟨h1, h2⟩ := hc
    rw [hfwd] at h1 h2
    have := pathCount_trans hacyc (Nat.pos_of_ne_zero h2) (Nat.pos_of_ne_zero h1)
    omega
  have hQ' : ∀ a b, ¬(a = u ∧ b = v) →
      ((pathCount (bump A u v) a b : ℤ)) = (s.index_paths_counts a b : ℤ) +
        1 * (((if a = u then 1 else 0) + (s.index_paths_counts a u : ℤ)) *
          ((if b = v then 1 else 0) + (s.index_paths_counts v b : ℤ))) := by
    intro a b _
    rw [hfwd, hfwd, hfwd, bump_pathCount hacyc huv hvu' a b]
    push_cast
    ring
  obtain ⟨t', hrun, hdir, hmain, huvf, huvi⟩ :=
    update_loops_effect s u v 1 (Or.inl rfl) hinv huu' hvv' hpre hdisj'
      (fun a b => pathCount (bump A u v) a b) hQ'
  -- evaluate the operation
  unfold add_edge_unchecked
  rw [if_neg (by norm_num : ¬((1:ℤ) ≠ 1 ∧ (1:ℤ) ≠ -1))]
  rw [if_neg (by norm_num : ¬(u ≠ v ∧ (1:ℤ) < 0)), Option.some_bind]
  rw [if_neg huv, Option.some_bind]
  have hg1 : ¬(_reachable_backwards s u v ≠ 0) := by
    unfold _reachable_backwards
    rw [hpre]
    split <;> simp
  have hg2 : ¬(_reachable_forwards s v u ≠ 0) := by
    unfold _reachable_forwards
    rw [hpre]
    simp
  rw [if_neg hg1, if_neg hg2, hrun, Option.some_bind,
    if_pos (⟨huv, by norm_num⟩ : u ≠ v ∧ (0:ℤ) < 1)]
  have hstep := addIndirect_step t' u v 1 (by norm_num) huv
    (by omega) (by omega)
  rw [hstep, Option.some_bind]
  rw [if_neg (by omega : ¬((({ t' with
      index_paths_counts := fun a b =>
        if a = u ∧ b = v then ((t'.index_paths_counts u v : ℤ) + 1).toNat
        else t'.index_paths_counts a b
      inverted_index_paths := fun a b =>
        if a = v ∧ b = u then decide ((0:ℤ) < (t'.index_paths_counts u v : ℤ) + 1)
        else t'.inverted_index_paths a b } : State N).direct_edge_counts u v : ℤ) + 1 < 0))]
  refine congrArg some (State_ext _ _ ?_ ?_ ?_)
  · funext a b
    show (if a = u ∧ b = v then ((t'.direct_edge_counts u v : ℤ) + 1).toNat
      else t'.direct_edge_counts a b) = bump A u v a b
    rw [hdir, ← hA]
    unfold bump
    by_cases hab : a = u ∧ b = v
    · rw [if_pos hab, if_pos hab, hab.1, hab.2]
      omega
    · rw [if_neg hab, if_neg hab]
  · funext a b
    show (if a = u ∧ b = v then ((t'.index_paths_counts u v : ℤ) + 1).toNat
      else t'.index_paths_counts a b) = pathCount (bump A u v) a b
    by_cases hab : a = u ∧ b = v
    · rw [if_pos hab, hab.1, hab.2, huvf, hfwd]
      have hident := bump_pathCount hacyc huv hvu' u v
      rw [if_pos rfl, if_pos rfl, pathCount_self_zero hacyc u,
        pathCount_self_zero hacyc v] at hident
      omega
    · rw [if_neg hab]
      exact (hmain a b hab).1
  · funext a b
    show (if a = v ∧ b = u then decide ((0:ℤ) < (t'.index_paths_counts u v : ℤ) + 1)
      else t'.inverted_index_paths a b) = decide (0 < pathCount (bump A u v) b a)
    by_cases hab : a = v ∧ b = u
    · rw [if_pos hab, hab.1, hab.2, huvf, hfwd]
      have hident := bump_pathCount hacyc huv hvu' u v
      rw [if_pos rfl, if_pos rfl, pathCount_self_zero hacyc u,
        pathCount_self_zero hacyc v] at hident
      have hp1 : (0:ℤ) < (pathCount A u v : ℤ) + 1 := by omega
      have hp2 : 0 < pathCount (bump A u v) u v := by omega
      rw [decide_eq_true hp1, decide_eq_true hp2]
    · have hab' : ¬(b = u ∧ a = v) := by
        intro h
        exact hab ⟨h.2, h.1⟩
      rw [if_neg hab]
      exact (hmain b a hab').2

/-- The multigraph A with one copy of the edge (u,v) removed. -/
def dec {N : ℕ} (A : Fin N → Fin N → ℕ) (u v : Fin N) : Fin N → Fin N → ℕ :=
  fun a b => if a = u ∧ b = v then A a b - 1 else A a b

theorem bump_dec {N : ℕ} (A : Fin N → Fin N → ℕ) (u v : Fin N)
    (h : 0 < A u v) : bump (dec A u v) u v = A := by
  funext a b
  unfold bump dec
  by_cases hab : a = u ∧ b = v
  · rw [if_pos hab, if_pos hab, hab.1, hab.2]
    omega
  · rw [if_neg hab, if_neg hab]

theorem dec_acyclicB {N : ℕ} {A : Fin N → Fin N → ℕ} (hA : AcyclicB A)
    (u v : Fin N) : AcyclicB (dec A u v) := by
  intro x k hk
  have hle := walkCount_le_of_le (A := dec A u v) (B := A)
    (fun a b => by unfold dec; split <;> omega) k x x
  have := hA x k hk
  omega

/-- A successful remove_edge produces exactly the canonical state of the
multigraph with one fewer copy of (u,v). -/
theorem remove_edge_unchecked_good {N : ℕ} {s : State N} (hG : Good s) {u v : Fin N}
    (huv : u ≠ v) (hpre : 0 < s.direct_edge_counts u v) :
    add_edge_unchecked s u v (-1) =
      some (mkState (dec s.direct_edge_counts u v)) := by
  obtain ⟨hfwd, hinv, hacyc⟩ := hG
  have hbumpeq : bump (dec s.direct_edge_counts u v) u v = s.direct_edge_counts :=
    bump_dec _ u v hpre
  have hacyc2 : AcyclicB (dec s.direct_edge_counts u v) := dec_acyclicB hacyc u v
  have hvuA : ∀ k, 1 ≤ k → walkCount s.direct_edge_counts k v u = 0 :=
    no_vu_walk_of_edge hacyc hpre
  have hvu2 : ∀ k, 1 ≤ k → walkCount (dec s.direct_edge_counts u v) k v u = 0 := by
    intro k hk
    have hle := walkCount_le_of_le (A := dec s.direct_edge_counts u v)
      (B := s.direct_edge_counts) (fun a b => by unfold dec; split <;> omega) k v u
    have := hvuA k hk
    omega
  have hpc_to_u : ∀ x, pathCount s.direct_edge_counts x u =
      pathCount (dec s.direct_edge_counts u v) x u := by
    intro x
    have := bump_pathCount_to_u hacyc2 huv hvu2 x
    rw [hbumpeq] at this
    exact this
  have hpc_from_v : ∀ y, pathCount s.direct_edge_counts v y =
      pathCount (dec s.direct_edge_counts u v) v y := by
    intro y
    have := bump_pathCount_from_v hacyc2 huv hvu2 y
    rw [hbumpeq] at this
    exact this
  have hpcuv : pathCount s.direct_edge_counts u v =
      pathCount (dec s.direct_edge_counts u v) u v + 1 := by
    have := bump_pathCount hacyc2 huv hvu2 u v
    rw [hbumpeq, if_pos rfl, if_pos rfl, pathCount_self_zero hacyc2 u,
      pathCount_self_zero hacyc2 v] at this
    omega
  have hpcvu : pathCount s.direct_edge_counts v u = 0 :=
    pathCount_vu_zero_of_edge hacyc hpre
  have hfwd_ge : 1 ≤ s.index_paths_counts u v := by
    rw [hfwd]
    have h1 := direct_le_pathCount s.direct_edge_counts u v
    omega
  -- evaluate: the direct edge is removed first, together with its length-1 path
  unfold add_edge_unchecked
  rw [if_neg (by norm_num : ¬((-1:ℤ) ≠ 1 ∧ (-1:ℤ) ≠ -1))]
  rw [if_pos (⟨huv, by norm_num⟩ : u ≠ v ∧ (-1:ℤ) < 0)]
  rw [if_neg (by omega : ¬((s.direct_edge_counts u v : ℤ) + (-1) < 0))]
  have hstep := addIndirect_step
    { s with direct_edge_counts := fun a b =>
        if a = u ∧ b = v then ((s.direct_edge_counts u v : ℤ) + (-1)).toNat
        else s.direct_edge_counts a b }
    u v (-1) (by norm_num) huv (by show (0:ℤ) ≤ (s.index_paths_counts u v : ℤ) + (-1); omega)
    (by
      intro _
      show s.inverted_index_paths v u = true
      rw [hinv]
      exact decide_eq_true (by omega))
  rw [hstep, Option.some_bind]
  set t₁ : State N :=
    { s with
      direct_edge_counts := fun a b =>
        if a = u ∧ b = v then ((s.direct_edge_counts u v : ℤ) + (-1)).toNat
        else s.direct_edge_counts a b
      index_paths_counts := fun a b =>
        if a = u ∧ b = v then ((s.index_paths_counts u v : ℤ) + (-1)).toNat
        else s.index_paths_counts a b
      inverted_index_paths := fun a b =>
        if a = v ∧ b = u then decide ((0:ℤ) < (s.index_paths_counts u v : ℤ) + (-1))
        else s.inverted_index_paths a b } with ht₁
  have ht₁d : ∀ a b, t₁.direct_edge_counts a b =
      if a = u ∧ b = v then ((s.direct_edge_counts u v : ℤ) + (-1)).toNat
      else s.direct_edge_counts a b := fun a b => rfl
  have ht₁f : ∀ a b, t₁.index_paths_counts a b =
      if a = u ∧ b = v then ((s.index_paths_counts u v : ℤ) + (-1)).toNat
      else s.index_paths_counts a b := fun a b => rfl
  have ht₁i : ∀ a b, t₁.inverted_index_paths a b =
      if a = v ∧ b = u then decide ((0:ℤ) < (s.index_paths_counts u v : ℤ) + (-1))
      else s.inverted_index_paths a b := fun a b => rfl
  have ht₁f_off : ∀ a b, ¬(a = u ∧ b = v) →
      t₁.index_paths_counts a b = s.index_paths_counts a b := by
    intro a b hab
    rw [ht₁f, if_neg hab]
  have ht₁fuv : t₁.index_paths_counts u v = ((s.index_paths_counts u v : ℤ) + (-1)).toNat := by
    rw [ht₁f, if_pos ⟨rfl, rfl⟩]
  rw [if_neg huv, Option.some_bind]
  -- cycle guards pass
  have hg1 : ¬(_reachable_backwards t₁ u v ≠ 0) := by
    unfold _reachable_backwards
    have : t₁.index_paths_counts v u = s.index_paths_counts v u :=
      ht₁f_off v u (by rintro ⟨h1, -⟩; exact huv h1.symm)
    rw [this, hfwd, hpcvu]
    split <;> simp
  have hg2 : ¬(_reachable_forwards t₁ v u ≠ 0) := by
    unfold _reachable_forwards
    have : t₁.index_paths_counts v u = s.index_paths_counts v u :=
      ht₁f_off v u (by rintro ⟨h1, -⟩; exact huv h1.symm)
    rw [this, hfwd, hpcvu]
    simp
  rw [if_neg hg1, if_neg hg2]
  -- the loops apply the negated delta
  have hHI : ∀ a b, t₁.inverted_index_paths b a =
      decide (0 < t₁.index_paths_counts a b) := by
    intro a b
    by_cases hab : a = u ∧ b = v
    · rw [ht₁f, if_pos hab, ht₁i, if_pos ⟨hab.2, hab.1⟩]
      refine decide_eq_decide.mpr ?_
      omega
    · have hab' : ¬(b = v ∧ a = u) := by
        intro h
        exact hab ⟨h.2, h.1⟩
      rw [ht₁f, if_neg hab, ht₁i, if_neg hab', hinv]
  have huu2 : t₁.index_paths_counts u u = 0 := by
    rw [ht₁f_off u u (by rintro ⟨-, h2⟩; exact huv h2), hfwd]
    exact pathCount_self_zero hacyc u
  have hvv2 : t₁.index_paths_counts v v = 0 := by
    rw [ht₁f_off v v (by rintro ⟨h1, -⟩; exact huv h1.symm), hfwd]
    exact pathCount_self_zero hacyc v
  have hvu3 : t₁.index_paths_counts v u = 0 := by
    rw [ht₁f_off v u (by rintro ⟨h1, -⟩; exact huv h1.symm), hfwd, hpcvu]
  have hdisj2 : ∀ x, t₁.index_paths_counts x u = 0 ∨ t₁.index_paths_counts v x = 0 := by
    intro x
    rw [ht₁f_off x u (by rintro ⟨-, h2⟩; exact huv h2),
      ht₁f_off v x (by rintro ⟨h1, -⟩; exact huv h1.symm), hfwd, hfwd]
    by_contra hc
    push_neg at hc
    obtain ⟨h1, h2⟩ := hc
    have := pathCount_trans hacyc (Nat.pos_of_ne_zero h2) (Nat.pos_of_ne_zero h1)
    omega
  have hQ2 : ∀ a b, ¬(a = u ∧ b = v) →
      ((pathCount (dec s.direct_edge_counts u v) a b : ℤ)) =
        (t₁.index_paths_counts a b : ℤ) +
        (-1) * (((if a = u then 1 else 0) + (t₁.index_paths_counts a u : ℤ)) *
          ((if b = v then 1 else 0) + (t₁.index_paths_counts v b : ℤ))) := by
    intro a b hab
    rw [ht₁f_off a b hab,
      ht₁f_off a u (by rintro ⟨-, h2⟩; exact huv h2),
      ht₁f_off v b (by rintro ⟨h1, -⟩; exact huv h1.symm),
      hfwd, hfwd, hfwd, hpc_to_u a, hpc_from_v b]
    have hident := bump_pathCount hacyc2 huv hvu2 a b
    rw [hbumpeq] at hident
    rw [hident]
    push_cast
    ring
  obtain ⟨t', hrun, hdir, hmain, huvf, huvi⟩ :=
    update_loops_effect t₁ u v (-1) (Or.inr rfl) hHI huu2 hvv2 hvu3 hdisj2
      (fun a b => pathCount (dec s.direct_edge_counts u v) a b) hQ2
  rw [hrun, Option.some_bind, if_neg (by norm_num : ¬(u ≠ v ∧ (0:ℤ) < -1))]
  refine congrArg some (State_ext _ _ ?_ ?_ ?_)
  · funext a b
    rw [hdir, ht₁d]
    show _ = dec s.direct_edge_counts u v a b
    unfold dec
    by_cases hab : a = u ∧ b = v
    · rw [if_pos hab, if_pos hab, hab.1, hab.2]
      omega
    · rw [if_neg hab, if_neg hab]
  · funext a b
    show t'.index_paths_counts a b = pathCount (dec s.direct_edge_counts u v) a b
    by_cases hab : a = u ∧ b = v
    · rw [hab.1, hab.2, huvf, ht₁fuv, hfwd]
      omega
    · exact (hmain a b hab).1
  · funext a b
    show t'.inverted_index_paths a b =
      decide (0 < pathCount (dec s.direct_edge_counts u v) b a)
    by_cases hab : a = v ∧ b = u
    · rw [hab.1, hab.2, huvi, ht₁i, if_pos ⟨rfl, rfl⟩, hfwd]
      refine decide_eq_decide.mpr ?_
      omega
    · have hab' : ¬(b = u ∧ a = v) := by
        intro h
        exact hab ⟨h.2, h.1⟩
      exact (hmain b a hab').2

/-- A remove_node produces exactly the canonical state of the multigraph
with every edge incident on n removed. -/
theorem remove_node_unchecked_good {N : ℕ} {s : State N} (hG : Good s) (n : Fin N) :
    add_edge_unchecked s n n (-1) =
      some (mkState (zap s.direct_edge_counts n)) := by
  obtain ⟨hfwd, hinv, hacyc⟩ := hG
  have hnn : s.index_paths_counts n n = 0 := by
    rw [hfwd]
    exact pathCount_self_zero hacyc n
  unfold add_edge_unchecked
  rw [if_neg (by norm_num : ¬((-1:ℤ) ≠ 1 ∧ (-1:ℤ) ≠ -1))]
  rw [if_neg (by simp : ¬(n ≠ n ∧ (-1:ℤ) < 0)), Option.some_bind]
  rw [if_pos rfl, if_neg (by norm_num : ¬((-1:ℤ) ≠ -1)), Option.some_bind]
  set t₀ : State N :=
    { s with direct_edge_counts := fun a b =>
        if a = n ∨ b = n then 0 else s.direct_edge_counts a b } with ht₀
  have ht₀f : ∀ a b, t₀.index_paths_counts a b = s.index_paths_counts a b :=
    fun a b => rfl
  have ht₀i : ∀ a b, t₀.inverted_index_paths a b = s.inverted_index_paths a b :=
    fun a b => rfl
  have hg1 : ¬(_reachable_backwards t₀ n n ≠ 0) := by
    unfold _reachable_backwards
    rw [ht₀f, hnn]
    split <;> simp
  have hg2 : ¬(_reachable_forwards t₀ n n ≠ 0) := by
    unfold _reachable_forwards
    rw [ht₀f, hnn]
    simp
  rw [if_neg hg1, if_neg hg2]
  have hHI : ∀ a b, t₀.inverted_index_paths b a =
      decide (0 < t₀.index_paths_counts a b) := by
    intro a b
    rw [ht₀f, ht₀i, hinv]
  have hnn0 : t₀.index_paths_counts n n = 0 := by rw [ht₀f]; exact hnn
  have hdisj0 : ∀ x, t₀.index_paths_counts x n = 0 ∨ t₀.index_paths_counts n x = 0 := by
    intro x
    rw [ht₀f, ht₀f, hfwd, hfwd]
    by_contra hc
    push_neg at hc
    obtain ⟨h1, h2⟩ := hc
    have := pathCount_trans hacyc (Nat.pos_of_ne_zero h2) (Nat.pos_of_ne_zero h1)
    rw [pathCount_self_zero hacyc n] at this
    omega
  have hQ0 : ∀ a b, ¬(a = n ∧ b = n) →
      ((pathCount (zap s.direct_edge_counts n) a b : ℤ)) =
        (t₀.index_paths_counts a b : ℤ) +
        (-1) * (((if a = n then 1 else 0) + (t₀.index_paths_counts a n : ℤ)) *
          ((if b = n then 1 else 0) + (t₀.index_paths_counts n b : ℤ))) := by
    intro a b hab
    rw [ht₀f, ht₀f, ht₀f, hfwd, hfwd, hfwd]
    by_cases ha : a = n
    · have hb : b ≠ n := by
        intro hbn
        exact hab ⟨ha, hbn⟩
      rw [if_pos ha, ha, pathCount_zap_from_n, pathCount_self_zero hacyc n,
        if_neg hb]
      push_cast
      ring
    · by_cases hb : b = n
      · rw [if_neg ha, if_pos hb, hb, pathCount_zap_to_n,
          pathCount_self_zero hacyc n]
        push_cast
        ring
      · rw [if_neg ha, if_neg hb]
        have hident := zap_pathCount hacyc a b ha hb
        rw [hident]
        push_cast
        ring
  obtain ⟨t', hrun, hdir, hmain, hnnf, hnni⟩ :=
    update_loops_effect t₀ n n (-1) (Or.inr rfl) hHI hnn0 hnn0 hnn0 hdisj0
      (fun a b => pathCount (zap s.direct_edge_counts n) a b) hQ0
  rw [hrun, Option.some_bind, if_neg (by simp : ¬(n ≠ n ∧ (0:ℤ) < -1))]
  refine congrArg some (State_ext _ _ ?_ ?_ ?_)
  · funext a b
    rw [hdir]
    show (if a = n ∨ b = n then 0 else s.direct_edge_counts a b) =
      zap s.direct_edge_counts n a b
    rfl
  · funext a b
    show t'.index_paths_counts a b = pathCount (zap s.direct_edge_counts n) a b
    by_cases hab : a = n ∧ b = n
    · rw [hab.1, hab.2, hnnf, ht₀f, hnn, pathCount_zap_to_n]
    · exact (hmain a b hab).1
  · funext a b
    show t'.inverted_index_paths a b =
      decide (0 < pathCount (zap s.direct_edge_counts n) b a)
    by_cases hab : a = n ∧ b = n
    · rw [hab.1, hab.2, hnni, ht₀i, hinv, hnn, pathCount_zap_to_n]
    · have hab' : ¬(b = n ∧ a = n) := by
        intro h
        exact hab ⟨h.2, h.1⟩
      exact (hmain b a hab').2

/-! ### Public operations: success, failure, and the invariants -/

theorem add_edge_good {N : ℕ} {s : State N} (hG : Good s) {u v : Fin N}
    (huv : u ≠ v) (hpre : s.index_paths_counts v u = 0) :
    add_edge s u v = some (mkState (bump s.direct_edge_counts u v)) := by
  unfold add_edge
  rw [if_neg huv, if_neg (by omega : ¬(0 < s.index_paths_counts v u)),
    add_edge_unchecked_good hG huv hpre]

theorem remove_edge_good {N : ℕ} {s : State N} (hG : Good s) {u v : Fin N}
    (huv : u ≠ v) (hpre : 0 < s.direct_edge_counts u v) :
    remove_edge s u v = some (mkState (dec s.direct_edge_counts u v)) := by
  unfold remove_edge
  rw [if_neg huv, if_neg (by omega : ¬(s.direct_edge_counts u v = 0)),
    remove_edge_unchecked_good hG huv hpre]

theorem remove_node_good {N : ℕ} {s : State N} (hG : Good s) (n : Fin N) :
    remove_node s n = some (mkState (zap s.direct_edge_counts n)) := by
  unfold remove_node
  exact remove_node_unchecked_good hG n

theorem add_edge_none_iff {N : ℕ} {s : State N} (hG : Good s) (u v : Fin N) :
    add_edge s u v = none ↔ u = v ∨ 0 < s.index_paths_counts v u := by
  constructor
  · intro hnone
    by_cases huv : u = v
    · exact Or.inl huv
    by_cases hpre : s.index_paths_counts v u = 0
    · rw [add_edge_good hG huv hpre] at hnone
      exact absurd hnone (by simp)
    · exact Or.inr (Nat.pos_of_ne_zero hpre)
  · intro h
    unfold add_edge
    rcases h with rfl | hpos
    · rw [if_pos rfl]
    · by_cases huv : u = v
      · rw [if_pos huv]
      · rw [if_neg huv, if_pos hpos]

theorem remove_edge_none_iff {N : ℕ} {s : State N} (hG : Good s) (u v : Fin N) :
    remove_edge s u v = none ↔ u = v ∨ s.direct_edge_counts u v = 0 := by
  constructor
  · intro hnone
    by_cases huv : u = v
    · exact Or.inl huv
    by_cases hpre : s.direct_edge_counts u v = 0
    · exact Or.inr hpre
    · rw [remove_edge_good hG huv (Nat.pos_of_ne_zero hpre)] at hnone
      exact absurd hnone (by simp)
  · intro h
    unfold remove_edge
    rcases h with rfl | h0
    · rw [if_pos rfl]
    · by_cases huv : u = v
      · rw [if_pos huv]
      · rw [if_neg huv, if_pos h0]

/-- Every state reachable by successful public operations satisfies the
path-count invariant. -/
theorem reachable_good {N : ℕ} {s : State N} (h : Reachable s) : Good s := by
  induction h with
  | empty => exact good_empty
  | add hR hstep ih =>
    rename_i s₀ s' u v
    by_cases huv : u = v
    · unfold add_edge at hstep
      rw [if_pos huv] at hstep
      exact absurd hstep (by simp)
    by_cases hpre : s₀.index_paths_counts v u = 0
    · have := add_edge_good ih huv hpre
      rw [this] at hstep
      have hs' := Option.some.inj hstep
      rw [← hs']
      refine good_mkState (bump_acyclicB ih.2.2 huv ?_)
      refine no_walk_of_pathCount_zero ih.2.2 ?_
      rw [← ih.1]
      exact hpre
    · unfold add_edge at hstep
      rw [if_neg huv, if_pos (Nat.pos_of_ne_zero hpre)] at hstep
      exact absurd hstep (by simp)
  | remove hR hstep ih =>
    rename_i s₀ s' u v
    by_cases huv : u = v
    · unfold remove_edge at hstep
      rw [if_pos huv] at hstep
      exact absurd hstep (by simp)
    by_cases hpre : s₀.direct_edge_counts u v = 0
    · unfold remove_edge at hstep
      rw [if_neg huv, if_pos hpre] at hstep
      exact absurd hstep (by simp)
    · have := remove_edge_good ih huv (Nat.pos_of_ne_zero hpre)
      rw [this] at hstep
      have hs' := Option.some.inj hstep
      rw [← hs']
      exact good_mkState (dec_acyclicB ih.2.2 u v)
  | removeNode hR hstep ih =>
    rename_i s₀ s' n
    have := remove_node_good ih n
    rw [this] at hstep
    have hs' := Option.some.inj hstep
    rw [← hs']
    exact good_mkState (zap_acyclicB ih.2.2 n)

/-- The stored key pairs of a two-argument count function: the content of
the MultiSet keyed on pairs. -/
def stored_pairs {N : ℕ} (f : Fin N → Fin N → ℕ) : List (Fin N × Fin N) :=
  ((List.finRange N).flatMap fun a => (List.finRange N).map fun b => (a, b)).filter
    (fun p => f p.1 p.2 ≠ 0)

/-- C1: In every state reachable from the empty index by any sequence of
successful add_edge, remove_edge, and remove_node operations, the four index
invariants hold: (P1) paths_fwd[u][u] = 0; (P2) v is a key of paths_fwd[u]
iff u is a member of paths_inv[v] (keys of a MultiSet are exactly the nodes
with positive count); (P3) no zero-valued count is stored in any paths_fwd[u]
(whose stored keys are lookup_reachable) or in direct_edges (whose stored
keys are stored_pairs); (P4) paths_fwd[u][v] is at least
direct_edges[(u,v)]. -/
theorem c1_invariants {N : ℕ} {s : State N} (h : Reachable s) :
    (∀ u : Fin N, s.index_paths_counts u u = 0) ∧
    (∀ u v : Fin N, 0 < s.index_paths_counts u v ↔ s.inverted_index_paths v u = true) ∧
    ((∀ u v : Fin N, v ∈ lookup_reachable s u → 0 < s.index_paths_counts u v) ∧
      (∀ p ∈ stored_pairs s.direct_edge_counts, 0 < s.direct_edge_counts p.1 p.2)) ∧
    (∀ u v : Fin N, s.direct_edge_counts u v ≤ s.index_paths_counts u v) := by
  obtain ⟨hfwd, hinv, hacyc⟩ := reachable_good h
  refine ⟨?_, ?_, ⟨?_, ?_⟩, ?_⟩
  · intro u
    rw [hfwd]
    exact pathCount_self_zero hacyc u
  · intro u v
    rw [hinv]
    constructor
    · intro hpos
      exact decide_eq_true hpos
    · intro hdec
      exact of_decide_eq_true hdec
  · intro u v hv
    have := mem_itemsOf.mp hv
    omega
  · intro p hp
    unfold stored_pairs at hp
    rw [List.mem_filter] at hp
    have := hp.2
    simp at this
    omega
  · intro u v
    rw [hfwd]
    exact direct_le_pathCount s.direct_edge_counts u v

/-- C1 witness: the empty three-node index is reachable and satisfies the
invariants. -/
theorem c1_invariants_witness :
    (∀ u : Fin 3, (emptyIndex 3).index_paths_counts u u = 0) ∧
    (∀ u v : Fin 3, 0 < (emptyIndex 3).index_paths_counts u v ↔
      (emptyIndex 3).inverted_index_paths v u = true) ∧
    ((∀ u v : Fin 3, v ∈ lookup_reachable (emptyIndex 3) u →
        0 < (emptyIndex 3).index_paths_counts u v) ∧
      (∀ p ∈ stored_pairs (emptyIndex 3).direct_edge_counts,
        0 < (emptyIndex 3).direct_edge_counts p.1 p.2)) ∧
    (∀ u v : Fin 3, (emptyIndex 3).direct_edge_counts u v ≤
      (emptyIndex 3).index_paths_counts u v) :=
  c1_invariants Reachable.empty

/-- C3: for every reachable index state, add_edge(u,v) fails (raising a
domain error, with the pure model returning none before any mutation) iff
u = v or u is already reachable from v, and remove_edge(u,v) fails iff
u = v or there is no direct edge (u,v); in all other cases the calls
succeed. -/
theorem c3_preconditions {N : ℕ} {s : State N} (h : Reachable s) (u v : Fin N) :
    (add_edge s u v = none ↔ u = v ∨ 0 < s.index_paths_counts v u) ∧
    (remove_edge s u v = none ↔ u = v ∨ s.direct_edge_counts u v = 0) :=
  ⟨add_edge_none_iff (reachable_good h) u v,
   remove_edge_none_iff (reachable_good h) u v⟩

/-- C3 witness: on the empty two-node index, add_edge of a self-loop fails
and add_edge of a fresh edge succeeds, matching the characterization. -/
theorem c3_preconditions_witness :
    (add_edge (emptyIndex 2) 0 1 = none ↔
      (0 : Fin 2) = 1 ∨ 0 < (emptyIndex 2).index_paths_counts 1 0) ∧
    (remove_edge (emptyIndex 2) 0 1 = none ↔
      (0 : Fin 2) = 1 ∨ (emptyIndex 2).direct_edge_counts 0 1 = 0) :=
  c3_preconditions Reachable.empty 0 1

/-! ### Order independence of successful adds -/

/-- Run a list of add_edge calls in order, failing if any call fails. -/
def runAdds {N : ℕ} : State N → List (Fin N × Fin N) → Option (State N)
  | s, [] => some s
  | s, p :: l => (add_edge s p.1 p.2).bind fun s' => runAdds s' l

/-- The multigraph described by a list of edge insertions: each pair counted
with multiplicity. -/
def edgeCount {N : ℕ} : List (Fin N × Fin N) → Fin N → Fin N → ℕ
  | [], _, _ => 0
  | p :: l, a, b => (if p = (a, b) then 1 else 0) + edgeCount l a b

theorem edgeCount_perm {N : ℕ} {l₁ l₂ : List (Fin N × Fin N)} (h : l₁.Perm l₂) :
    ∀ a b : Fin N, edgeCount l₁ a b = edgeCount l₂ a b := by
  induction h with
  | nil => intro a b; rfl
  | cons x h ih => intro a b; simp only [edgeCount, ih a b]
  | swap x y l => intro a b; simp only [edgeCount]; ring
  | trans h₁ h₂ ih₁ ih₂ => intro a b; rw [ih₁ a b, ih₂ a b]

theorem add_edge_some_elim {N : ℕ} {s s' : State N} {u v : Fin N} (hG : Good s)
    (h : add_edge s u v = some s') :
    u ≠ v ∧ s.index_paths_counts v u = 0 ∧
      s' = mkState (bump s.direct_edge_counts u v) ∧ Good s' := by
  by_cases huv : u = v
  · unfold add_edge at h
    rw [if_pos huv] at h
    exact absurd h (by simp)
  by_cases hpre : s.index_paths_counts v u = 0
  · have heq := add_edge_good hG huv hpre
    rw [heq] at h
    have hs' := (Option.some.inj h).symm
    refine ⟨huv, hpre, hs', ?_⟩
    rw [hs']
    refine good_mkState (bump_acyclicB hG.2.2 huv ?_)
    refine no_walk_of_pathCount_zero hG.2.2 ?_
    rw [← hG.1]
    exact hpre
  · unfold add_edge at h
    rw [if_neg huv, if_pos (Nat.pos_of_ne_zero hpre)] at h
    exact absurd h (by simp)

theorem runAdds_sound {N : ℕ} (l : List (Fin N × Fin N)) :
    ∀ (s₀ s : State N), Good s₀ → runAdds s₀ l = some s →
      Good s ∧ ∀ a b : Fin N,
        s.direct_edge_counts a b = s₀.direct_edge_counts a b + edgeCount l a b := by
  induction l with
  | nil =>
    intro s₀ s hG h
    have hss : s₀ = s := Option.some.inj h
    rw [← hss]
    exact ⟨hG, fun a b => by simp [edgeCount]⟩
  | cons p l ih =>
    intro s₀ s hG h
    obtain ⟨u, v⟩ := p
    have hb : (add_edge s₀ u v).bind (fun s₁ => runAdds s₁ l) = some s := h
    cases h₁ : add_edge s₀ u v with
    | none => rw [h₁] at hb; exact absurd hb (by simp)
    | some s₁ =>
      rw [h₁, Option.some_bind] at hb
      obtain ⟨huv, hpre, hs₁, hG₁⟩ := add_edge_some_elim hG h₁
      obtain ⟨hGs, hdir⟩ := ih s₁ s hG₁ hb
      refine ⟨hGs, fun a b => ?_⟩
      rw [hdir a b, hs₁]
      show bump s₀.direct_edge_counts u v a b + edgeCount l a b =
        s₀.direct_edge_counts a b + edgeCount ((u, v) :: l) a b
      simp only [edgeCount]
      unfold bump
      by_cases hab : a = u ∧ b = v
      · obtain ⟨rfl, rfl⟩ := hab
        rw [if_pos ⟨rfl, rfl⟩, if_pos rfl]
        omega
      · have hne : ((u, v) : Fin N × Fin N) ≠ (a, b) := by
          intro hc
          exact hab ⟨(congrArg Prod.fst hc).symm, (congrArg Prod.snd hc).symm⟩
        rw [if_neg hab, if_neg hne]
        omega

theorem runAdds_complete {N : ℕ} (L : List (Fin N × Fin N))
    (hA : AcyclicB (edgeCount L)) :
    ∀ (l : List (Fin N × Fin N)) (s : State N), Good s →
      (∀ a b : Fin N, s.direct_edge_counts a b + edgeCount l a b = edgeCount L a b) →
      ∃ s' : State N, runAdds s l = some s' ∧ Good s' ∧
        ∀ a b : Fin N, s'.direct_edge_counts a b = edgeCount L a b := by
  intro l
  induction l with
  | nil =>
    intro s hG hsum
    refine ⟨s, rfl, hG, fun a b => ?_⟩
    have h1 := hsum a b
    have h2 : edgeCount ([] : List (Fin N × Fin N)) a b = 0 := by simp [edgeCount]
    omega
  | cons p l ih =>
    intro s hG hsum
    obtain ⟨u, v⟩ := p
    have hle : ∀ a b : Fin N, s.direct_edge_counts a b ≤ edgeCount L a b := by
      intro a b
      have := hsum a b
      omega
    have hcons : edgeCount ((u, v) :: l) u v = edgeCount l u v + 1 := by
      simp only [edgeCount]
      rw [if_pos trivial]
      omega
    have hLuv : 1 ≤ edgeCount L u v := by
      have := hsum u v
      omega
    have huv : u ≠ v := by
      intro hc
      have h1 := acyclic_all hA 1 le_rfl u
      rw [walkCount_one] at h1
      rw [hc] at h1
      rw [hc] at hLuv
      omega
    have hpre : s.index_paths_counts v u = 0 := by
      by_contra hpos
      have hpc : 0 < pathCount s.direct_edge_counts v u := by
        have := hG.1 v u
        omega
      obtain ⟨k, hk, hw⟩ := pathCount_pos_elim hpc
      have hwL : 0 < walkCount (edgeCount L) k v u :=
        lt_of_lt_of_le hw (walkCount_le_of_le hle k v u)
      have hsumdef : walkCount (edgeCount L) (k + 1) u u =
          ∑ w : Fin N, edgeCount L u w * walkCount (edgeCount L) k w u := rfl
      have hsingle := Finset.single_le_sum
        (f := fun w : Fin N => edgeCount L u w * walkCount (edgeCount L) k w u)
        (fun i _ => Nat.zero_le _) (Finset.mem_univ v)
      have hzero := acyclic_all hA (k + 1) (by omega) u
      have hposterm : 0 < edgeCount L u v * walkCount (edgeCount L) k v u :=
        Nat.mul_pos (by omega) hwL
      rw [hsumdef] at hzero
      simp only [] at hsingle
      omega
    have hstep := add_edge_good hG huv hpre
    have hsum' : ∀ a b : Fin N,
        (mkState (bump s.direct_edge_counts u v)).direct_edge_counts a b +
          edgeCount l a b = edgeCount L a b := by
      intro a b
      show bump s.direct_edge_counts u v a b + edgeCount l a b = edgeCount L a b
      have h1 := hsum a b
      unfold bump
      by_cases hab : a = u ∧ b = v
      · obtain ⟨rfl, rfl⟩ := hab
        rw [if_pos ⟨rfl, rfl⟩]
        rw [hcons] at h1
        omega
      · rw [if_neg hab]
        have hne : ((u, v) : Fin N × Fin N) ≠ (a, b) := by
          intro hc
          exact hab ⟨(congrArg Prod.fst hc).symm, (congrArg Prod.snd hc).symm⟩
        have h2 : edgeCount ((u, v) :: l) a b = edgeCount l a b := by
          simp only [edgeCount]
          rw [if_neg hne]
          omega
        omega
    have hGb : Good (mkState (bump s.direct_edge_counts u v)) := by
      refine good_mkState (bump_acyclicB hG.2.2 huv ?_)
      refine no_walk_of_pathCount_zero hG.2.2 ?_
      rw [← hG.1]
      exact hpre
    obtain ⟨s', hrun, hGs', hdir⟩ := ih (mkState (bump s.direct_edge_counts u v)) hGb hsum'
    refine ⟨s', ?_, hGs', hdir⟩
    show (add_edge s u v).bind (fun s₁ => runAdds s₁ l) = some s'
    rw [hstep, Option.some_bind]
    exact hrun

/-- C5: if a list of add_edge calls all succeed from the empty index, any
permutation of the list also succeeds from the empty index and produces an
index whose direct_edges, paths_fwd and paths_inv containers compare equal —
here literally the same state: the state is a function of the multiset of
added edges only. -/
theorem c5_order_independence {N : ℕ} {l l' : List (Fin N × Fin N)} {s : State N}
    (hperm : l.Perm l') (h : runAdds (emptyIndex N) l = some s) :
    runAdds (emptyIndex N) l' = some s := by
  obtain ⟨hGs, hdir⟩ := runAdds_sound l (emptyIndex N) s good_empty h
  have hdir' : ∀ a b : Fin N, s.direct_edge_counts a b = edgeCount l a b := by
    intro a b
    have := hdir a b
    simpa [emptyIndex] using this
  have hfun : edgeCount l' = s.direct_edge_counts := by
    funext a b
    rw [← edgeCount_perm hperm a b]
    exact (hdir' a b).symm
  have hA : AcyclicB (edgeCount l') := by
    rw [hfun]
    exact hGs.2.2
  obtain ⟨s', hrun, hGs', hdir2⟩ := runAdds_complete l' hA l' (emptyIndex N)
    good_empty (fun a b => by simp [emptyIndex])
  have hdeq : s'.direct_edge_counts = s.direct_edge_counts := by
    funext a b
    rw [hdir2 a b]
    exact congrFun (congrFun hfun a) b
  have hfeq : s'.index_paths_counts = s.index_paths_counts := by
    funext x y
    rw [hGs'.1 x y, hGs.1 x y, hdeq]
  have hieq : s'.inverted_index_paths = s.inverted_index_paths := by
    funext y x
    rw [hGs'.2.1 x y, hGs.2.1 x y, hfeq]
  rw [hrun, State_ext s' s hdeq hfeq hieq]

/-- Field-wise boolean equality test on states, plain enough for evaluation. -/
def stateBEq {N : ℕ} (s₁ s₂ : State N) : Bool :=
  (List.finRange N).all fun a => (List.finRange N).all fun b =>
    (decide (s₁.direct_edge_counts a b = s₂.direct_edge_counts a b) &&
      decide (s₁.index_paths_counts a b = s₂.index_paths_counts a b)) &&
    decide (s₁.inverted_index_paths a b = s₂.inverted_index_paths a b)

theorem stateBEq_iff {N : ℕ} (s₁ s₂ : State N) : stateBEq s₁ s₂ = true ↔ s₁ = s₂ := by
  constructor
  · intro h
    unfold stateBEq at h
    rw [List.all_eq_true] at h
    have hp : ∀ a b : Fin N,
        s₁.direct_edge_counts a b = s₂.direct_edge_counts a b ∧
        s₁.index_paths_counts a b = s₂.index_paths_counts a b ∧
        s₁.inverted_index_paths a b = s₂.inverted_index_paths a b := by
      intro a b
      have h1 := h a (List.mem_finRange a)
      rw [List.all_eq_true] at h1
      have h2 := h1 b (List.mem_finRange b)
      rw [Bool.and_eq_true, Bool.and_eq_true] at h2
      exact ⟨of_decide_eq_true h2.1.1, of_decide_eq_true h2.1.2,
        of_decide_eq_true h2.2⟩
    exact State_ext s₁ s₂
      (funext fun a => funext fun b => (hp a b).1)
      (funext fun a => funext fun b => (hp a b).2.1)
      (funext fun a => funext fun b => (hp a b).2.2)
  · intro h
    subst h
    unfold stateBEq
    rw [List.all_eq_true]
    intro a _
    rw [List.all_eq_true]
    intro b _
    simp

instance {N : ℕ} : DecidableEq (State N) := fun s₁ s₂ =>
  decidable_of_iff (stateBEq s₁ s₂ = true) (stateBEq_iff s₁ s₂)

/-- An optional state equals a target as soon as the boolean field-wise
comparison of its value with the target evaluates to true. -/
theorem option_eq_some_of_beq {N : ℕ} {o : Option (State N)} {t : State N}
    (h : o.map (fun x => stateBEq x t) = some true) : o = some t := by
  cases o with
  | none => exact absurd h (by simp)
  | some x =>
    simp only [Option.map_some'] at h
    have h2 : stateBEq x t = true := Option.some.inj h
    exact congrArg some ((stateBEq_iff x t).mp h2)

/-- C5 witness: swapping two concrete adds over three nodes yields the same
state. -/
theorem c5_order_independence_witness :
    runAdds (emptyIndex 3) [((1 : Fin 3), (2 : Fin 3)), ((0 : Fin 3), (1 : Fin 3))] =
      some (mkState (edgeCount [((0 : Fin 3), (1 : Fin 3)), ((1 : Fin 3), (2 : Fin 3))])) :=
  @c5_order_independence 3 [(0, 1), (1, 2)] [(1, 2), (0, 1)]
    (mkState (edgeCount [(0, 1), (1, 2)])) (by decide)
    (option_eq_some_of_beq (by decide))

/-! ### Concrete boundary scenarios and the lookup asymmetry -/

/-- C2: with nodes a,b,c,d rendered as 0,1,2,3, the sequence add_edge(a,b);
add_edge(c,d); add_edge(b,c) from the empty index produces exactly the
forward closure paths_fwd[a] = {b:1, c:1, d:1}, paths_fwd[b] = {c:1, d:1},
paths_fwd[c] = {d:1} (zero entries absent by the content reading): the
mid-chain splice creates the indirect pair (a,d) with count 1. -/
theorem c2_splice :
    runAdds (emptyIndex 4) [(0, 1), (2, 3), (1, 2)] = some
      { direct_edge_counts := fun a b =>
          if (a, b) = (0, 1) ∨ (a, b) = (2, 3) ∨ (a, b) = (1, 2) then 1 else 0
        index_paths_counts := fun a b =>
          if (a = 0 ∧ (b = 1 ∨ b = 2 ∨ b = 3)) ∨ (a = 1 ∧ (b = 2 ∨ b = 3)) ∨
            (a = 2 ∧ b = 3) then 1 else 0
        inverted_index_paths := fun b a =>
          decide ((a = 0 ∧ (b = 1 ∨ b = 2 ∨ b = 3)) ∨ (a = 1 ∧ (b = 2 ∨ b = 3)) ∨
            (a = 2 ∧ b = 3)) } :=
  option_eq_some_of_beq (by decide)

/-- C4: with nodes a,b,c,d rendered as 0,1,2,3, the sequence add_edge(a,b);
add_edge(b,c); add_edge(b,c); add_edge(c,d); remove_edge(b,c) produces
exactly paths_fwd[a] = {b:1, c:1, d:1}, paths_fwd[b] = {c:1, d:1} and
direct_edges = {(a,b):1, (b,c):1, (c,d):1} (with paths_fwd[c] = {d:1} and
the matching inverted index): removing one of two edge copies decrements the
supported path counts but keeps reachability. -/
theorem c4_multi_edge_removal :
    (runAdds (emptyIndex 4) [(0, 1), (1, 2), (1, 2), (2, 3)]).bind
        (fun s => remove_edge s 1 2) = some
      { direct_edge_counts := fun a b =>
          if (a, b) = (0, 1) ∨ (a, b) = (1, 2) ∨ (a, b) = (2, 3) then 1 else 0
        index_paths_counts := fun a b =>
          if (a = 0 ∧ (b = 1 ∨ b = 2 ∨ b = 3)) ∨ (a = 1 ∧ (b = 2 ∨ b = 3)) ∨
            (a = 2 ∧ b = 3) then 1 else 0
        inverted_index_paths := fun b a =>
          decide ((a = 0 ∧ (b = 1 ∨ b = 2 ∨ b = 3)) ∨ (a = 1 ∧ (b = 2 ∨ b = 3)) ∨
            (a = 2 ∧ b = 3)) } :=
  option_eq_some_of_beq (by decide)

/-- C10: if no node has a path to v — v's row of the inverted index is
empty, e.g. v was never inserted — then lookup_reverse(v) raises
(dict.get returns None, so list(None) raises a TypeError, modeled as none),
while the symmetric query lookup_reachable(u) returns the empty list for a
node u with no outgoing paths. -/
theorem c10_lookup_asymmetry {N : ℕ} (s : State N) (v u : Fin N)
    (hv : ∀ x : Fin N, s.inverted_index_paths v x = false)
    (hu : ∀ y : Fin N, s.index_paths_counts u y = 0) :
    lookup_reverse s v = none ∧ lookup_reachable s u = [] := by
  constructor
  · unfold lookup_reverse
    rw [if_pos ?_]
    rw [List.all_eq_true]
    intro x _
    rw [hv x]
    rfl
  · unfold lookup_reachable itemsOf
    rw [List.filter_eq_nil_iff]
    intro x _
    simp [hu x]

/-- C10 witness: on the empty two-node index, lookup_reverse of node 0
fails while lookup_reachable of node 1 returns the empty list. -/
theorem c10_lookup_asymmetry_witness :
    lookup_reverse (emptyIndex 2) 0 = none ∧ lookup_reachable (emptyIndex 2) 1 = [] :=
  c10_lookup_asymmetry (emptyIndex 2) 0 1 (by decide) (by decide)

end IndexV2

/-! ## src/index_v1.py — the MultiSet container

A MultiSet (a Counter subclass) is modeled as an insertion-ordered
association list of key/count pairs, the content of the underlying dict.
Reads are pure functions, so a read cannot mutate the container. -/

namespace IndexV1

variable {κ : Type} [DecidableEq κ]

/-- Keys present in the container, in dict order. -/
def keysOf (m : List (κ × ℤ)) : List κ := m.map Prod.fst

/-- Counter.__missing__: reading an absent key yields 0; reading a present
key yields its stored count (keys are unique under WF). -/
def getCount : List (κ × ℤ) → κ → ℤ
  | [], _ => 0
  | (a, v) :: m, k => if k = a then v else getCount m k

/-- Counter.__delitem__: delete the key if present, no error otherwise. -/
def delItem (m : List (κ × ℤ)) (k : κ) : List (κ × ℤ) :=
  m.filter (fun p => p.1 ≠ k)

/-- dict.__setitem__: overwrite in place if the key exists, append
otherwise. -/
def setKey : List (κ × ℤ) → κ → ℤ → List (κ × ℤ)
  | [], k, v => [(k, v)]
  | (a, w) :: m, k, v => if k = a then (k, v) :: m else (a, w) :: setKey m k v

/-- MultiSet.__setitem__ (src/index_v1.py lines 12-20): a negative value
raises ValueError (none), zero deletes the key, a positive value is stored.
The isinstance int check cannot fail here since counts are integers by
type. -/
def setItem (m : List (κ × ℤ)) (k : κ) (v : ℤ) : Option (List (κ × ℤ)) :=
  if v < 0 then none
  else if v = 0 then some (delItem m k)
  else some (setKey m k v)

/-- The representation invariant of a MultiSet: strictly positive counts
and unique keys. -/
def WF (m : List (κ × ℤ)) : Prop :=
  (∀ p ∈ m, 0 < p.2) ∧ (m.map Prod.fst).Nodup

/-- One in-place Counter loop: for each (key, count) of the right operand,
set self[key] to G(self[key], count) through MultiSet.__setitem__, stopping
with an error if __setitem__ raises. -/
def applyItems (G : ℤ → ℤ → ℤ) : List (κ × ℤ) → List (κ × ℤ) → Option (List (κ × ℤ))
  | m, [] => some m
  | m, (k, c) :: rest =>
    (setItem m k (G (getCount m k) c)).bind fun r => applyItems G r rest

/-- Counter.__iadd__ via MultiSet.__setitem__: self[k] = count + self[k]. -/
def iaddMS (m other : List (κ × ℤ)) : Option (List (κ × ℤ)) :=
  applyItems (fun x c => c + x) m other

/-- Counter.__isub__ via MultiSet.__setitem__: self[k] = self[k] - count. -/
def isubMS (m other : List (κ × ℤ)) : Option (List (κ × ℤ)) :=
  applyItems (fun x c => x - c) m other

/-- MultiSet.__add__ (lines 22-25): copy then +=. -/
def addMS (a b : List (κ × ℤ)) : Option (List (κ × ℤ)) := iaddMS a b

/-- MultiSet.__sub__ (lines 27-30): copy then -=. -/
def subMS (a b : List (κ × ℤ)) : Option (List (κ × ℤ)) := isubMS a b

theorem WF_cons_elim {a : κ} {v : ℤ} {m : List (κ × ℤ)}
    (h : WF ((a, v) :: m)) : 0 < v ∧ a ∉ keysOf m ∧ WF m := by
  obtain ⟨hpos, hnd⟩ := h
  have hnd2 : (a :: m.map Prod.fst).Nodup := hnd
  rw [List.nodup_cons] at hnd2
  exact ⟨hpos (a, v) (by simp), hnd2.1,
    fun p hp => hpos p (List.mem_cons_of_mem _ hp), hnd2.2⟩

theorem getCount_eq_zero_of_not_mem {m : List (κ × ℤ)} {k : κ}
    (h : k ∉ keysOf m) : getCount m k = 0 := by
  induction m with
  | nil => rfl
  | cons p m ih =>
    obtain ⟨a, v⟩ := p
    have hka : k ≠ a := by
      intro he
      exact h (by simp [keysOf, he])
    show (if k = a then v else getCount m k) = 0
    rw [if_neg hka]
    exact ih fun hm => h (by simp [keysOf] at hm ⊢; exact Or.inr hm)

theorem getCount_nonneg {m : List (κ × ℤ)} (hm : WF m) (k : κ) :
    0 ≤ getCount m k := by
  induction m with
  | nil => exact le_refl 0
  | cons p m ih =>
    obtain ⟨a, v⟩ := p
    obtain ⟨hv, _, hwf⟩ := WF_cons_elim hm
    show 0 ≤ if k = a then v else getCount m k
    by_cases hka : k = a
    · rw [if_pos hka]; omega
    · rw [if_neg hka]; exact ih hwf

theorem getCount_pos_iff_mem {m : List (κ × ℤ)} (hm : WF m) (j : κ) :
    j ∈ keysOf m ↔ 0 < getCount m j := by
  induction m with
  | nil => simp [keysOf]; rfl
  | cons p m ih =>
    obtain ⟨a, v⟩ := p
    obtain ⟨hv, _, hwf⟩ := WF_cons_elim hm
    show j ∈ keysOf ((a, v) :: m) ↔ 0 < if j = a then v else getCount m j
    by_cases hja : j = a
    · rw [if_pos hja]
      simp [keysOf, hja, hv]
    · rw [if_neg hja]
      rw [← ih hwf]
      simp [keysOf, hja]

theorem getCount_of_mem {m : List (κ × ℤ)} (hnd : (m.map Prod.fst).Nodup)
    {p : κ × ℤ} (hp : p ∈ m) : getCount m p.1 = p.2 := by
  induction m with
  | nil => exact absurd hp (List.not_mem_nil p)
  | cons q m ih =>
    obtain ⟨a, v⟩ := q
    have hnd2 : (a :: m.map Prod.fst).Nodup := hnd
    rw [List.nodup_cons] at hnd2
    rcases List.mem_cons.mp hp with he | ht
    · rw [he]
      show (if a = a then v else getCount m a) = v
      rw [if_pos rfl]
    · have hne : p.1 ≠ a := by
        intro he
        exact hnd2.1 (he ▸ List.mem_map_of_mem Prod.fst ht)
      show (if p.1 = a then v else getCount m p.1) = p.2
      rw [if_neg hne]
      exact ih hnd2.2 ht

theorem mem_keysOf {m : List (κ × ℤ)} {j : κ} :
    j ∈ keysOf m ↔ ∃ p ∈ m, p.1 = j := by
  unfold keysOf
  rw [List.mem_map]

theorem not_mem_keysOf_delItem (m : List (κ × ℤ)) (k : κ) :
    k ∉ keysOf (delItem m k) := by
  intro h
  obtain ⟨p, hp, he⟩ := mem_keysOf.mp h
  unfold delItem at hp
  rw [List.mem_filter] at hp
  have := hp.2
  simp at this
  exact this he

theorem getCount_delItem_ne (m : List (κ × ℤ)) {j k : κ} (hjk : j ≠ k) :
    getCount (delItem m k) j = getCount m j := by
  induction m with
  | nil => rfl
  | cons p m ih =>
    obtain ⟨a, v⟩ := p
    by_cases hak : a = k
    · have h1 : delItem ((a, v) :: m) k = delItem m k := by
        unfold delItem
        rw [List.filter_cons]
        simp [hak]
      rw [h1, ih]
      show getCount m j = if j = a then v else getCount m j
      rw [if_neg (by rw [hak]; exact hjk)]
    · have h1 : delItem ((a, v) :: m) k = (a, v) :: delItem m k := by
        unfold delItem
        rw [List.filter_cons]
        simp [hak]
      rw [h1]
      show (if j = a then v else getCount (delItem m k) j) =
        if j = a then v else getCount m j
      by_cases hja : j = a
      · rw [if_pos hja, if_pos hja]
      · rw [if_neg hja, if_neg hja, ih]

theorem WF_delItem {m : List (κ × ℤ)} (hm : WF m) (k : κ) :
    WF (delItem m k) := by
  obtain ⟨hpos, hnd⟩ := hm
  constructor
  · intro p hp
    unfold delItem at hp
    rw [List.mem_filter] at hp
    exact hpos p hp.1
  · have h1 : List.Sublist (delItem m k) m := List.filter_sublist m
    have h2 := List.Sublist.map Prod.fst h1
    exact List.Nodup.sublist h2 hnd

theorem getCount_setKey_self (m : List (κ × ℤ)) (k : κ) (v : ℤ) :
    getCount (setKey m k v) k = v := by
  induction m with
  | nil =>
    show (if k = k then v else 0) = v
    rw [if_pos rfl]
  | cons p m ih =>
    obtain ⟨a, w⟩ := p
    by_cases hka : k = a
    · show getCount (if k = a then (k, v) :: m else (a, w) :: setKey m k v) k = v
      rw [if_pos hka]
      show (if k = k then v else getCount m k) = v
      rw [if_pos rfl]
    · show getCount (if k = a then (k, v) :: m else (a, w) :: setKey m k v) k = v
      rw [if_neg hka]
      show (if k = a then w else getCount (setKey m k v) k) = v
      rw [if_neg hka]
      exact ih

theorem getCount_setKey_ne (m : List (κ × ℤ)) {j k : κ} (v : ℤ) (hjk : j ≠ k) :
    getCount (setKey m k v) j = getCount m j := by
  induction m with
  | nil =>
    show (if j = k then v else 0) = 0
    rw [if_neg hjk]
  | cons p m ih =>
    obtain ⟨a, w⟩ := p
    by_cases hka : k = a
    · show getCount (if k = a then (k, v) :: m else (a, w) :: setKey m k v) j = _
      rw [if_pos hka]
      show (if j = k then v else getCount m j) = if j = a then w else getCount m j
      rw [if_neg hjk, if_neg (by rw [← hka]; exact hjk)]
    · show getCount (if k = a then (k, v) :: m else (a, w) :: setKey m k v) j = _
      rw [if_neg hka]
      show (if j = a then w else getCount (setKey m k v) j) =
        if j = a then w else getCount m j
      by_cases hja : j = a
      · rw [if_pos hja, if_pos hja]
      · rw [if_neg hja, if_neg hja, ih]

theorem keysOf_cons (a : κ) (w : ℤ) (m : List (κ × ℤ)) :
    keysOf ((a, w) :: m) = a :: keysOf m := rfl

theorem mem_keysOf_setKey {m : List (κ × ℤ)} {j k : κ} {v : ℤ}
    (h : j ∈ keysOf (setKey m k v)) : j = k ∨ j ∈ keysOf m := by
  induction m with
  | nil =>
    rw [show setKey ([] : List (κ × ℤ)) k v = [(k, v)] from rfl, keysOf_cons] at h
    rcases List.mem_cons.mp h with he | ht
    · exact Or.inl he
    · exact absurd ht (List.not_mem_nil j)
  | cons p m ih =>
    obtain ⟨a, w⟩ := p
    by_cases hka : k = a
    · have he : setKey ((a, w) :: m) k v = (k, v) :: m := by
        show (if k = a then (k, v) :: m else (a, w) :: setKey m k v) = (k, v) :: m
        rw [if_pos hka]
      rw [he, keysOf_cons] at h
      rcases List.mem_cons.mp h with he2 | ht
      · exact Or.inl he2
      · rw [keysOf_cons]
        exact Or.inr (List.mem_cons_of_mem a ht)
    · have he : setKey ((a, w) :: m) k v = (a, w) :: setKey m k v := by
        show (if k = a then (k, v) :: m else (a, w) :: setKey m k v) = _
        rw [if_neg hka]
      rw [he, keysOf_cons] at h
      rcases List.mem_cons.mp h with he2 | ht
      · rw [keysOf_cons, he2]
        exact Or.inr (List.mem_cons_self a _)
      · rcases ih ht with h4 | h4
        · exact Or.inl h4
        · rw [keysOf_cons]
          exact Or.inr (List.mem_cons_of_mem a h4)

theorem WF_setKey {m : List (κ × ℤ)} (hm : WF m) {k : κ} {v : ℤ} (hv : 0 < v) :
    WF (setKey m k v) := by
  induction m with
  | nil =>
    constructor
    · intro p hp
      rcases List.mem_singleton.mp hp with rfl
      exact hv
    · show ([(k, v)].map Prod.fst).Nodup
      simp
  | cons p m ih =>
    obtain ⟨a, w⟩ := p
    obtain ⟨hw, hnotin, hwf⟩ := WF_cons_elim hm
    by_cases hka : k = a
    · have he : setKey ((a, w) :: m) k v = (k, v) :: m := by
        show (if k = a then (k, v) :: m else (a, w) :: setKey m k v) = (k, v) :: m
        rw [if_pos hka]
      rw [he]
      constructor
      · intro p hp
        rcases List.mem_cons.mp hp with he2 | ht
        · rw [he2]; exact hv
        · exact hwf.1 p ht
      · show (k :: m.map Prod.fst).Nodup
        rw [List.nodup_cons]
        exact ⟨by rw [hka]; exact hnotin, hwf.2⟩
    · have he : setKey ((a, w) :: m) k v = (a, w) :: setKey m k v := by
        show (if k = a then (k, v) :: m else (a, w) :: setKey m k v) = _
        rw [if_neg hka]
      rw [he]
      obtain ⟨hp1, hnd1⟩ := ih hwf
      constructor
      · intro p hp
        rcases List.mem_cons.mp hp with he2 | ht
        · rw [he2]; exact hw
        · exact hp1 p ht
      · show (a :: (setKey m k v).map Prod.fst).Nodup
        rw [List.nodup_cons]
        refine ⟨?_, hnd1⟩
        intro hmem
        rcases mem_keysOf_setKey hmem with he2 | hin
        · exact hka he2.symm
        · exact hnotin hin

theorem setItem_spec (m : List (κ × ℤ)) (k : κ) (v : ℤ) (hv : 0 ≤ v)
    (hm : WF m) :
    ∃ r, setItem m k v = some r ∧ WF r ∧ getCount r k = v ∧
      ∀ j, j ≠ k → getCount r j = getCount m j := by
  by_cases h0 : v = 0
  · refine ⟨delItem m k, ?_, WF_delItem hm k, ?_, ?_⟩
    · unfold setItem
      rw [if_neg (by omega), if_pos h0]
    · rw [h0]
      exact getCount_eq_zero_of_not_mem (not_mem_keysOf_delItem m k)
    · intro j hj
      exact getCount_delItem_ne m hj
  · refine ⟨setKey m k v, ?_, WF_setKey hm (by omega),
      getCount_setKey_self m k v, ?_⟩
    · unfold setItem
      rw [if_neg (by omega), if_neg h0]
    · intro j hj
      exact getCount_setKey_ne m v hj

theorem setItem_neg (m : List (κ × ℤ)) (k : κ) {v : ℤ} (hv : v < 0) :
    setItem m k v = none := by
  unfold setItem
  rw [if_pos hv]

theorem applyItems_spec (G : ℤ → ℤ → ℤ) (other : List (κ × ℤ)) :
    ∀ m : List (κ × ℤ), WF m → (keysOf other).Nodup →
      (∀ p ∈ other, 0 ≤ G (getCount m p.1) p.2) →
      ∃ r, applyItems G m other = some r ∧ WF r ∧
        (∀ p ∈ other, getCount r p.1 = G (getCount m p.1) p.2) ∧
        ∀ j, j ∉ keysOf other → getCount r j = getCount m j := by
  induction other with
  | nil =>
    intro m hm _ _
    exact ⟨m, rfl, hm, fun p hp => absurd hp (List.not_mem_nil p),
      fun j _ => rfl⟩
  | cons q rest ih =>
    intro m hm hnd hpos
    obtain ⟨k, c⟩ := q
    rw [keysOf_cons, List.nodup_cons] at hnd
    have h0 : 0 ≤ G (getCount m k) c := hpos (k, c) (List.mem_cons_self _ _)
    obtain ⟨r₁, hset, hwf₁, hself, hother⟩ :=
      setItem_spec m k (G (getCount m k) c) h0 hm
    have hpos2 : ∀ p ∈ rest, 0 ≤ G (getCount r₁ p.1) p.2 := by
      intro q hq
      have hne : q.1 ≠ k := by
        intro he
        exact hnd.1 (he ▸ mem_keysOf.mpr ⟨q, hq, rfl⟩)
      rw [hother q.1 hne]
      exact hpos q (List.mem_cons_of_mem _ hq)
    obtain ⟨r, hfold, hwf, hmain, hrest⟩ := ih r₁ hwf₁ hnd.2 hpos2
    refine ⟨r, ?_, hwf, ?_, ?_⟩
    · show (setItem m k (G (getCount m k) c)).bind
        (fun x => applyItems G x rest) = some r
      rw [hset, Option.some_bind]
      exact hfold
    · intro q hq
      rcases List.mem_cons.mp hq with he | ht
      · rw [he]
        rw [hrest k hnd.1, hself]
      · have hne : q.1 ≠ k := by
          intro he
          exact hnd.1 (he ▸ mem_keysOf.mpr ⟨q, ht, rfl⟩)
        rw [hmain q ht, hother q.1 hne]
    · intro j hj
      have hjk : j ≠ k := by
        intro he
        exact hj (by rw [keysOf_cons, he]; exact List.mem_cons_self k _)
      have hjrest : j ∉ keysOf rest := by
        intro hmem
        exact hj (by rw [keysOf_cons]; exact List.mem_cons_of_mem k hmem)
      rw [hrest j hjrest, hother j hjk]

theorem applyItems_fail (G : ℤ → ℤ → ℤ) (other : List (κ × ℤ)) :
    ∀ m : List (κ × ℤ), WF m → (keysOf other).Nodup →
      (∃ p ∈ other, G (getCount m p.1) p.2 < 0) →
      applyItems G m other = none := by
  induction other with
  | nil =>
    intro m _ _ h
    obtain ⟨p, hp, _⟩ := h
    exact absurd hp (List.not_mem_nil p)
  | cons q rest ih =>
    intro m hm hnd hex
    obtain ⟨k, c⟩ := q
    rw [keysOf_cons, List.nodup_cons] at hnd
    by_cases h0 : G (getCount m k) c < 0
    · show (setItem m k (G (getCount m k) c)).bind
        (fun x => applyItems G x rest) = none
      rw [setItem_neg m k h0]
      rfl
    · obtain ⟨r₁, hset, hwf₁, hself, hother⟩ :=
        setItem_spec m k (G (getCount m k) c) (by omega) hm
      show (setItem m k (G (getCount m k) c)).bind
        (fun x => applyItems G x rest) = none
      rw [hset, Option.some_bind]
      apply ih r₁ hwf₁ hnd.2
      obtain ⟨p, hp, hneg⟩ := hex
      rcases List.mem_cons.mp hp with he | ht
      · exact absurd (by rw [he] at hneg; exact hneg) h0
      · refine ⟨p, ht, ?_⟩
        have hne : p.1 ≠ k := by
          intro he
          exact hnd.1 (he ▸ mem_keysOf.mpr ⟨p, ht, rfl⟩)
        rw [hother p.1 hne]
        exact hneg

/-- C7: the MultiSet contract. Reading a missing key yields 0 (reads are
pure, so no entry is created); setting a key to 0 deletes the entry;
setting a negative value raises (none), leaving no mutated result;
iteration visits exactly the keys with positive count; a + b always
succeeds on well-formed multisets with pointwise sums, and a - b succeeds
with pointwise differences exactly when no resulting count would be
negative, raising instead of clamping otherwise. -/
theorem c7_multiset_contract (m other : List (κ × ℤ)) (k : κ) (n : ℤ)
    (hm : WF m) (ho : WF other) :
    (k ∉ keysOf m → getCount m k = 0) ∧
    (setItem m k 0 = some (delItem m k) ∧ k ∉ keysOf (delItem m k)) ∧
    (n < 0 → setItem m k n = none) ∧
    (∀ j : κ, j ∈ keysOf m ↔ 0 < getCount m j) ∧
    (∃ r, addMS m other = some r ∧ WF r ∧
      ∀ j : κ, getCount r j = getCount m j + getCount other j) ∧
    ((∀ j : κ, getCount other j ≤ getCount m j) →
      ∃ r, subMS m other = some r ∧
        ∀ j : κ, getCount r j = getCount m j - getCount other j) ∧
    (¬(∀ j : κ, getCount other j ≤ getCount m j) → subMS m other = none) := by
  refine ⟨getCount_eq_zero_of_not_mem, ⟨?_, not_mem_keysOf_delItem m k⟩,
    fun hneg => setItem_neg m k hneg, getCount_pos_iff_mem hm, ?_, ?_, ?_⟩
  · unfold setItem
    rw [if_neg (by omega : ¬((0 : ℤ) < 0)), if_pos rfl]
  · have hpos : ∀ p ∈ other, 0 ≤ (fun x c => c + x) (getCount m p.1) p.2 := by
      intro p hp
      have h1 := ho.1 p hp
      have h2 := getCount_nonneg hm p.1
      show 0 ≤ p.2 + getCount m p.1
      omega
    obtain ⟨r, hr, hwf, hmain, hrest⟩ :=
      applyItems_spec (fun x c => c + x) other m hm ho.2 hpos
    refine ⟨r, hr, hwf, fun j => ?_⟩
    by_cases hj : j ∈ keysOf other
    · obtain ⟨p, hp, hpe⟩ := mem_keysOf.mp hj
      have hov : getCount other j = p.2 := by
        rw [← hpe]
        exact getCount_of_mem ho.2 hp
      have h3 := hmain p hp
      rw [hpe] at h3
      have h3b : getCount r j = p.2 + getCount m j := h3
      omega
    · have h3 := hrest j hj
      have h4 : getCount other j = 0 := getCount_eq_zero_of_not_mem hj
      omega
  · intro hle
    have hpos : ∀ p ∈ other, 0 ≤ (fun x c => x - c) (getCount m p.1) p.2 := by
      intro p hp
      have hov : getCount other p.1 = p.2 := getCount_of_mem ho.2 hp
      have h1 := hle p.1
      show 0 ≤ getCount m p.1 - p.2
      omega
    obtain ⟨r, hr, hwf, hmain, hrest⟩ :=
      applyItems_spec (fun x c => x - c) other m hm ho.2 hpos
    refine ⟨r, hr, fun j => ?_⟩
    by_cases hj : j ∈ keysOf other
    · obtain ⟨p, hp, hpe⟩ := mem_keysOf.mp hj
      have hov : getCount other j = p.2 := by
        rw [← hpe]
        exact getCount_of_mem ho.2 hp
      have h3 := hmain p hp
      rw [hpe] at h3
      have h3b : getCount r j = getCount m j - p.2 := h3
      omega
    · have h3 := hrest j hj
      have h4 : getCount other j = 0 := getCount_eq_zero_of_not_mem hj
      omega
  · intro hnot
    push_neg at hnot
    obtain ⟨j, hj⟩ := hnot
    have hpos : 0 < getCount other j := lt_of_le_of_lt (getCount_nonneg hm j) hj
    have hjmem : j ∈ keysOf other := (getCount_pos_iff_mem ho j).mpr hpos
    obtain ⟨p, hp, hpe⟩ := mem_keysOf.mp hjmem
    have hov : getCount other j = p.2 := by
      rw [← hpe]
      exact getCount_of_mem ho.2 hp
    refine applyItems_fail (fun x c => x - c) other m hm ho.2 ⟨p, hp, ?_⟩
    show getCount m p.1 - p.2 < 0
    rw [hpe]
    omega

/-- C7 witness: the contract instantiated on concrete multisets over ℕ
keys. -/
theorem c7_multiset_contract_witness :
    ((7 : ℕ) ∉ keysOf [((0 : ℕ), (2 : ℤ)), (1, 1)] →
      getCount [((0 : ℕ), (2 : ℤ)), (1, 1)] 7 = 0) ∧
    (setItem [((0 : ℕ), (2 : ℤ)), (1, 1)] 7 0 =
        some (delItem [((0 : ℕ), (2 : ℤ)), (1, 1)] 7) ∧
      (7 : ℕ) ∉ keysOf (delItem [((0 : ℕ), (2 : ℤ)), (1, 1)] 7)) ∧
    ((-1 : ℤ) < 0 → setItem [((0 : ℕ), (2 : ℤ)), (1, 1)] 7 (-1) = none) ∧
    (∀ j : ℕ, j ∈ keysOf [((0 : ℕ), (2 : ℤ)), (1, 1)] ↔
      0 < getCount [((0 : ℕ), (2 : ℤ)), (1, 1)] j) ∧
    (∃ r, addMS [((0 : ℕ), (2 : ℤ)), (1, 1)] [(0, 1), (2, 5)] = some r ∧ WF r ∧
      ∀ j : ℕ, getCount r j = getCount [((0 : ℕ), (2 : ℤ)), (1, 1)] j +
        getCount [((0 : ℕ), (1 : ℤ)), (2, 5)] j) ∧
    ((∀ j : ℕ, getCount [((0 : ℕ), (1 : ℤ)), (2, 5)] j ≤
        getCount [((0 : ℕ), (2 : ℤ)), (1, 1)] j) →
      ∃ r, subMS [((0 : ℕ), (2 : ℤ)), (1, 1)] [(0, 1), (2, 5)] = some r ∧
        ∀ j : ℕ, getCount r j = getCount [((0 : ℕ), (2 : ℤ)), (1, 1)] j -
          getCount [((0 : ℕ), (1 : ℤ)), (2, 5)] j) ∧
    (¬(∀ j : ℕ, getCount [((0 : ℕ), (1 : ℤ)), (2, 5)] j ≤
        getCount [((0 : ℕ), (2 : ℤ)), (1, 1)] j) →
      subMS [((0 : ℕ), (2 : ℤ)), (1, 1)] [(0, 1), (2, 5)] = none) :=
  c7_multiset_contract [(0, 2), (1, 1)] [(0, 1), (2, 5)] 7 (-1)
    (by constructor <;> decide) (by constructor <;> decide)

end IndexV1

/-! ## src/zanzibar_utils_v1.py — entities, patterns, rules

Strings are Lean Strings; a wildcard pattern field is none. The isinstance
type checks cannot fail in the typed model and are omitted. -/

namespace ZUtils

/-- Entity (src/zanzibar_utils_v1.py lines 8-18). -/
structure Entity where
  type : String
  name : String
deriving DecidableEq

/-- Entity.wildcard: the name is the literal "*". -/
def Entity.wildcard (e : Entity) : Bool := e.name = "*"

/-- EntityPattern (lines 55-62): optional fields, none meaning wildcard. -/
structure EntityPattern where
  type : Option String := none
  name : Option String := none
deriving DecidableEq

/-- EntityPattern.wildcard: self.name == "*"; a None name is not "*". -/
def EntityPattern.wildcard (p : EntityPattern) : Bool := p.name = some "*"

/-- EntityPattern.match (lines 64-73): early false returns become an
if-chain. -/
def EntityPattern.matchEntity (p : EntityPattern) (e : Entity) : Bool :=
  if (match p.type with | none => false | some t => t ≠ e.type) then false
  else if (match p.name with | none => false | some n => n ≠ e.name) then false
  else if p.wildcard ≠ e.wildcard then false
  else true

/-- EntityPattern.replace (lines 75-79): `self.type or entity.type` is
Python truthiness, so a None field and an empty-string field both fall back
to the entity's field. -/
def EntityPattern.replaceEntity (p : EntityPattern) (e : Entity) : Entity :=
  { type := match p.type with | none => e.type | some t => if t = "" then e.type else t
    name := match p.name with | none => e.name | some n => if n = "" then e.name else n }

/-- C8: EntityPattern.match succeeds iff every non-None pattern field
equals the corresponding entity field and the pattern and entity agree on
wildcard-ness of the name; in particular a pattern with no name field
never matches an entity named "*". -/
theorem c8_entity_pattern_match (p : EntityPattern) (e : Entity) :
    EntityPattern.matchEntity p e = true ↔
      (p.type = none ∨ p.type = some e.type) ∧
      (p.name = none ∨ p.name = some e.name) ∧
      (p.name = some "*" ↔ e.name = "*") := by
  obtain ⟨pt, pn⟩ := p
  obtain ⟨et, en⟩ := e
  cases pt with
  | none =>
    cases pn with
    | none =>
      by_cases hw : en = "*" <;>
        simp [EntityPattern.matchEntity, EntityPattern.wildcard, Entity.wildcard, hw]
    | some n =>
      by_cases hn : n = en <;> by_cases hw : en = "*" <;> by_cases hnw : n = "*" <;>
        simp_all [EntityPattern.matchEntity, EntityPattern.wildcard, Entity.wildcard]
  | some t =>
    cases pn with
    | none =>
      by_cases ht : t = et <;> by_cases hw : en = "*" <;>
        simp_all [EntityPattern.matchEntity, EntityPattern.wildcard, Entity.wildcard]
    | some n =>
      by_cases ht : t = et <;> by_cases hn : n = en <;> by_cases hw : en = "*" <;>
        by_cases hnw : n = "*" <;>
        simp_all [EntityPattern.matchEntity, EntityPattern.wildcard, Entity.wildcard]

/-- A subject predicate: the Python value is either Ellipsis or a string. -/
inductive Pred where
  | ellipsis
  | str (s : String)
deriving DecidableEq

/-- RelationalTriple (lines 28-52). -/
structure RelationalTriple where
  subject : Entity
  relation : String
  object : Entity
  subject_predicate : Pred := .ellipsis
deriving DecidableEq

/-- RelationalTriplePattern (lines 82-97): all fields optional, none
meaning wildcard. -/
structure RelationalTriplePattern where
  subject_predicate : Option Pred := none
  subject_type : Option String := none
  subject_name : Option String := none
  relation : Option String := none
  object_type : Option String := none
  object_name : Option String := none
deriving DecidableEq

/-- RelationalTriplePattern.subject (lines 91-93). -/
def RelationalTriplePattern.subject (p : RelationalTriplePattern) : EntityPattern :=
  { type := p.subject_type, name := p.subject_name }

/-- RelationalTriplePattern.object (lines 95-97). -/
def RelationalTriplePattern.object (p : RelationalTriplePattern) : EntityPattern :=
  { type := p.object_type, name := p.object_name }

/-- RelationalTriplePattern.match (lines 99-110).  The checks
`self.subject is not None` and `self.object is not None` are always true:
the subject and object properties construct EntityPattern objects. -/
def RelationalTriplePattern.matchTriple (p : RelationalTriplePattern)
    (t : RelationalTriple) : Bool :=
  if (match p.subject_predicate with
      | none => false | some sp => sp ≠ t.subject_predicate) then false
  else if !(p.subject.matchEntity t.subject) then false
  else if (match p.relation with | none => false | some r => r ≠ t.relation) then false
  else if !(p.object.matchEntity t.object) then false
  else true

/-- Python truthiness of the optional subject predicate: None and the empty
string are falsy, Ellipsis is truthy. -/
def predTruthy : Option Pred → Bool
  | none => false
  | some .ellipsis => true
  | some (.str s) => s ≠ ""

/-- RelationalTriplePattern.replace (lines 112-121): `if self.subject_predicate`
and `self.relation or ...` are Python truthiness, so falsy concrete values
(the empty string) fall back to the triple's field; `if self.subject` and
`if self.object` are always truthy since the properties construct pattern
objects, so the entity fields always go through EntityPattern.replace. -/
def RelationalTriplePattern.replaceTriple (p : RelationalTriplePattern)
    (t : RelationalTriple) : RelationalTriple :=
  { subject_predicate :=
      match p.subject_predicate with
      | none => t.subject_predicate
      | some sp => if sp = Pred.str "" then t.subject_predicate else sp
    subject := p.subject.replaceEntity t.subject
    relation := match p.relation with
      | none => t.relation
      | some r => if r = "" then t.relation else r
    object := p.object.replaceEntity t.object }

/-- The replace operation as worded by the spec: every non-None pattern
field overrides the triple's field outright, falsy or not.  Stated for
comparison with the source translation. -/
def specReplaceTriple (p : RelationalTriplePattern) (t : RelationalTriple) :
    RelationalTriple :=
  { subject_predicate :=
      match p.subject_predicate with
      | none => t.subject_predicate
      | some sp => sp
    subject :=
      { type := match p.subject_type with | none => t.subject.type | some x => x
        name := match p.subject_name with | none => t.subject.name | some x => x }
    relation := match p.relation with | none => t.relation | some r => r
    object :=
      { type := match p.object_type with | none => t.object.type | some x => x
        name := match p.object_name with | none => t.object.name | some x => x } }

/-- C9 counterexample: a pattern whose relation field holds the falsy
concrete value "" does not override — Python `or` falls back to the
triple's relation — so replace disagrees with the spec's wording, which
demands that every non-None field override. -/
theorem c9_replace_counterexample :
    RelationalTriplePattern.replaceTriple { relation := some "" }
        { subject := ⟨"user", "alice"⟩, relation := "owner", object := ⟨"doc", "d"⟩ } ≠
      specReplaceTriple { relation := some "" }
        { subject := ⟨"user", "alice"⟩, relation := "owner", object := ⟨"doc", "d"⟩ } ∧
    (RelationalTriplePattern.replaceTriple { relation := some "" }
        { subject := ⟨"user", "alice"⟩, relation := "owner", object := ⟨"doc", "d"⟩ }).relation
      = "owner" ∧
    (specReplaceTriple { relation := some "" }
        { subject := ⟨"user", "alice"⟩, relation := "owner", object := ⟨"doc", "d"⟩ }).relation
      = "" := by
  refine ⟨?_, rfl, rfl⟩
  intro h
  have h2 := congrArg RelationalTriple.relation h
  simp [RelationalTriplePattern.replaceTriple, specReplaceTriple] at h2

/-- C9 amended: replace follows Python truthiness.  A None field passes the
triple's value through; a truthy concrete field (nonempty string, or
Ellipsis for the predicate) overrides; a falsy concrete field (the empty
string, including inside the predicate) also passes the triple's value
through instead of overriding. -/
theorem c9_replace_truthiness (p : RelationalTriplePattern) (t : RelationalTriple) :
    ((p.subject_predicate = none ∨ p.subject_predicate = some (Pred.str "")) →
      (p.replaceTriple t).subject_predicate = t.subject_predicate) ∧
    (∀ sp, p.subject_predicate = some sp → sp ≠ Pred.str "" →
      (p.replaceTriple t).subject_predicate = sp) ∧
    ((p.relation = none ∨ p.relation = some "") →
      (p.replaceTriple t).relation = t.relation) ∧
    (∀ r, p.relation = some r → r ≠ "" → (p.replaceTriple t).relation = r) ∧
    ((p.subject_type = none ∨ p.subject_type = some "") →
      (p.replaceTriple t).subject.type = t.subject.type) ∧
    (∀ x, p.subject_type = some x → x ≠ "" → (p.replaceTriple t).subject.type = x) ∧
    ((p.subject_name = none ∨ p.subject_name = some "") →
      (p.replaceTriple t).subject.name = t.subject.name) ∧
    (∀ x, p.subject_name = some x → x ≠ "" → (p.replaceTriple t).subject.name = x) ∧
    ((p.object_type = none ∨ p.object_type = some "") →
      (p.replaceTriple t).object.type = t.object.type) ∧
    (∀ x, p.object_type = some x → x ≠ "" → (p.replaceTriple t).object.type = x) ∧
    ((p.object_name = none ∨ p.object_name = some "") →
      (p.replaceTriple t).object.name = t.object.name) ∧
    (∀ x, p.object_name = some x → x ≠ "" → (p.replaceTriple t).object.name = x) := by
  refine ⟨?_, ?_, ?_, ?_, ?_, ?_, ?_, ?_, ?_, ?_, ?_, ?_⟩
  · rintro (h | h) <;>
      simp [RelationalTriplePattern.replaceTriple, h]
  · intro sp hsp hne
    simp [RelationalTriplePattern.replaceTriple, hsp, hne]
  · rintro (h | h) <;>
      simp [RelationalTriplePattern.replaceTriple, h]
  · intro r hr hne
    simp [RelationalTriplePattern.replaceTriple, hr, hne]
  · rintro (h | h) <;>
      simp [RelationalTriplePattern.replaceTriple, RelationalTriplePattern.subject,
        EntityPattern.replaceEntity, h]
  · intro x hx hne
    simp [RelationalTriplePattern.replaceTriple, RelationalTriplePattern.subject,
      EntityPattern.replaceEntity, hx, hne]
  · rintro (h | h) <;>
      simp [RelationalTriplePattern.replaceTriple, RelationalTriplePattern.subject,
        EntityPattern.replaceEntity, h]
  · intro x hx hne
    simp [RelationalTriplePattern.replaceTriple, RelationalTriplePattern.subject,
      EntityPattern.replaceEntity, hx, hne]
  · rintro (h | h) <;>
      simp [RelationalTriplePattern.replaceTriple, RelationalTriplePattern.object,
        EntityPattern.replaceEntity, h]
  · intro x hx hne
    simp [RelationalTriplePattern.replaceTriple, RelationalTriplePattern.object,
      EntityPattern.replaceEntity, hx, hne]
  · rintro (h | h) <;>
      simp [RelationalTriplePattern.replaceTriple, RelationalTriplePattern.object,
        EntityPattern.replaceEntity, h]
  · intro x hx hne
    simp [RelationalTriplePattern.replaceTriple, RelationalTriplePattern.object,
      EntityPattern.replaceEntity, hx, hne]

/-- Filter (lines 124-129). -/
structure Filter where
  if_pattern : RelationalTriplePattern
deriving DecidableEq

/-- Filter.apply (lines 128-129). -/
def Filter.apply (f : Filter) (t : RelationalTriple) : Bool :=
  f.if_pattern.matchTriple t

/-- Rule (lines 132-139).  In Python then_pattern may also be None, in which
case a firing rule raises an AttributeError; the saturation claim concerns
rules carrying a pattern, so the model keeps the pattern total. -/
structure Rule where
  if_pattern : RelationalTriplePattern
  then_pattern : RelationalTriplePattern
deriving DecidableEq

/-- Rule.apply (lines 137-139): the triple produced when the if-pattern
matches, None otherwise. -/
def Rule.apply (r : Rule) (t : RelationalTriple) : Option RelationalTriple :=
  if r.if_pattern.matchTriple t then some (r.then_pattern.replaceTriple t) else none

/-- An element of RuleSet.rules_and_filters. -/
inductive RuleOrFilter where
  | filter (f : Filter)
  | rule (r : Rule)
deriving DecidableEq

/-- RuleSet (lines 142-144). -/
structure RuleSet where
  rules_and_filters : List RuleOrFilter

/-- The admission loop of RuleSet.apply (lines 147-155): scan the list for
a Filter matching the triple, breaking at the first hit; the for-else
returns immediately when none does. -/
def admitted (l : List RuleOrFilter) (t : RelationalTriple) : Bool :=
  l.any fun rf => match rf with
    | .filter f => f.apply t
    | .rule _ => false

/-- set.add: the worklist is a set, so adding an element already present
changes nothing. -/
def addNew (w : List RelationalTriple) (x : RelationalTriple) : List RelationalTriple :=
  if x ∈ w then w else x :: w

/-- Body of the inner rule loop of RuleSet.apply (lines 165-169): a Rule
whose pattern matches the popped triple adds its replacement to the
worklist, Filters and non-matching Rules add nothing. -/
def stepOne (u : RelationalTriple) (acc : List RelationalTriple)
    (rf : RuleOrFilter) : List RelationalTriple :=
  match rf with
  | .filter _ => acc
  | .rule r => match r.apply u with
    | none => acc
    | some x => addNew acc x

/-- The inner rule loop of RuleSet.apply (lines 165-169). -/
def stepAdds (l : List RuleOrFilter) (u : RelationalTriple)
    (w : List RelationalTriple) : List RelationalTriple :=
  l.foldl (stepOne u) w

/-- The while loop of RuleSet.apply (lines 157-169): pop a triple (the
model determinizes set.pop to the head), skip it when already processed,
otherwise yield it, mark it processed and run every rule on it.  The list
of yields is the processed list in order.  Python has no fuel; the model
returns none when fuel runs out, and the saturation theorem shows enough
fuel exists. -/
def loopRS (l : List RuleOrFilter) :
    ℕ → List RelationalTriple → List RelationalTriple → Option (List RelationalTriple)
  | 0, _, _ => none
  | _ + 1, [], processed => some processed
  | fuel + 1, u :: rest, processed =>
    if u ∈ processed then loopRS l fuel rest processed
    else loopRS l fuel (stepAdds l u rest) (processed ++ [u])

/-- RuleSet.apply (lines 146-169): nothing if no Filter admits the triple,
else the worklist saturation seeded with the triple. -/
def RuleSet.apply (rs : RuleSet) (t : RelationalTriple) (fuel : ℕ) :
    Option (List RelationalTriple) :=
  if admitted rs.rules_and_filters t then loopRS rs.rules_and_filters fuel [t] []
  else some []

/-- Membership in the least set containing the seed triple and closed under
every Rule of the list. -/
inductive Sat (l : List RuleOrFilter) (t0 : RelationalTriple) :
    RelationalTriple → Prop where
  | base : Sat l t0 t0
  | step {u x : RelationalTriple} {r : Rule} : Sat l t0 u →
      RuleOrFilter.rule r ∈ l → r.apply u = some x → Sat l t0 x

/-! ### Finiteness of the generated triples -/

/-- The strings a pattern can write into a replacement. -/
def strsOfPattern (p : RelationalTriplePattern) : List String :=
  (match p.subject_type with | none => [] | some x => [x]) ++
  (match p.subject_name with | none => [] | some x => [x]) ++
  (match p.relation with | none => [] | some x => [x]) ++
  (match p.object_type with | none => [] | some x => [x]) ++
  (match p.object_name with | none => [] | some x => [x])

/-- The predicates a pattern can write into a replacement. -/
def predsOfPattern (p : RelationalTriplePattern) : List Pred :=
  match p.subject_predicate with | none => [] | some x => [x]

/-- All triples whose fields come from the given pools. -/
def inPool (S : List String) (P : List Pred) (u : RelationalTriple) : Prop :=
  u.subject.type ∈ S ∧ u.subject.name ∈ S ∧ u.relation ∈ S ∧
    u.object.type ∈ S ∧ u.object.name ∈ S ∧ u.subject_predicate ∈ P

/-- The finite universe of pool triples. -/
def univF (S : List String) (P : List Pred) : Finset RelationalTriple :=
  (((S.toFinset ×ˢ S.toFinset) ×ˢ S.toFinset) ×ˢ
      ((S.toFinset ×ˢ S.toFinset) ×ˢ P.toFinset)).image
    (fun q => { subject := ⟨q.1.1.1, q.1.1.2⟩, relation := q.1.2,
                object := ⟨q.2.1.1, q.2.1.2⟩, subject_predicate := q.2.2 })

theorem mem_univF {S : List String} {P : List Pred} {u : RelationalTriple}
    (h : inPool S P u) : u ∈ univF S P := by
  obtain ⟨h1, h2, h3, h4, h5, h6⟩ := h
  refine Finset.mem_image.mpr
    ⟨(((u.subject.type, u.subject.name), u.relation),
      ((u.object.type, u.object.name), u.subject_predicate)), ?_, ?_⟩
  · simp only [Finset.mem_product, List.mem_toFinset]
    exact ⟨⟨⟨h1, h2⟩, h3⟩, ⟨h4, h5⟩, h6⟩
  · cases u with
    | mk sub rel obj sp =>
      cases sub
      cases obj
      rfl

theorem length_le_univF {S : List String} {P : List Pred}
    {w : List RelationalTriple} (hnd : w.Nodup) (h : ∀ u ∈ w, inPool S P u) :
    w.length ≤ (univF S P).card := by
  have h1 : w.toFinset.card = w.length := List.toFinset_card_of_nodup hnd
  rw [← h1]
  apply Finset.card_le_card
  intro x hx
  exact mem_univF (h x (List.mem_toFinset.mp hx))

theorem mem_strs_subject_type {p : RelationalTriplePattern} {x : String}
    (h : p.subject_type = some x) : x ∈ strsOfPattern p := by
  unfold strsOfPattern
  rw [h]
  simp

theorem mem_strs_subject_name {p : RelationalTriplePattern} {x : String}
    (h : p.subject_name = some x) : x ∈ strsOfPattern p := by
  unfold strsOfPattern
  rw [h]
  simp

theorem mem_strs_relation {p : RelationalTriplePattern} {x : String}
    (h : p.relation = some x) : x ∈ strsOfPattern p := by
  unfold strsOfPattern
  rw [h]
  simp

theorem mem_strs_object_type {p : RelationalTriplePattern} {x : String}
    (h : p.object_type = some x) : x ∈ strsOfPattern p := by
  unfold strsOfPattern
  rw [h]
  simp

theorem mem_strs_object_name {p : RelationalTriplePattern} {x : String}
    (h : p.object_name = some x) : x ∈ strsOfPattern p := by
  unfold strsOfPattern
  rw [h]
  simp

theorem mem_preds_subject_predicate {p : RelationalTriplePattern} {x : Pred}
    (h : p.subject_predicate = some x) : x ∈ predsOfPattern p := by
  unfold predsOfPattern
  rw [h]
  simp

/-- A replacement built from a pattern whose written values lie in the
pools keeps a pool triple inside the pools. -/
theorem inPool_replaceTriple {S : List String} {P : List Pred}
    {pat : RelationalTriplePattern} {u : RelationalTriple}
    (hs : ∀ x ∈ strsOfPattern pat, x ∈ S)
    (hp : ∀ x ∈ predsOfPattern pat, x ∈ P)
    (hu : inPool S P u) : inPool S P (pat.replaceTriple u) := by
  obtain ⟨h1, h2, h3, h4, h5, h6⟩ := hu
  refine ⟨?_, ?_, ?_, ?_, ?_, ?_⟩
  · show (match pat.subject_type with
      | none => u.subject.type
      | some t => if t = "" then u.subject.type else t) ∈ S
    cases hf : pat.subject_type with
    | none => exact h1
    | some x =>
      show (if x = "" then u.subject.type else x) ∈ S
      by_cases hx : x = ""
      · rw [if_pos hx]
        exact h1
      · rw [if_neg hx]
        exact hs x (mem_strs_subject_type hf)
  · show (match pat.subject_name with
      | none => u.subject.name
      | some t => if t = "" then u.subject.name else t) ∈ S
    cases hf : pat.subject_name with
    | none => exact h2
    | some x =>
      show (if x = "" then u.subject.name else x) ∈ S
      by_cases hx : x = ""
      · rw [if_pos hx]
        exact h2
      · rw [if_neg hx]
        exact hs x (mem_strs_subject_name hf)
  · show (match pat.relation with
      | none => u.relation
      | some t => if t = "" then u.relation else t) ∈ S
    cases hf : pat.relation with
    | none => exact h3
    | some x =>
      show (if x = "" then u.relation else x) ∈ S
      by_cases hx : x = ""
      · rw [if_pos hx]
        exact h3
      · rw [if_neg hx]
        exact hs x (mem_strs_relation hf)
  · show (match pat.object_type with
      | none => u.object.type
      | some t => if t = "" then u.object.type else t) ∈ S
    cases hf : pat.object_type with
    | none => exact h4
    | some x =>
      show (if x = "" then u.object.type else x) ∈ S
      by_cases hx : x = ""
      · rw [if_pos hx]
        exact h4
      · rw [if_neg hx]
        exact hs x (mem_strs_object_type hf)
  · show (match pat.object_name with
      | none => u.object.name
      | some t => if t = "" then u.object.name else t) ∈ S
    cases hf : pat.object_name with
    | none => exact h5
    | some x =>
      show (if x = "" then u.object.name else x) ∈ S
      by_cases hx : x = ""
      · rw [if_pos hx]
        exact h5
      · rw [if_neg hx]
        exact hs x (mem_strs_object_name hf)
  · show (match pat.subject_predicate with
      | none => u.subject_predicate
      | some sp => if sp = Pred.str "" then u.subject_predicate else sp) ∈ P
    cases hf : pat.subject_predicate with
    | none => exact h6
    | some x =>
      show (if x = Pred.str "" then u.subject_predicate else x) ∈ P
      by_cases hx : x = Pred.str ""
      · rw [if_pos hx]
        exact h6
      · rw [if_neg hx]
        exact hp x (mem_preds_subject_predicate hf)

/-! ### Worklist step lemmas -/

theorem Rule.apply_some {r : Rule} {u x : RelationalTriple}
    (h : r.apply u = some x) :
    r.if_pattern.matchTriple u = true ∧ x = r.then_pattern.replaceTriple u := by
  unfold Rule.apply at h
  by_cases hm : r.if_pattern.matchTriple u
  · rw [if_pos hm] at h
    exact ⟨hm, (Option.some.inj h).symm⟩
  · rw [if_neg hm] at h
    exact absurd h (by simp)

theorem mem_addNew {w : List RelationalTriple} {x y : RelationalTriple} :
    y ∈ addNew w x ↔ y = x ∨ y ∈ w := by
  unfold addNew
  by_cases h : x ∈ w
  · rw [if_pos h]
    constructor
    · intro hy
      exact Or.inr hy
    · rintro (rfl | hy)
      · exact h
      · exact hy
  · rw [if_neg h]
    exact List.mem_cons

theorem addNew_nodup {w : List RelationalTriple} {x : RelationalTriple}
    (h : w.Nodup) : (addNew w x).Nodup := by
  unfold addNew
  by_cases hx : x ∈ w
  · rw [if_pos hx]
    exact h
  · rw [if_neg hx]
    exact List.nodup_cons.mpr ⟨hx, h⟩

theorem stepOne_filter (u : RelationalTriple) (acc : List RelationalTriple)
    (f : Filter) : stepOne u acc (.filter f) = acc := rfl

theorem stepOne_rule_none {u : RelationalTriple} {r : Rule}
    (acc : List RelationalTriple) (h : r.apply u = none) :
    stepOne u acc (.rule r) = acc := by
  show (match r.apply u with | none => acc | some x => addNew acc x) = acc
  rw [h]

theorem stepOne_rule_some {u x : RelationalTriple} {r : Rule}
    (acc : List RelationalTriple) (h : r.apply u = some x) :
    stepOne u acc (.rule r) = addNew acc x := by
  show (match r.apply u with | none => acc | some y => addNew acc y) = addNew acc x
  rw [h]

theorem stepAdds_cons (rf : RuleOrFilter) (l : List RuleOrFilter)
    (u : RelationalTriple) (w : List RelationalTriple) :
    stepAdds (rf :: l) u w = stepAdds l u (stepOne u w rf) := by
  unfold stepAdds
  rw [List.foldl_cons]

theorem mem_stepAdds_mono (l : List RuleOrFilter) :
    ∀ {w : List RelationalTriple} {u x : RelationalTriple},
      x ∈ w → x ∈ stepAdds l u w := by
  induction l with
  | nil =>
    intro w u x hx
    exact hx
  | cons rf l ih =>
    intro w u x hx
    rw [stepAdds_cons]
    apply ih
    cases rf with
    | filter f =>
      rw [stepOne_filter]
      exact hx
    | rule r =>
      cases ha : r.apply u with
      | none =>
        rw [stepOne_rule_none w ha]
        exact hx
      | some y =>
        rw [stepOne_rule_some w ha]
        exact mem_addNew.mpr (Or.inr hx)

theorem stepAdds_nodup (l : List RuleOrFilter) :
    ∀ {w : List RelationalTriple} {u : RelationalTriple},
      w.Nodup → (stepAdds l u w).Nodup := by
  induction l with
  | nil =>
    intro w u h
    exact h
  | cons rf l ih =>
    intro w u h
    rw [stepAdds_cons]
    apply ih
    cases rf with
    | filter f =>
      rw [stepOne_filter]
      exact h
    | rule r =>
      cases ha : r.apply u with
      | none =>
        rw [stepOne_rule_none w ha]
        exact h
      | some y =>
        rw [stepOne_rule_some w ha]
        exact addNew_nodup h

theorem mem_stepAdds_elim (l : List RuleOrFilter) :
    ∀ {w : List RelationalTriple} {u x : RelationalTriple},
      x ∈ stepAdds l u w →
      x ∈ w ∨ ∃ r : Rule, RuleOrFilter.rule r ∈ l ∧ r.apply u = some x := by
  induction l with
  | nil =>
    intro w u x hx
    exact Or.inl hx
  | cons rf l ih =>
    intro w u x hx
    rw [stepAdds_cons] at hx
    cases rf with
    | filter f =>
      rw [stepOne_filter] at hx
      rcases ih hx with h | ⟨r, hr, ha⟩
      · exact Or.inl h
      · exact Or.inr ⟨r, List.mem_cons_of_mem _ hr, ha⟩
    | rule r =>
      cases ha : r.apply u with
      | none =>
        rw [stepOne_rule_none w ha] at hx
        rcases ih hx with h | ⟨r2, hr2, ha2⟩
        · exact Or.inl h
        · exact Or.inr ⟨r2, List.mem_cons_of_mem _ hr2, ha2⟩
      | some y =>
        rw [stepOne_rule_some w ha] at hx
        rcases ih hx with h | ⟨r2, hr2, ha2⟩
        · rcases mem_addNew.mp h with he | hw
          · refine Or.inr ⟨r, List.mem_cons_self _ _, ?_⟩
            rw [ha, he]
          · exact Or.inl hw
        · exact Or.inr ⟨r2, List.mem_cons_of_mem _ hr2, ha2⟩

theorem mem_stepAdds_of_rule (l : List RuleOrFilter) :
    ∀ {w : List RelationalTriple} {u x : RelationalTriple} {r : Rule},
      RuleOrFilter.rule r ∈ l → r.apply u = some x → x ∈ stepAdds l u w := by
  induction l with
  | nil =>
    intro w u x r hr _
    exact absurd hr (List.not_mem_nil _)
  | cons rf l ih =>
    intro w u x r hr ha
    rw [stepAdds_cons]
    rcases List.mem_cons.mp hr with he | ht
    · rw [← he, stepOne_rule_some w ha]
      exact mem_stepAdds_mono l (mem_addNew.mpr (Or.inl rfl))
    · exact ih ht ha

/-- The worklist loop terminates with enough fuel and returns a
duplicate-free, sound, complete and rule-closed list of triples. -/
theorem loop_spec (l : List RuleOrFilter) (t0 : RelationalTriple)
    (S : List String) (P : List Pred)
    (hclose : ∀ r : Rule, RuleOrFilter.rule r ∈ l →
      (∀ x ∈ strsOfPattern r.then_pattern, x ∈ S) ∧
      (∀ x ∈ predsOfPattern r.then_pattern, x ∈ P)) :
    ∀ (fuel : ℕ) (unp proc : List RelationalTriple),
      unp.Nodup → proc.Nodup →
      (∀ u ∈ unp, inPool S P u) → (∀ u ∈ proc, inPool S P u) →
      (∀ u ∈ unp, Sat l t0 u) → (∀ u ∈ proc, Sat l t0 u) →
      (∀ p ∈ proc, ∀ r : Rule, RuleOrFilter.rule r ∈ l → ∀ x,
        r.apply p = some x → x ∈ proc ∨ x ∈ unp) →
      ((univF S P).card - proc.length) * ((univF S P).card + 1) + unp.length < fuel →
      ∃ out, loopRS l fuel unp proc = some out ∧ out.Nodup ∧
        (∀ x ∈ out, Sat l t0 x) ∧
        (∀ x, x ∈ proc ∨ x ∈ unp → x ∈ out) ∧
        (∀ p ∈ out, ∀ r : Rule, RuleOrFilter.rule r ∈ l → ∀ x,
          r.apply p = some x → x ∈ out) := by
  intro fuel
  induction fuel with
  | zero =>
    intro unp proc _ _ _ _ _ _ _ hM
    exact absurd hM (by omega)
  | succ fuel ih =>
    intro unp proc hndU hndP hpoolU hpoolP hsatU hsatP hclosed hM
    cases unp with
    | nil =>
      refine ⟨proc, rfl, hndP, hsatP, ?_, ?_⟩
      · rintro x (hx | hx)
        · exact hx
        · exact absurd hx (List.not_mem_nil x)
      · intro p hp r hr x ha
        rcases hclosed p hp r hr x ha with h | h
        · exact h
        · exact absurd h (List.not_mem_nil x)
    | cons u rest =>
      have hndrest : rest.Nodup := (List.nodup_cons.mp hndU).2
      by_cases hmem : u ∈ proc
      · have heq : loopRS l (fuel + 1) (u :: rest) proc = loopRS l fuel rest proc := by
          show (if u ∈ proc then loopRS l fuel rest proc
            else loopRS l fuel (stepAdds l u rest) (proc ++ [u])) = _
          rw [if_pos hmem]
        rw [heq]
        have hclosed2 : ∀ p ∈ proc, ∀ r : Rule, RuleOrFilter.rule r ∈ l → ∀ x,
            r.apply p = some x → x ∈ proc ∨ x ∈ rest := by
          intro p hp r hr x ha
          rcases hclosed p hp r hr x ha with h | h
          · exact Or.inl h
          · rcases List.mem_cons.mp h with he | ht
            · rw [he]
              exact Or.inl hmem
            · exact Or.inr ht
        have hM2 : ((univF S P).card - proc.length) * ((univF S P).card + 1) +
            rest.length < fuel := by
          rw [List.length_cons] at hM
          omega
        obtain ⟨out, hrun, hnd, hsat, hcont, hcl⟩ := ih rest proc hndrest hndP
          (fun v hv => hpoolU v (List.mem_cons_of_mem _ hv)) hpoolP
          (fun v hv => hsatU v (List.mem_cons_of_mem _ hv)) hsatP hclosed2 hM2
        refine ⟨out, hrun, hnd, hsat, ?_, hcl⟩
        rintro x (hx | hx)
        · exact hcont x (Or.inl hx)
        · rcases List.mem_cons.mp hx with he | ht
          · rw [he]
            exact hcont u (Or.inl hmem)
          · exact hcont x (Or.inr ht)
      · have heq : loopRS l (fuel + 1) (u :: rest) proc =
            loopRS l fuel (stepAdds l u rest) (proc ++ [u]) := by
          show (if u ∈ proc then loopRS l fuel rest proc
            else loopRS l fuel (stepAdds l u rest) (proc ++ [u])) = _
          rw [if_neg hmem]
        rw [heq]
        have hpoolu : inPool S P u := hpoolU u (List.mem_cons_self _ _)
        have hsatu : Sat l t0 u := hsatU u (List.mem_cons_self _ _)
        have hndP2 : (proc ++ [u]).Nodup := by
          rw [List.nodup_append]
          refine ⟨hndP, List.nodup_singleton u, ?_⟩
          intro a ha hb
          rw [List.mem_singleton] at hb
          rw [hb] at ha
          exact hmem ha
        have hndU2 : (stepAdds l u rest).Nodup := stepAdds_nodup l hndrest
        have hpoolP2 : ∀ v ∈ proc ++ [u], inPool S P v := by
          intro v hv
          rcases List.mem_append.mp hv with h | h
          · exact hpoolP v h
          · rw [List.mem_singleton] at h
            rw [h]
            exact hpoolu
        have hpoolU2 : ∀ v ∈ stepAdds l u rest, inPool S P v := by
          intro v hv
          rcases mem_stepAdds_elim l hv with h | ⟨r, hr, ha⟩
          · exact hpoolU v (List.mem_cons_of_mem _ h)
          · obtain ⟨hmatch, hxe⟩ := Rule.apply_some ha
            rw [hxe]
            exact inPool_replaceTriple (hclose r hr).1 (hclose r hr).2 hpoolu
        have hsatP2 : ∀ v ∈ proc ++ [u], Sat l t0 v := by
          intro v hv
          rcases List.mem_append.mp hv with h | h
          · exact hsatP v h
          · rw [List.mem_singleton] at h
            rw [h]
            exact hsatu
        have hsatU2 : ∀ v ∈ stepAdds l u rest, Sat l t0 v := by
          intro v hv
          rcases mem_stepAdds_elim l hv with h | ⟨r, hr, ha⟩
          · exact hsatU v (List.mem_cons_of_mem _ h)
          · exact Sat.step hsatu hr ha
        have hclosed2 : ∀ p ∈ proc ++ [u], ∀ r : Rule, RuleOrFilter.rule r ∈ l →
            ∀ x, r.apply p = some x → x ∈ proc ++ [u] ∨ x ∈ stepAdds l u rest := by
          intro p hp r hr x ha
          rcases List.mem_append.mp hp with h | h
          · rcases hclosed p h r hr x ha with h2 | h2
            · exact Or.inl (List.mem_append_left _ h2)
            · rcases List.mem_cons.mp h2 with he | ht
              · rw [he]
                exact Or.inl (List.mem_append_right _ (List.mem_singleton_self u))
              · exact Or.inr (mem_stepAdds_mono l ht)
          · rw [List.mem_singleton] at h
            rw [h] at ha
            exact Or.inr (mem_stepAdds_of_rule l hr ha)
        have hB1 : (proc ++ [u]).length ≤ (univF S P).card :=
          length_le_univF hndP2 hpoolP2
        have hB2 : (stepAdds l u rest).length ≤ (univF S P).card :=
          length_le_univF hndU2 hpoolU2
        have hMnew : ((univF S P).card - (proc ++ [u]).length) *
            ((univF S P).card + 1) + (stepAdds l u rest).length < fuel := by
          rw [List.length_append, List.length_singleton] at hB1 ⊢
          rw [List.length_cons] at hM
          have hC : 1 ≤ (univF S P).card - proc.length := by omega
          have hsub : (univF S P).card - (proc.length + 1) =
              (univF S P).card - proc.length - 1 := by omega
          rw [hsub, Nat.sub_mul, one_mul]
          have hge : (univF S P).card + 1 ≤
              ((univF S P).card - proc.length) * ((univF S P).card + 1) :=
            Nat.le_mul_of_pos_left _ hC
          omega
        obtain ⟨out, hrun, hnd, hsat, hcont, hcl⟩ :=
          ih (stepAdds l u rest) (proc ++ [u]) hndU2 hndP2 hpoolU2 hpoolP2
            hsatU2 hsatP2 hclosed2 hMnew
        refine ⟨out, hrun, hnd, hsat, ?_, hcl⟩
        rintro x (hx | hx)
        · exact hcont x (Or.inl (List.mem_append_left _ hx))
        · rcases List.mem_cons.mp hx with he | ht
          · rw [he]
            exact hcont u (Or.inl (List.mem_append_right _ (List.mem_singleton_self u)))
          · exact hcont x (Or.inr (mem_stepAdds_mono l ht))

/-- A rule-closed set containing the seed contains the whole saturation. -/
theorem sat_mem_of_closed {l : List RuleOrFilter} {t0 : RelationalTriple}
    {out : List RelationalTriple} (hbase : t0 ∈ out)
    (hclosed : ∀ p ∈ out, ∀ r : Rule, RuleOrFilter.rule r ∈ l → ∀ x,
      r.apply p = some x → x ∈ out) :
    ∀ x, Sat l t0 x → x ∈ out := by
  intro x hx
  induction hx with
  | base => exact hbase
  | step hu hr ha ih => exact hclosed _ ih _ hr _ ha

/-- The string pool of a run: the seed triple's fields and everything the
rules can write. -/
def poolStrs (l : List RuleOrFilter) (t : RelationalTriple) : List String :=
  [t.subject.type, t.subject.name, t.relation, t.object.type, t.object.name] ++
    l.flatMap fun rf => match rf with
      | .filter _ => []
      | .rule r => strsOfPattern r.then_pattern

/-- The predicate pool of a run. -/
def poolPreds (l : List RuleOrFilter) (t : RelationalTriple) : List Pred :=
  t.subject_predicate :: l.flatMap fun rf => match rf with
    | .filter _ => []
    | .rule r => predsOfPattern r.then_pattern

theorem pool_close (l : List RuleOrFilter) (t : RelationalTriple) :
    ∀ r : Rule, RuleOrFilter.rule r ∈ l →
      (∀ x ∈ strsOfPattern r.then_pattern, x ∈ poolStrs l t) ∧
      (∀ x ∈ predsOfPattern r.then_pattern, x ∈ poolPreds l t) := by
  intro r hr
  constructor
  · intro x hx
    unfold poolStrs
    apply List.mem_append_right
    exact List.mem_flatMap.mpr ⟨RuleOrFilter.rule r, hr, hx⟩
  · intro x hx
    unfold poolPreds
    apply List.mem_cons_of_mem
    exact List.mem_flatMap.mpr ⟨RuleOrFilter.rule r, hr, hx⟩

theorem pool_self (l : List RuleOrFilter) (t : RelationalTriple) :
    inPool (poolStrs l t) (poolPreds l t) t := by
  refine ⟨?_, ?_, ?_, ?_, ?_, List.mem_cons_self _ _⟩ <;>
    · unfold poolStrs
      apply List.mem_append_left
      simp

/-- C6: RuleSet.apply on a triple admitted by no Filter yields nothing;
on an admitted triple it terminates with enough fuel and yields, without
duplicates, exactly the saturation of the triple under the Rules — the
least set containing the triple and closed under firing every Rule whose
if-pattern matches an element. -/
theorem c6_ruleset_saturation (rs : RuleSet) (t : RelationalTriple) :
    (admitted rs.rules_and_filters t = false →
      ∀ fuel, RuleSet.apply rs t fuel = some []) ∧
    (admitted rs.rules_and_filters t = true →
      ∃ fuel out, RuleSet.apply rs t fuel = some out ∧ out.Nodup ∧
        ∀ x, x ∈ out ↔ Sat rs.rules_and_filters t x) := by
  constructor
  · intro hadm fuel
    unfold RuleSet.apply
    rw [if_neg (by simp [hadm])]
  · intro hadm
    obtain ⟨out, hrun, hnd, hsat, hcont, hcl⟩ :=
      loop_spec rs.rules_and_filters t
        (poolStrs rs.rules_and_filters t) (poolPreds rs.rules_and_filters t)
        (pool_close rs.rules_and_filters t)
        ((univF (poolStrs rs.rules_and_filters t)
            (poolPreds rs.rules_and_filters t)).card *
          ((univF (poolStrs rs.rules_and_filters t)
            (poolPreds rs.rules_and_filters t)).card + 1) + 2)
        [t] [] (List.nodup_singleton t) List.nodup_nil
        (fun v hv => by
          rw [List.mem_singleton] at hv
          rw [hv]
          exact pool_self rs.rules_and_filters t)
        (fun v hv => absurd hv (List.not_mem_nil v))
        (fun v hv => by
          rw [List.mem_singleton] at hv
          rw [hv]
          exact Sat.base)
        (fun v hv => absurd hv (List.not_mem_nil v))
        (fun p hp => absurd hp (List.not_mem_nil p))
        (by
          simp only [List.length_nil, List.length_singleton, Nat.sub_zero]
          omega)
    refine ⟨(univF (poolStrs rs.rules_and_filters t)
          (poolPreds rs.rules_and_filters t)).card *
        ((univF (poolStrs rs.rules_and_filters t)
          (poolPreds rs.rules_and_filters t)).card + 1) + 2, out, ?_, hnd, fun x =>
      ⟨hsat x, sat_mem_of_closed (hcont t (Or.inr (List.mem_singleton_self t))) hcl x⟩⟩
    unfold RuleSet.apply
    rw [if_pos hadm]
    exact hrun

end ZUtils
